import Mathlib

/-!
# cryptotax: the lot-matching accounting engine

A shallow embedding of `accounting/book.go`, `transaction/tx.go`,
`transaction/currency.go`, `transaction/type.go` and `math/float.go`.

Modelling decisions:

* `*big.Float` quantities are rationals (`ℚ`). The embedding of the whole program
  computes with them exactly: this is the reading "quantities modelled as exact
  numbers". The method `sell`, whose result several statements pin down to the last
  bit, is embedded a second time with the arithmetic of `big.Float` (`sellFuelR`,
  `Book.sellR`): a rounding function `R.rnd` is applied to the exact result of every
  `Sub` and `Mul`. `Rounding.bigFloat` rounds to the nearest number with a mantissa of
  `math.FloatPrec` = 100 bits, ties to even, which is the arithmetic of the program;
  `Rounding.exact` does not round and gives the exact embedding back. Every number of
  the program has the precision of `math.NewFloat`, so `Set` and `Copy` do not round.
  The 32 bit exponent range of `big.Float`, infinities and the sign of zero are not
  modelled.
* `time.Time` is the number of nanoseconds since the Unix epoch (UTC, no monotonic
  clock reading, as produced by `time.Parse`); `time.Duration` is an `Int` kept in
  the int64 range by `Time.Sub`.
* a `*credit` returned by `findCredit` is an index into the pool together with the
  lot it points to; a write through the pointer is `List.set` at that index.
* the self-recursive methods `sell` and `addCredit` carry a fuel argument; the
  methods themselves start with `len(records) + 1` units, and the theorems show
  that this is always enough.
* logging and printing are not modelled.
* `sort.Slice` (standard library, not stable) is a parameter: any function that
  returns a permutation of its input which is ordered by the comparison function.
-/

namespace Cryptotax

/-! ## package transaction -/

/-- Go `type Currency int`. -/
abbrev Currency := Int

def CurrencyUndef : Currency := 0
def BCH : Currency := 1
def BTC : Currency := 2
def DASH : Currency := 3
def EOS : Currency := 4
def ETH : Currency := 5
def EUR : Currency := 6
def LTC : Currency := 7
def NMC : Currency := 8
def XLM : Currency := 9
def XMR : Currency := 10
def XRP : Currency := 11
def ZEC : Currency := 12

/-- Go `type Type int` of package transaction. -/
abbrev TxType := Int

def TypeUndef : TxType := 0
def Buy : TxType := 1
def Sell : TxType := 2

/-- Go `time.Time`: nanoseconds since the Unix epoch. -/
abbrev Time := Int

/-- Go `time.Duration`: a count of nanoseconds. -/
abbrev Duration := Int

def minDuration : Duration := -(2 ^ 63)

def maxDuration : Duration := 2 ^ 63 - 1

/-- Go `t.Sub(u)`: the difference `t - u`, saturated to the range of an int64
nanosecond count. -/
def Time.Sub (t u : Time) : Duration :=
  if t - u < minDuration then minDuration
  else if maxDuration < t - u then maxDuration
  else t - u

/-- Go `t.After(u)`. -/
def Time.After (t u : Time) : Bool := decide (u < t)

/-- Go `t.Before(u)`. -/
def Time.Before (t u : Time) : Bool := decide (t < u)

/-- Go `t.UnixNano()`: the nanosecond count as an int64 (it wraps around when the
instant is outside the years 1678 to 2262). -/
def Time.UnixNano (t : Time) : Int := (t + 2 ^ 63) % 2 ^ 64 - 2 ^ 63

/-- Go `t.Year()` for a UTC time: the year of the proleptic Gregorian calendar. -/
def Time.Year (t : Time) : Int :=
  let days := t / (86400 * 1000000000)
  let z := days + 719468
  let era := z / 146097
  let doe := z - era * 146097
  let yoe := (doe - doe / 1460 + doe / 36524 - doe / 146096) / 365
  let doy := doe - (365 * yoe + yoe / 4 - yoe / 100)
  let mp := (5 * doy + 2) / 153
  yoe + era * 400 + (if mp < 10 then 0 else 1)

/-- Go `transaction.Tx`. The field `Type` is called `Typ`. -/
structure Tx where
  ID : String
  Exchange : String
  Timestamp : Time
  Typ : TxType
  PayCurrency : Cryptotax.Currency
  Currency : Cryptotax.Currency
  Quantity : ℚ
  SpotPrice : ℚ
  Fees : ℚ
deriving DecidableEq

/-- Go `(*Tx).PriceNoFees`, with exact arithmetic. -/
def Tx.PriceNoFees (r : Tx) : ℚ := r.Quantity * r.SpotPrice

/-! ## package accounting -/

/-- Go `const TaxFreeAfter = time.Hour * 24 * 365`, in nanoseconds. -/
def TaxFreeAfter : Duration := 3600 * 1000000000 * 24 * 365

/-- Go `accounting.TaxRecord`. -/
structure TaxRecord where
  Currency : Cryptotax.Currency
  BuyTs : Time
  SellTs : Time
  SellPrice : ℚ
  BuyPrice : ℚ
  AdvertisingCosts : ℚ
  HoldLongerThenAYear : Bool
  TaxYear : Int
deriving DecidableEq

/-- Go `accounting.sell`: one match of a disposal against a lot. -/
structure sell where
  profit : ℚ
  quantity : ℚ
  holdTime : Duration
  tx : Tx
  paidWithCryptocurrency : Bool
deriving DecidableEq

/-- Go `accounting.credit`: one lot. -/
structure credit where
  balance : ℚ
  buyTx : Tx
  sells : List sell
deriving DecidableEq

/-- Go `accounting.Book`. -/
structure Book where
  records : List credit
  buys : List Tx
  sells : List Tx
  taxYear : Int
deriving DecidableEq

/-- Go `(*sell).HoldTimeIsLessThenYear`. -/
def sell.HoldTimeIsLessThenYear (s : sell) : Bool := decide (s.holdTime ≤ TaxFreeAfter)

/-- Go `sort.Slice`: the contract of the standard library routine. The result is a
permutation of the input, and it is ordered when the comparison is a strict weak
ordering. Nothing is promised about the relative order of equal elements. -/
structure SortSlice where
  sort : {α : Type} → (α → α → Bool) → List α → List α
  perm : ∀ {α : Type} (less : α → α → Bool) (xs : List α), List.Perm (sort less xs) xs
  sorted : ∀ {α : Type} (less : α → α → Bool) (xs : List α),
    (∀ a b, less a b = true → less b a = false) →
    (∀ a b c, less b a = false → less c b = false → less c a = false) →
    List.Pairwise (fun a b => less b a = false) (sort less xs)

/-- The comparison function `NewBook` hands to `sort.Slice`. -/
def lessByUnixNano (x y : Tx) : Bool :=
  decide (Time.UnixNano x.Timestamp < Time.UnixNano y.Timestamp)

/-- The loop of `NewBook`: the records are split into buys and sells, and the first
record of another type ends the construction with an error. -/
def NewBook.split : List Tx → Book → Except String Book
  | [], b => .ok b
  | rec :: rest, b =>
    if rec.Typ = Buy then
      NewBook.split rest { b with buys := b.buys ++ [rec] }
    else if rec.Typ = Sell then
      NewBook.split rest { b with sells := b.sells ++ [rec] }
    else
      .error "unsupported transaction type"

/-- Go `NewBook`. The text of the error does not name the offending type. -/
def NewBook (S : SortSlice) (records : List Tx) (taxYear : Int) : Except String Book :=
  match NewBook.split records { records := [], buys := [], sells := [], taxYear := taxYear } with
  | .error e => .error e
  | .ok b =>
    .ok { b with buys := S.sort lessByUnixNano b.buys, sells := S.sort lessByUnixNano b.sells }

/-- Go `(*Book).findCredit` on the pool `b.records`: the index of the lot found and the
lot itself, or `none` for the error `does not exist`. -/
def findCreditIn : List credit → Currency → Time → Option (Nat × credit)
  | [], _, _ => none
  | brec :: rest, currency, frm =>
    if brec.balance = 0 then
      (findCreditIn rest currency frm).map (fun p => (p.1 + 1, p.2))
    else if brec.buyTx.Currency ≠ currency then
      (findCreditIn rest currency frm).map (fun p => (p.1 + 1, p.2))
    else if Time.After brec.buyTx.Timestamp frm = true then
      (findCreditIn rest currency frm).map (fun p => (p.1 + 1, p.2))
    else
      some (0, brec)

/-- Go `(*Book).findCredit`. -/
def Book.findCredit (b : Book) (currency : Currency) (frm : Time) : Option (Nat × credit) :=
  findCreditIn b.records currency frm

/-- Go `calcProfit`, with exact arithmetic (`calcProfitR` rounds). -/
def calcProfit (amount : ℚ) (buy : Tx) (sell : Tx) : ℚ :=
  amount * sell.SpotPrice - amount * buy.SpotPrice

/-- The two statements `c.balance.Sub(c.balance, m.quantity)` and
`c.sells = append(c.sells, &m)` that `sell` and `addCredit` run on the lot found, with
exact arithmetic (`credit.debitR` rounds). -/
def credit.debit (c : credit) (m : sell) : credit :=
  { c with balance := c.balance - m.quantity, sells := c.sells ++ [m] }

/-- The match that `sell` records for the quantity `amount` taken from `creditRec`. -/
def sellMatch (amount : ℚ) (creditRec : credit) (tx : Tx) : sell :=
  { tx := tx
    holdTime := Time.Sub tx.Timestamp creditRec.buyTx.Timestamp
    quantity := amount
    profit := calcProfit amount creditRec.buyTx tx
    paidWithCryptocurrency := false }

/-- Go `(*Book).sell` on the pool, with exact arithmetic (`sellFuelR` rounds) and with
fuel for the recursion. The result is the new pool and the returned pair (remainder,
error); `none` means the fuel ran out. -/
def sellFuel : Nat → List credit → ℚ → Tx → Option (List credit × Except String ℚ)
  | 0, _, _, _ => none
  | fuel + 1, records, quantity, tx =>
    match findCreditIn records tx.Currency tx.Timestamp with
    | none => some (records, .ok 0)
    | some (i, creditRec) =>
      if quantity ≤ creditRec.balance then
        some (records.set i (creditRec.debit (sellMatch quantity creditRec tx)), .ok 0)
      else
        sellFuel fuel (records.set i (creditRec.debit (sellMatch creditRec.balance creditRec tx)))
          (quantity - creditRec.balance) tx

/-- Go `(*Book).sell`, with exact arithmetic (`Book.sellR` rounds). -/
def Book.sell (b : Book) (quantity : ℚ) (tx : Tx) : Option (Book × Except String ℚ) :=
  (sellFuel (b.records.length + 1) b.records quantity tx).map
    (fun r => ({ b with records := r.1 }, r.2))

/-! ### `sell` with the arithmetic of `big.Float` -/

/-- Go `math.FloatPrec`: the length in bits of the mantissa of every number that
`math.NewFloat` makes. -/
def FloatPrec : Nat := 100

/-- The integer nearest to `m`, the even one of the two when `m` lies half way: the
rounding mode `ToNearestEven`, the default of `big.Float`. -/
def roundHalfEven (m : ℚ) : Int :=
  if m - ⌊m⌋ < 1 / 2 then ⌊m⌋
  else if 1 / 2 < m - ⌊m⌋ then ⌊m⌋ + 1
  else if ⌊m⌋ % 2 = 0 then ⌊m⌋ else ⌊m⌋ + 1

/-- The value that a `big.Float` of precision `prec` takes when the exact result of an
operation is `x`: with `2 ^ e ≤ |x| < 2 ^ (e + 1)`, the multiple of `2 ^ (e - (prec - 1))`
nearest to `x`, ties to the even multiple. -/
def roundToPrec (prec : Nat) (x : ℚ) : ℚ :=
  if x = 0 then 0
  else (roundHalfEven (x / 2 ^ (Int.log 2 |x| - ((prec : Int) - 1))) : ℚ)
    * 2 ^ (Int.log 2 |x| - ((prec : Int) - 1))

/-- How the result of an arithmetic operation is stored: `rnd x` is the number kept for
the exact result `x`. A result of zero is kept as zero. -/
structure Rounding where
  rnd : ℚ → ℚ
  rnd_zero : rnd 0 = 0

/-- No rounding: exact arithmetic. -/
def Rounding.exact : Rounding :=
  { rnd := fun x => x
    rnd_zero := rfl }

/-- The arithmetic of the program: every result is rounded to `FloatPrec` bits. -/
def Rounding.bigFloat : Rounding :=
  { rnd := roundToPrec FloatPrec
    rnd_zero := if_pos rfl }

/-- Go `calcProfit`: two products and their difference, each rounded (the receivers have
precision 0 and take the precision of the operands). -/
def calcProfitR (R : Rounding) (amount : ℚ) (buy : Tx) (sell : Tx) : ℚ :=
  R.rnd (R.rnd (amount * sell.SpotPrice) - R.rnd (amount * buy.SpotPrice))

/-- The two statements `c.balance.Sub(c.balance, m.quantity)` and
`c.sells = append(c.sells, &m)` that `sell` runs on the lot found; `Sub` rounds. -/
def credit.debitR (R : Rounding) (c : credit) (m : sell) : credit :=
  { c with balance := R.rnd (c.balance - m.quantity), sells := c.sells ++ [m] }

/-- The match that `sell` records for the quantity `amount` taken from `creditRec`.
`math.NewFloat().Set(amount)` copies the quantity: it is a number of `FloatPrec` bits, as
every number of the program is. -/
def sellMatchR (R : Rounding) (amount : ℚ) (creditRec : credit) (tx : Tx) : sell :=
  { tx := tx
    holdTime := Time.Sub tx.Timestamp creditRec.buyTx.Timestamp
    quantity := amount
    profit := calcProfitR R amount creditRec.buyTx tx
    paidWithCryptocurrency := false }

/-- Go `(*Book).sell` on the pool with rounded arithmetic, with fuel for the recursion:
`remaining.Sub(quantity, creditRec.balance)` rounds the quantity handed to the recursive
call. The result is the new pool and the returned pair (remainder, error); `none` means
the fuel ran out. -/
def sellFuelR (R : Rounding) : Nat → List credit → ℚ → Tx → Option (List credit × Except String ℚ)
  | 0, _, _, _ => none
  | fuel + 1, records, quantity, tx =>
    match findCreditIn records tx.Currency tx.Timestamp with
    | none => some (records, .ok 0)
    | some (i, creditRec) =>
      if quantity ≤ creditRec.balance then
        some (records.set i (creditRec.debitR R (sellMatchR R quantity creditRec tx)), .ok 0)
      else
        sellFuelR R fuel
          (records.set i (creditRec.debitR R (sellMatchR R creditRec.balance creditRec tx)))
          (R.rnd (quantity - creditRec.balance)) tx

/-- Go `(*Book).sell` with rounded arithmetic. -/
def Book.sellR (R : Rounding) (b : Book) (quantity : ℚ) (tx : Tx) :
    Option (Book × Except String ℚ) :=
  (sellFuelR R (b.records.length + 1) b.records quantity tx).map
    (fun r => ({ b with records := r.1 }, r.2))

/-- The match that `addCredit` records for the amount taken from `credit`. -/
def tradeMatch (amount : ℚ) (credit : credit) (rec : Tx) : sell :=
  { tx := rec
    holdTime := Time.Sub rec.Timestamp credit.buyTx.Timestamp
    quantity := amount
    profit := 0
    paidWithCryptocurrency := true }

/-- Go `(*Book).addCredit` on the pool, with fuel for the recursion. The quantity handed
to the recursive call is a quotient by `rec.SpotPrice`; a call for a buy that is not
paid in EUR never reads its quantity argument, so the value of that quotient (also at a
spot price of zero) has no effect on the result. -/
def addCreditFuel : Nat → List credit → ℚ → Tx → Option (List credit × Except String ℚ)
  | 0, _, _, _ => none
  | fuel + 1, records, quantity, rec =>
    if rec.PayCurrency = EUR then
      some (records ++ [{ balance := quantity, buyTx := rec, sells := [] }], .ok 0)
    else
      match findCreditIn records rec.PayCurrency rec.Timestamp with
      | none => some (records, .error "could not find credit for buying")
      | some (i, credit) =>
        if rec.PriceNoFees ≤ credit.balance then
          some (records.set i (credit.debit (tradeMatch rec.PriceNoFees credit rec)), .ok 0)
        else
          addCreditFuel fuel (records.set i (credit.debit (tradeMatch credit.balance credit rec)))
            ((rec.PriceNoFees - credit.balance) / rec.SpotPrice) rec

/-- Go `(*Book).addCredit`. -/
def Book.addCredit (b : Book) (quantity : ℚ) (rec : Tx) : Option (Book × Except String ℚ) :=
  (addCreditFuel (b.records.length + 1) b.records quantity rec).map
    (fun r => ({ b with records := r.1 }, r.2))

/-- The loop of `addCredits` over the buys still to be processed. -/
def addCreditsLoop : List Tx → Book → Option (Book × Option String)
  | [], b => some (b, none)
  | rec :: rest, b =>
    match b.addCredit rec.Quantity rec with
    | none => none
    | some (b1, .error err) => some (b1, some err)
    | some (b1, .ok _) => addCreditsLoop rest b1

/-- Go `(*Book).addCredits`: the argument is ignored, the loop runs over `b.buys`. -/
def Book.addCredits (b : Book) (_recs : List Tx) : Option (Book × Option String) :=
  addCreditsLoop b.buys b

/-- The loop of `Calculate` over the sells still to be processed. -/
def sellsLoop : List Tx → Book → Option (Book × Option String)
  | [], b => some (b, none)
  | tx :: rest, b =>
    match b.sell tx.Quantity tx with
    | none => none
    | some (b1, .error err) => some (b1, some err)
    | some (b1, .ok _) => sellsLoop rest b1

/-- Go `(*Book).Calculate`: the book it leaves behind and the error it returns. -/
def Book.Calculate (b : Book) : Option (Book × Option String) :=
  match b.addCredits b.buys with
  | none => none
  | some (b1, some err) => some (b1, some err)
  | some (b1, none) => sellsLoop b1.sells b1

/-- One pass of the body of the inner loop of `TaxRecords`: the fees charged to the
match `s` of the lot `rec` and the new set of transaction IDs whose fees are counted. -/
def claimFees (rec : credit) (s : sell) (includedFees : List String) : ℚ × List String :=
  let fees1 := if s.tx.ID ∈ includedFees then 0 else 0 + s.tx.Fees
  let inc1 := if s.tx.ID ∈ includedFees then includedFees else s.tx.ID :: includedFees
  let fees2 := if rec.buyTx.ID ∈ inc1 then fees1 else fees1 + rec.buyTx.Fees
  let inc2 := if rec.buyTx.ID ∈ inc1 then inc1 else rec.buyTx.ID :: inc1
  (fees2, inc2)

/-- The record `TaxRecords` builds for the match `s` of the lot `rec`. -/
def mkTaxRecord (rec : credit) (s : sell) (fees : ℚ) : TaxRecord :=
  { Currency := rec.buyTx.Currency
    BuyTs := rec.buyTx.Timestamp
    SellTs := s.tx.Timestamp
    SellPrice := s.quantity * s.tx.SpotPrice
    BuyPrice := s.quantity * rec.buyTx.SpotPrice
    AdvertisingCosts := fees
    HoldLongerThenAYear := !s.HoldTimeIsLessThenYear
    TaxYear := Time.Year s.tx.Timestamp }

/-- The inner loop of `TaxRecords` over the matches of one lot. -/
def taxRecordsOfSells (rec : credit) : List sell → List String → List TaxRecord × List String
  | [], includedFees => ([], includedFees)
  | s :: rest, includedFees =>
    let r := taxRecordsOfSells rec rest (claimFees rec s includedFees).2
    (mkTaxRecord rec s (claimFees rec s includedFees).1 :: r.1, r.2)

/-- The outer loop of `TaxRecords` over the lots of the pool. -/
def taxRecordsOfPool : List credit → List String → List TaxRecord
  | [], _ => []
  | rec :: rest, includedFees =>
    (taxRecordsOfSells rec rec.sells includedFees).1 ++
      taxRecordsOfPool rest (taxRecordsOfSells rec rec.sells includedFees).2

/-- The comparison function `TaxRecords` hands to `sort.Slice`. -/
def lessTaxRecord (x y : TaxRecord) : Bool :=
  if x.TaxYear ≠ y.TaxYear then decide (x.TaxYear < y.TaxYear)
  else if x.SellTs ≠ y.SellTs then Time.Before x.SellTs y.SellTs
  else decide (x.Currency < y.Currency)

/-- Go `(*Book).TaxRecords`. -/
def Book.TaxRecords (S : SortSlice) (b : Book) : List TaxRecord :=
  S.sort lessTaxRecord (taxRecordsOfPool b.records [])

/-- The part of the text of `TaxReport` that is computed: the rows written to the table,
in order, and the three numbers printed below it (`Count`, `Earning`, `Loss`). The
rendering as text is not modelled. -/
structure ReportTotals where
  rows : List TaxRecord
  count : Nat
  earnings : ℚ
  loss : ℚ
deriving DecidableEq

/-- The loop of `TaxReport` over the tax records. -/
def taxReportLoop (full : Bool) (taxYear : Int) : List TaxRecord → ReportTotals → ReportTotals
  | [], acc => acc
  | tr :: rest, acc =>
    if full = false ∧ taxYear ≠ tr.TaxYear then
      taxReportLoop full taxYear rest acc
    else if full = false ∧ tr.HoldLongerThenAYear = true then
      taxReportLoop full taxYear rest acc
    else if 0 ≤ tr.SellPrice - tr.BuyPrice - tr.AdvertisingCosts then
      taxReportLoop full taxYear rest
        { rows := acc.rows ++ [tr], count := acc.count + 1,
          earnings := acc.earnings + (tr.SellPrice - tr.BuyPrice - tr.AdvertisingCosts),
          loss := acc.loss }
    else
      taxReportLoop full taxYear rest
        { rows := acc.rows ++ [tr], count := acc.count + 1,
          earnings := acc.earnings,
          loss := acc.loss + (tr.SellPrice - tr.BuyPrice - tr.AdvertisingCosts) }

/-- Go `(*Book).TaxReport`. -/
def Book.TaxReport (S : SortSlice) (b : Book) (full : Bool) : ReportTotals :=
  taxReportLoop full b.taxYear (b.TaxRecords S) { rows := [], count := 0, earnings := 0, loss := 0 }

/-! ## Specification-level definitions and example data -/

/-- The three conditions under which `findCredit` accepts a lot: the balance is not
zero, the currency is the one asked for, the buy is not after `frm`. -/
def eligible (currency : Currency) (frm : Time) (c : credit) : Prop :=
  c.balance ≠ 0 ∧ c.buyTx.Currency = currency ∧ c.buyTx.Timestamp ≤ frm

instance eligibleDecidable (currency : Currency) (frm : Time) (c : credit) :
    Decidable (eligible currency frm c) := by
  unfold eligible
  exact inferInstance

/-- One pass of `sell` over the pool from front to back: the single-pass form of the
recursion of `sellFuel`. -/
def sellWalk : List credit → ℚ → Tx → List credit
  | [], _, _ => []
  | c :: rest, quantity, tx =>
    if eligible tx.Currency tx.Timestamp c then
      if quantity ≤ c.balance then
        c.debit (sellMatch quantity c tx) :: rest
      else
        c.debit (sellMatch c.balance c tx) :: sellWalk rest (quantity - c.balance) tx
    else
      c :: sellWalk rest quantity tx

/-- One pass of `addCredit` for a buy that is not paid in EUR over the pool from front
to back: the single-pass form of the recursion of `addCreditFuel`. -/
def addCreditWalk : List credit → Tx → List credit × Except String ℚ
  | [], _ => ([], .error "could not find credit for buying")
  | c :: rest, rec =>
    if eligible rec.PayCurrency rec.Timestamp c then
      if rec.PriceNoFees ≤ c.balance then
        (c.debit (tradeMatch rec.PriceNoFees c rec) :: rest, .ok 0)
      else
        (c.debit (tradeMatch c.balance c rec) :: (addCreditWalk rest rec).1,
          (addCreditWalk rest rec).2)
    else
      (c :: (addCreditWalk rest rec).1, (addCreditWalk rest rec).2)

/-- The sum of the quantities of a list of matches. -/
def qsum (ms : List sell) : ℚ := (ms.map (fun m => m.quantity)).sum

/-- Balance conservation of one lot: `balance + Σ match.quantity = buyTx.Quantity`. -/
def credit.conserved (c : credit) : Prop := c.balance + qsum c.sells = c.buyTx.Quantity

instance conservedDecidable (c : credit) : Decidable c.conserved := by
  unfold credit.conserved
  exact inferInstance

/-- Insertion sort as one implementation of the `sort.Slice` contract. -/
def insertionSortSlice : SortSlice where
  sort := fun less xs => List.insertionSort (fun a b => less b a = false) xs
  perm := fun less xs => List.perm_insertionSort (fun a b => less b a = false) xs
  sorted := by
    intro α less xs hasymm htrans
    haveI : IsTotal α (fun a b => less b a = false) := ⟨by
      intro a b
      cases hba : less b a with
      | false => exact Or.inl rfl
      | true => exact Or.inr (hasymm b a hba)⟩
    haveI : IsTrans α (fun a b => less b a = false) := ⟨fun a b c hab hbc => htrans a b c hab hbc⟩
    exact List.sorted_insertionSort (fun a b => less b a = false) xs

/-- What one call of `sell` or `addCredit` does to one lot: nothing, or one debit. -/
def LotStep (c c' : credit) : Prop := c' = c ∨ ∃ m : sell, c' = c.debit m

/-- Every lot of the pool of the book satisfies balance conservation. -/
def Book.conserved (b : Book) : Prop := ∀ c ∈ b.records, c.conserved

def day : Duration := 24 * 3600 * 1000000000

def exBuy1 : Tx :=
  { ID := "b1", Exchange := "Kraken", Timestamp := 0, Typ := Buy, PayCurrency := EUR,
    Currency := BTC, Quantity := 2, SpotPrice := 100, Fees := 1 }

def exBuy2 : Tx :=
  { ID := "b2", Exchange := "Kraken", Timestamp := 10 * day, Typ := Buy, PayCurrency := EUR,
    Currency := BTC, Quantity := 3, SpotPrice := 110, Fees := 2 }

def exSell : Tx :=
  { ID := "s1", Exchange := "Kraken", Timestamp := 400 * day, Typ := Sell, PayCurrency := EUR,
    Currency := BTC, Quantity := 4, SpotPrice := 150, Fees := 3 }

def exBook : Book := { records := [], buys := [exBuy1, exBuy2], sells := [exSell], taxYear := 2020 }

def exLot1 : credit := { balance := 2, buyTx := exBuy1, sells := [] }

def exLot2 : credit := { balance := 3, buyTx := exBuy2, sells := [] }

/-- The example book after its two buys. -/
def exBookBought : Book := { exBook with records := [exLot1, exLot2] }

def exNegBuy : Tx :=
  { ID := "n1", Exchange := "Kraken", Timestamp := 0, Typ := Buy, PayCurrency := EUR,
    Currency := BTC, Quantity := -1, SpotPrice := 100, Fees := 0 }

def exNegLot : credit := { balance := -1, buyTx := exNegBuy, sells := [] }

def exNegBook : Book := { records := [exNegLot], buys := [exNegBuy], sells := [], taxYear := 2020 }

def exYearBuy : Tx :=
  { ID := "y1", Exchange := "Kraken", Timestamp := 0, Typ := Buy, PayCurrency := EUR,
    Currency := BTC, Quantity := 1, SpotPrice := 100, Fees := 0 }

def exYearSell : Tx :=
  { ID := "y2", Exchange := "Kraken", Timestamp := 365 * day, Typ := Sell, PayCurrency := EUR,
    Currency := BTC, Quantity := 1, SpotPrice := 150, Fees := 0 }

def exYearBook : Book :=
  { records := [], buys := [exYearBuy], sells := [exYearSell], taxYear := 1970 }

def exYearMatch : sell :=
  { profit := 50, quantity := 1, holdTime := 365 * day, tx := exYearSell,
    paidWithCryptocurrency := false }

def exYearBookDone : Book :=
  { exYearBook with records := [{ balance := 0, buyTx := exYearBuy, sells := [exYearMatch] }] }

def exYearRecord : TaxRecord :=
  { Currency := BTC, BuyTs := 0, SellTs := 365 * day, SellPrice := 150, BuyPrice := 100,
    AdvertisingCosts := 0, HoldLongerThenAYear := false, TaxYear := 1971 }

def exOneLot : credit := { balance := 1, buyTx := exYearBuy, sells := [] }

def exOneBook : Book := { records := [exOneLot], buys := [exYearBuy], sells := [], taxYear := 1971 }

def exSell400 : Tx :=
  { ID := "y3", Exchange := "Kraken", Timestamp := 400 * day, Typ := Sell, PayCurrency := EUR,
    Currency := BTC, Quantity := 1, SpotPrice := 150, Fees := 0 }

def exOneDone : Book :=
  { exOneBook with
    records := [{ balance := 0, buyTx := exYearBuy,
                  sells := [{ profit := 50, quantity := 1, holdTime := 400 * day, tx := exSell400,
                              paidWithCryptocurrency := false }] }] }

def exSplitDone : Book :=
  { exBook with
    records := [{ balance := 0, buyTx := exBuy1,
                  sells := [{ profit := 100, quantity := 2, holdTime := 400 * day, tx := exSell,
                              paidWithCryptocurrency := false }] },
                { balance := 1, buyTx := exBuy2,
                  sells := [{ profit := 80, quantity := 2, holdTime := 390 * day, tx := exSell,
                              paidWithCryptocurrency := false }] }] }

/-- The matches that a call created: for every lot, in pool order, the matches of its
list after the call that come after the ones it had before the call. -/
def createdMatches : List credit → List credit → List sell
  | c :: cs, c' :: cs' => c'.sells.drop c.sells.length ++ createdMatches cs cs'
  | _, _ => []

/-- The sum of the balances of the lots of the pool that `findCredit` accepts. -/
def eligibleBalance (currency : Currency) (frm : Time) (rs : List credit) : ℚ :=
  ((rs.filter (fun c => decide (eligible currency frm c))).map (fun c => c.balance)).sum

def exSell10 : Tx :=
  { ID := "s2", Exchange := "Kraken", Timestamp := 400 * day, Typ := Sell, PayCurrency := EUR,
    Currency := BTC, Quantity := 10, SpotPrice := 150, Fees := 0 }

def exShortBook : Book :=
  { records := [], buys := [exBuy1, exBuy2], sells := [exSell10], taxYear := 2020 }

def exShortDone : Book :=
  { exShortBook with
    records := [{ balance := 0, buyTx := exBuy1,
                  sells := [{ profit := 100, quantity := 2, holdTime := 400 * day, tx := exSell10,
                              paidWithCryptocurrency := false }] },
                { balance := 0, buyTx := exBuy2,
                  sells := [{ profit := 120, quantity := 3, holdTime := 390 * day, tx := exSell10,
                              paidWithCryptocurrency := false }] }] }

def exTrade : Tx :=
  { ID := "t1", Exchange := "Kraken", Timestamp := 20 * day, Typ := Buy, PayCurrency := BTC,
    Currency := ETH, Quantity := 5, SpotPrice := 1 / 10, Fees := 0 }

def exTradeBook : Book := { records := [], buys := [exTrade], sells := [], taxYear := 2020 }

/-- The lots of the pool stem from the EUR paid buys of the list `buys`. -/
def lotsFrom (buys : List Tx) (b : Book) : Prop :=
  ∀ c ∈ b.records, c.buyTx ∈ buys ∧ c.buyTx.PayCurrency = EUR

/-- For every match of the pool, in the order of the loops of `TaxRecords`, the two
transactions whose fees the loop body looks at: the disposal and the buy of the lot. -/
def touchedOfPool : List credit → List (List Tx)
  | [] => []
  | rec :: rest => rec.sells.map (fun s => [s.tx, rec.buyTx]) ++ touchedOfPool rest

/-- The transactions of the list whose ID is met for the first time, given the IDs
`inc` met before. -/
def firstSeen : List String → List Tx → List Tx
  | _, [] => []
  | inc, t :: ts => if t.ID ∈ inc then firstSeen inc ts else t :: firstSeen (t.ID :: inc) ts

/-- The IDs met after the transactions of the list, given the IDs `inc` met before. -/
def seenAfter : List String → List Tx → List String
  | inc, [] => inc
  | inc, t :: ts => if t.ID ∈ inc then seenAfter inc ts else seenAfter (t.ID :: inc) ts

/-- For every match, the transactions whose fees it claims: those it touches whose ID no
earlier match (and no earlier transaction of the same match) has. -/
def claimedList : List String → List (List Tx) → List (List Tx)
  | _, [] => []
  | inc, g :: gs => firstSeen inc g :: claimedList (seenAfter inc g) gs

/-- The sum of the fees of a list of transactions. -/
def feeSum (ts : List Tx) : ℚ := (ts.map (fun t => t.Fees)).sum

/-- The lots and matches of the pool carry transactions of the list `U` only. -/
def txsFrom (U : List Tx) (b : Book) : Prop :=
  ∀ c ∈ b.records, c.buyTx ∈ U ∧ ∀ m ∈ c.sells, m.tx ∈ U

def exBuyBig : Tx :=
  { ID := "b3", Exchange := "Kraken", Timestamp := 10 * day, Typ := Buy, PayCurrency := EUR,
    Currency := BTC, Quantity := 10, SpotPrice := 110, Fees := 2 }

/-- A buy of 50 ETH paid in BTC at 1/10 BTC per ETH: its price is 5 BTC. -/
def exTradeBig : Tx :=
  { ID := "t2", Exchange := "Kraken", Timestamp := 20 * day, Typ := Buy, PayCurrency := BTC,
    Currency := ETH, Quantity := 50, SpotPrice := 1 / 10, Fees := 0 }

def exFundBook : Book :=
  { records := [], buys := [exBuy1, exBuyBig, exTradeBig], sells := [], taxYear := 2020 }

def exFundDone : Book :=
  { exFundBook with
    records := [{ balance := 0, buyTx := exBuy1,
                  sells := [{ profit := 0, quantity := 2, holdTime := 20 * day, tx := exTradeBig,
                              paidWithCryptocurrency := true }] },
                { balance := 5, buyTx := exBuyBig,
                  sells := [{ profit := 0, quantity := 5, holdTime := 10 * day, tx := exTradeBig,
                              paidWithCryptocurrency := true }] }] }

/-- The sort key (TaxYear, SellTs, Currency) of the first record is lexicographically
less than or equal to the key of the second. -/
def keyLe (a b : TaxRecord) : Prop :=
  a.TaxYear < b.TaxYear ∨
    (a.TaxYear = b.TaxYear ∧
      (a.SellTs < b.SellTs ∨ (a.SellTs = b.SellTs ∧ a.Currency ≤ b.Currency)))

/-- The matches of a lot are the ones `sell` and `addCredit` record for it: the buy of
the lot is not after the disposal, the hold time is the difference of the two instants
as `Time.Sub` computes it, the profit of an ordinary sell is the difference of the two
values and the profit of a trade is zero. -/
def credit.wellMatched (c : credit) : Prop :=
  ∀ m ∈ c.sells,
    c.buyTx.Timestamp ≤ m.tx.Timestamp ∧
    m.holdTime = Time.Sub m.tx.Timestamp c.buyTx.Timestamp ∧
    (m.paidWithCryptocurrency = false →
      m.profit = m.quantity * m.tx.SpotPrice - m.quantity * c.buyTx.SpotPrice) ∧
    (m.paidWithCryptocurrency = true → m.profit = 0)

/-- Every lot of the pool of the book has well-formed matches. -/
def Book.wellMatched (b : Book) : Prop := ∀ c ∈ b.records, c.wellMatched

/-- A sell on 2300-01-01 (10413792000 seconds after the epoch). -/
def exSell2300 : Tx :=
  { ID := "l2", Exchange := "Kraken", Timestamp := 10413792000 * 1000000000, Typ := Sell,
    PayCurrency := EUR, Currency := BTC, Quantity := 1, SpotPrice := 150, Fees := 0 }

def exHoldBook : Book :=
  { records := [], buys := [exYearBuy], sells := [exSell2300], taxYear := 2300 }

def exHoldMatch : sell :=
  { profit := 50, quantity := 1, holdTime := 2 ^ 63 - 1, tx := exSell2300,
    paidWithCryptocurrency := false }

def exHoldDone : Book :=
  { exHoldBook with records := [{ balance := 0, buyTx := exYearBuy, sells := [exHoldMatch] }] }

/-- The profit `TaxReport` computes for a record. -/
def TaxRecord.net (tr : TaxRecord) : ℚ := tr.SellPrice - tr.BuyPrice - tr.AdvertisingCosts

/-- The records `TaxReport` does not skip: all of them in the full report, otherwise the
ones of the tax year that are not held longer than a year. -/
def reportIncludes (full : Bool) (taxYear : Int) (tr : TaxRecord) : Bool :=
  full || (decide (tr.TaxYear = taxYear) && !tr.HoldLongerThenAYear)

/-- The sum of the profits of the records with a profit of at least zero. -/
def earningsOf (rows : List TaxRecord) : ℚ :=
  ((rows.filter (fun tr => decide (0 ≤ tr.net))).map TaxRecord.net).sum

/-- The sum of the profits of the records with a profit below zero. -/
def lossOf (rows : List TaxRecord) : ℚ :=
  ((rows.filter (fun tr => decide (tr.net < 0))).map TaxRecord.net).sum

/-- A buy on 2300-01-01, later than the last instant that `UnixNano` can represent. -/
def exLateBuy : Tx :=
  { ID := "l1", Exchange := "Kraken", Timestamp := 10413792000 * 1000000000, Typ := Buy,
    PayCurrency := EUR, Currency := BTC, Quantity := 1, SpotPrice := 100, Fees := 0 }

def exLateBook : Book :=
  { records := [], buys := [exLateBuy, exBuy1], sells := [], taxYear := 2020 }

def exLateDone : Book :=
  { exLateBook with
    records := [{ balance := 1, buyTx := exLateBuy, sells := [] },
                { balance := 2, buyTx := exBuy1, sells := [] }] }

/-- The instant is one that `UnixNano` represents without wrapping around. -/
def Time.inUnixNanoRange (t : Time) : Prop := -(2 ^ 63) ≤ t ∧ t < 2 ^ 63

def exTieA : Tx :=
  { ID := "a", Exchange := "Kraken", Timestamp := 0, Typ := Buy, PayCurrency := EUR,
    Currency := BTC, Quantity := 1, SpotPrice := 100, Fees := 0 }

def exTieB : Tx :=
  { ID := "b", Exchange := "Kraken", Timestamp := 0, Typ := Buy, PayCurrency := EUR,
    Currency := BTC, Quantity := 1, SpotPrice := 200, Fees := 0 }

def exTieSell : Tx :=
  { ID := "s", Exchange := "Kraken", Timestamp := 400 * day, Typ := Sell, PayCurrency := EUR,
    Currency := BTC, Quantity := 1, SpotPrice := 300, Fees := 0 }

def exTieBookAB : Book :=
  { records := [], buys := [exTieA, exTieB], sells := [exTieSell], taxYear := 2020 }

def exTieBookBA : Book :=
  { records := [], buys := [exTieB, exTieA], sells := [exTieSell], taxYear := 2020 }

def exTieDoneAB : Book :=
  { exTieBookAB with
    records := [{ balance := 0, buyTx := exTieA,
                  sells := [{ profit := 200, quantity := 1, holdTime := 400 * day,
                              tx := exTieSell, paidWithCryptocurrency := false }] },
                { balance := 1, buyTx := exTieB, sells := [] }] }

def exTieDoneBA : Book :=
  { exTieBookBA with
    records := [{ balance := 0, buyTx := exTieB,
                  sells := [{ profit := 100, quantity := 1, holdTime := 400 * day,
                              tx := exTieSell, paidWithCryptocurrency := false }] },
                { balance := 1, buyTx := exTieA, sells := [] }] }

/-- Balance bounds of one lot: `0 ≤ balance ≤ buyTx.Quantity`. -/
def credit.bounded (c : credit) : Prop := 0 ≤ c.balance ∧ c.balance ≤ c.buyTx.Quantity

/-- The matches of the lot have quantities that are not negative, and positive ones when
the amount asked for by the disposal is positive: `tx.Quantity` for an ordinary sell,
`tx.Quantity * tx.SpotPrice` for a buy paid in a cryptocurrency. -/
def credit.posMatched (c : credit) : Prop :=
  ∀ m ∈ c.sells,
    0 ≤ m.quantity ∧
    (m.paidWithCryptocurrency = false → 0 < m.tx.Quantity → 0 < m.quantity) ∧
    (m.paidWithCryptocurrency = true → 0 < m.tx.Quantity * m.tx.SpotPrice → 0 < m.quantity)

/-- A sell of 0 BTC. -/
def exZeroSell : Tx :=
  { ID := "z1", Exchange := "Kraken", Timestamp := 400 * day, Typ := Sell, PayCurrency := EUR,
    Currency := BTC, Quantity := 0, SpotPrice := 150, Fees := 0 }

def exZeroBook : Book :=
  { records := [], buys := [exYearBuy], sells := [exZeroSell], taxYear := 2020 }

def exZeroDone : Book :=
  { exZeroBook with
    records := [{ balance := 1, buyTx := exYearBuy,
                  sells := [{ profit := 0, quantity := 0, holdTime := 400 * day,
                              tx := exZeroSell, paidWithCryptocurrency := false }] }] }

/-- The number of lots of the pool with a balance that is not zero. -/
def liveCount (rs : List credit) : Nat := rs.countP (fun c => decide (c.balance ≠ 0))

/-- The sum of the balances of the lots of the pool with the currency asked for and a
buy that is not after `frm`. -/
def fundsFor (currency : Currency) (frm : Time) (rs : List credit) : ℚ :=
  ((rs.filter (fun c => decide (c.buyTx.Currency = currency ∧ c.buyTx.Timestamp ≤ frm))).map
    (fun c => c.balance)).sum

/-- The sum of the balances of the lots of the pool. -/
def totalBalance (rs : List credit) : ℚ := (rs.map (fun c => c.balance)).sum

/-- One pass of `sell` with rounded arithmetic over the pool from front to back: the
single-pass form of the recursion of `sellFuelR`. -/
def sellWalkR (R : Rounding) : List credit → ℚ → Tx → List credit
  | [], _, _ => []
  | c :: rest, quantity, tx =>
    if eligible tx.Currency tx.Timestamp c then
      if quantity ≤ c.balance then
        c.debitR R (sellMatchR R quantity c tx) :: rest
      else
        c.debitR R (sellMatchR R c.balance c tx) ::
          sellWalkR R rest (R.rnd (quantity - c.balance)) tx
    else
      c :: sellWalkR R rest quantity tx

/-- The number that the importers read from the decimal string `0.1`: one tenth rounded
to 100 bits. -/
def exTenth : ℚ := 1014120480182583521197362564301 / 2 ^ 103

/-- The number that the importers read from the decimal string `0.3`: three tenths
rounded to 100 bits. -/
def exThreeTenths : ℚ := 760590360136937640898021923226 / 2 ^ 101

/-- A buy of 0.3 BTC: the quantity is the number read from the string `0.3`. -/
def exRoundBuy : Tx :=
  { ID := "r1", Exchange := "Kraken", Timestamp := 0, Typ := Buy, PayCurrency := EUR,
    Currency := BTC, Quantity := exThreeTenths, SpotPrice := 100, Fees := 0 }

def exRoundLot : credit := { balance := exThreeTenths, buyTx := exRoundBuy, sells := [] }

/-- A sell of 0.1 BTC: the quantity is the number read from the string `0.1`. -/
def exRoundSell : Tx :=
  { ID := "r2", Exchange := "Kraken", Timestamp := 400 * day, Typ := Sell, PayCurrency := EUR,
    Currency := BTC, Quantity := exTenth, SpotPrice := 150, Fees := 0 }

/-- The book of the buy of 0.3 BTC after the buy, before the sell of 0.1 BTC. -/
def exRoundBook : Book :=
  { records := [exRoundLot], buys := [exRoundBuy], sells := [exRoundSell], taxYear := 2020 }

def exTenthBuy : Tx :=
  { ID := "t1", Exchange := "Kraken", Timestamp := 0, Typ := Buy, PayCurrency := EUR,
    Currency := BTC, Quantity := exTenth, SpotPrice := 100, Fees := 0 }

def exUnitBuy : Tx :=
  { ID := "t2", Exchange := "Kraken", Timestamp := 10 * day, Typ := Buy, PayCurrency := EUR,
    Currency := BTC, Quantity := 1, SpotPrice := 110, Fees := 0 }

def exTenthLot : credit := { balance := exTenth, buyTx := exTenthBuy, sells := [] }

def exUnitLot : credit := { balance := 1, buyTx := exUnitBuy, sells := [] }

/-- A sell of 0.3 BTC. -/
def exRoundSplitSell : Tx :=
  { ID := "t3", Exchange := "Kraken", Timestamp := 400 * day, Typ := Sell, PayCurrency := EUR,
    Currency := BTC, Quantity := exThreeTenths, SpotPrice := 150, Fees := 0 }

/-- The book of the buys of 0.1 BTC and 1 BTC after the buys, before the sell of 0.3
BTC. -/
def exRoundSplitBook : Book :=
  { records := [exTenthLot, exUnitLot], buys := [exTenthBuy, exUnitBuy],
    sells := [exRoundSplitSell], taxYear := 2020 }

/-! ## Theorems -/

theorem findCreditIn_cons_eligible (c : credit) (rest : List credit) (currency : Currency)
    (frm : Time) (h : eligible currency frm c) :
    findCreditIn (c :: rest) currency frm = some (0, c) := by
  obtain ⟨h1, h2, h3⟩ := h
  have h4 : ¬ (frm < c.buyTx.Timestamp) := not_lt.mpr h3
  simp [findCreditIn, h1, h2, Time.After, h4]

theorem findCreditIn_cons_not_eligible (c : credit) (rest : List credit) (currency : Currency)
    (frm : Time) (h : ¬ eligible currency frm c) :
    findCreditIn (c :: rest) currency frm =
      (findCreditIn rest currency frm).map (fun p => (p.1 + 1, p.2)) := by
  by_cases h1 : c.balance = 0
  · simp [findCreditIn, h1]
  · by_cases h2 : c.buyTx.Currency = currency
    · have h3 : frm < c.buyTx.Timestamp := by
        by_contra hn
        exact h ⟨h1, h2, not_lt.mp hn⟩
      simp [findCreditIn, h1, h2, Time.After, h3]
    · simp [findCreditIn, h1, h2]

theorem findCreditIn_append_not_eligible (pre rs : List credit) (currency : Currency)
    (frm : Time) (h : ∀ c ∈ pre, ¬ eligible currency frm c) :
    findCreditIn (pre ++ rs) currency frm =
      (findCreditIn rs currency frm).map (fun p => (p.1 + pre.length, p.2)) := by
  induction pre with
  | nil => simp
  | cons c pre ih =>
    have hc : ¬ eligible currency frm c := h c (List.mem_cons_self _ _)
    have ih1 := ih (fun d hd => h d (List.mem_cons_of_mem _ hd))
    rw [List.cons_append, findCreditIn_cons_not_eligible _ _ _ _ hc, ih1]
    cases findCreditIn rs currency frm with
    | none => rfl
    | some p => simp [Nat.add_assoc]

theorem findCreditIn_some (rs : List credit) (currency : Currency) (frm : Time) (i : Nat)
    (c : credit) (h : findCreditIn rs currency frm = some (i, c)) :
    rs[i]? = some c ∧ eligible currency frm c ∧
      ∀ j d, j < i → rs[j]? = some d → ¬ eligible currency frm d := by
  induction rs generalizing i with
  | nil => simp [findCreditIn] at h
  | cons a rest ih =>
    by_cases ha : eligible currency frm a
    · rw [findCreditIn_cons_eligible _ _ _ _ ha] at h
      simp only [Option.some.injEq, Prod.mk.injEq] at h
      obtain ⟨rfl, rfl⟩ := h
      exact ⟨by simp, ha, fun j d hj => absurd hj (Nat.not_lt_zero j)⟩
    · rw [findCreditIn_cons_not_eligible _ _ _ _ ha] at h
      cases hr : findCreditIn rest currency frm with
      | none => simp [hr] at h
      | some p =>
        rw [hr] at h
        simp only [Option.map_some', Option.some.injEq, Prod.mk.injEq] at h
        obtain ⟨rfl, rfl⟩ := h
        obtain ⟨h1, h2, h3⟩ := ih p.1 hr
        refine ⟨by simpa using h1, h2, ?_⟩
        intro j d hj hd
        cases j with
        | zero =>
          simp only [List.getElem?_cons_zero, Option.some.injEq] at hd
          subst hd
          exact ha
        | succ j =>
          simp only [List.getElem?_cons_succ] at hd
          exact h3 j d (Nat.lt_of_succ_lt_succ hj) hd

theorem findCreditIn_none (rs : List credit) (currency : Currency) (frm : Time) :
    findCreditIn rs currency frm = none ↔ ∀ c ∈ rs, ¬ eligible currency frm c := by
  induction rs with
  | nil => simp [findCreditIn]
  | cons a rest ih =>
    by_cases ha : eligible currency frm a
    · rw [findCreditIn_cons_eligible _ _ _ _ ha]
      simp only [List.mem_cons, forall_eq_or_imp]
      exact ⟨fun h => by simp at h, fun h => absurd ha h.1⟩
    · rw [findCreditIn_cons_not_eligible _ _ _ _ ha]
      simp only [Option.map_eq_none', List.mem_cons, forall_eq_or_imp]
      rw [ih]
      exact ⟨fun h => ⟨ha, h⟩, fun h => h.2⟩

theorem findCreditIn_lt_length (rs : List credit) (currency : Currency) (frm : Time) (i : Nat)
    (c : credit) (h : findCreditIn rs currency frm = some (i, c)) : i < rs.length := by
  have h1 := (findCreditIn_some rs currency frm i c h).1
  exact (List.getElem?_eq_some_iff.mp h1).1

theorem set_append_right (pre rs : List credit) (i : Nat) (v : credit) :
    (pre ++ rs).set (i + pre.length) v = pre ++ rs.set i v := by
  induction pre with
  | nil => simp
  | cons a pre ih =>
    simp only [List.cons_append, List.length_cons]
    rw [← Nat.add_assoc, List.set_cons_succ, ih]

theorem debit_balance_self (c : credit) (m : sell) (h : m.quantity = c.balance) :
    (c.debit m).balance = 0 := by
  simp [credit.debit, h]

theorem not_eligible_of_balance_zero (currency : Currency) (frm : Time) (c : credit)
    (h : c.balance = 0) : ¬ eligible currency frm c := fun he => he.1 h

theorem sellFuel_append_not_eligible (fuel : Nat) (pre rs : List credit) (q : ℚ) (tx : Tx)
    (h : ∀ c ∈ pre, ¬ eligible tx.Currency tx.Timestamp c) :
    sellFuel fuel (pre ++ rs) q tx =
      (sellFuel fuel rs q tx).map (fun r => (pre ++ r.1, r.2)) := by
  induction fuel generalizing rs q with
  | zero => simp [sellFuel]
  | succ fuel ih =>
    rw [sellFuel, sellFuel, findCreditIn_append_not_eligible pre rs _ _ h]
    cases hf : findCreditIn rs tx.Currency tx.Timestamp with
    | none => simp
    | some p =>
      obtain ⟨i, c⟩ := p
      simp only [Option.map_some']
      by_cases hq : q ≤ c.balance
      · simp [hq, set_append_right]
      · simp only [hq, if_false]
        rw [set_append_right, ih]

theorem sellFuel_eq_sellWalk (rs : List credit) (fuel : Nat) (q : ℚ) (tx : Tx)
    (h : rs.length < fuel) : sellFuel fuel rs q tx = some (sellWalk rs q tx, .ok 0) := by
  induction rs generalizing fuel q with
  | nil =>
    cases fuel with
    | zero => exact absurd h (Nat.lt_irrefl 0)
    | succ fuel => simp [sellFuel, findCreditIn, sellWalk]
  | cons c rest ih =>
    cases fuel with
    | zero => exact absurd h (Nat.not_lt_zero _)
    | succ fuel =>
      have hlen : rest.length < fuel := Nat.lt_of_succ_lt_succ h
      by_cases hc : eligible tx.Currency tx.Timestamp c
      · rw [sellFuel, findCreditIn_cons_eligible _ _ _ _ hc]
        by_cases hq : q ≤ c.balance
        · simp [hq, sellWalk, hc]
        · have hz : ∀ d ∈ [c.debit (sellMatch c.balance c tx)],
              ¬ eligible tx.Currency tx.Timestamp d := by
            intro d hd
            rw [List.mem_singleton] at hd
            subst hd
            exact not_eligible_of_balance_zero _ _ _ (debit_balance_self _ _ rfl)
          have hframe := sellFuel_append_not_eligible fuel
            [c.debit (sellMatch c.balance c tx)] rest (q - c.balance) tx hz
          simp only [List.singleton_append] at hframe
          simp only [hq, if_false, List.set_cons_zero]
          rw [hframe, ih fuel (q - c.balance) hlen]
          simp [sellWalk, hc, hq]
      · have hz : ∀ d ∈ [c], ¬ eligible tx.Currency tx.Timestamp d := by
          intro d hd
          rw [List.mem_singleton] at hd
          subst hd
          exact hc
        have hframe := sellFuel_append_not_eligible (fuel + 1) [c] rest q tx hz
        simp only [List.singleton_append] at hframe
        rw [hframe, ih (fuel + 1) q (Nat.lt_succ_of_lt hlen)]
        simp [sellWalk, hc]

theorem addCreditFuel_append_not_eligible (fuel : Nat) (pre rs : List credit) (q : ℚ) (rec : Tx)
    (hpay : rec.PayCurrency ≠ EUR)
    (h : ∀ c ∈ pre, ¬ eligible rec.PayCurrency rec.Timestamp c) :
    addCreditFuel fuel (pre ++ rs) q rec =
      (addCreditFuel fuel rs q rec).map (fun r => (pre ++ r.1, r.2)) := by
  induction fuel generalizing rs q with
  | zero => simp [addCreditFuel]
  | succ fuel ih =>
    rw [addCreditFuel, addCreditFuel, findCreditIn_append_not_eligible pre rs _ _ h]
    simp only [hpay, if_false]
    cases hf : findCreditIn rs rec.PayCurrency rec.Timestamp with
    | none => simp
    | some p =>
      obtain ⟨i, c⟩ := p
      simp only [Option.map_some']
      by_cases hq : rec.PriceNoFees ≤ c.balance
      · simp [hq, set_append_right]
      · simp only [hq, if_false]
        rw [set_append_right, ih]

theorem addCreditFuel_eq_addCreditWalk (rs : List credit) (fuel : Nat) (q : ℚ) (rec : Tx)
    (hpay : rec.PayCurrency ≠ EUR) (h : rs.length < fuel) :
    addCreditFuel fuel rs q rec = some (addCreditWalk rs rec) := by
  induction rs generalizing fuel q with
  | nil =>
    cases fuel with
    | zero => exact absurd h (Nat.lt_irrefl 0)
    | succ fuel => simp [addCreditFuel, findCreditIn, addCreditWalk, hpay]
  | cons c rest ih =>
    cases fuel with
    | zero => exact absurd h (Nat.not_lt_zero _)
    | succ fuel =>
      have hlen : rest.length < fuel := Nat.lt_of_succ_lt_succ h
      by_cases hc : eligible rec.PayCurrency rec.Timestamp c
      · rw [addCreditFuel, findCreditIn_cons_eligible _ _ _ _ hc]
        simp only [hpay, if_false]
        by_cases hq : rec.PriceNoFees ≤ c.balance
        · simp [hq, addCreditWalk, hc]
        · have hz : ∀ d ∈ [c.debit (tradeMatch c.balance c rec)],
              ¬ eligible rec.PayCurrency rec.Timestamp d := by
            intro d hd
            rw [List.mem_singleton] at hd
            subst hd
            exact not_eligible_of_balance_zero _ _ _ (debit_balance_self _ _ rfl)
          have hframe := addCreditFuel_append_not_eligible fuel
            [c.debit (tradeMatch c.balance c rec)] rest
            ((rec.PriceNoFees - c.balance) / rec.SpotPrice) rec hpay hz
          simp only [List.singleton_append] at hframe
          simp only [hq, if_false, List.set_cons_zero]
          rw [hframe, ih fuel _ hlen]
          simp [addCreditWalk, hc, hq]
      · have hz : ∀ d ∈ [c], ¬ eligible rec.PayCurrency rec.Timestamp d := by
          intro d hd
          rw [List.mem_singleton] at hd
          subst hd
          exact hc
        have hframe := addCreditFuel_append_not_eligible (fuel + 1) [c] rest q rec hpay hz
        simp only [List.singleton_append] at hframe
        rw [hframe, ih (fuel + 1) q (Nat.lt_succ_of_lt hlen)]
        simp [addCreditWalk, hc]

theorem addCreditFuel_eur (rs : List credit) (fuel : Nat) (q : ℚ) (rec : Tx)
    (hpay : rec.PayCurrency = EUR) :
    addCreditFuel (fuel + 1) rs q rec =
      some (rs ++ [{ balance := q, buyTx := rec, sells := [] }], .ok 0) := by
  simp [addCreditFuel, hpay]

theorem Book.sell_eq (b : Book) (q : ℚ) (tx : Tx) :
    b.sell q tx = some ({ b with records := sellWalk b.records q tx }, .ok 0) := by
  simp [Book.sell, sellFuel_eq_sellWalk b.records (b.records.length + 1) q tx (Nat.lt_succ_self _)]

theorem Book.addCredit_eq_eur (b : Book) (q : ℚ) (rec : Tx) (hpay : rec.PayCurrency = EUR) :
    b.addCredit q rec =
      some ({ b with records := b.records ++ [{ balance := q, buyTx := rec, sells := [] }] },
        .ok 0) := by
  simp [Book.addCredit, addCreditFuel_eur _ _ _ _ hpay]

theorem Book.addCredit_eq_walk (b : Book) (q : ℚ) (rec : Tx) (hpay : rec.PayCurrency ≠ EUR) :
    b.addCredit q rec =
      some ({ b with records := (addCreditWalk b.records rec).1 },
        (addCreditWalk b.records rec).2) := by
  simp [Book.addCredit,
    addCreditFuel_eq_addCreditWalk b.records (b.records.length + 1) q rec hpay (Nat.lt_succ_self _)]

theorem forall₂_getElem? {R : credit → credit → Prop} {l₁ l₂ : List credit}
    (h : List.Forall₂ R l₁ l₂) (j : Nat) (c : credit) (hc : l₁[j]? = some c) :
    ∃ c', l₂[j]? = some c' ∧ R c c' := by
  induction h generalizing j with
  | nil => simp at hc
  | cons hab _ ih =>
    cases j with
    | zero =>
      simp only [List.getElem?_cons_zero, Option.some.injEq] at hc
      subst hc
      exact ⟨_, by simp, hab⟩
    | succ j =>
      simp only [List.getElem?_cons_succ] at hc
      simpa using ih j hc

theorem forall₂_mem_right {R : credit → credit → Prop} {l₁ l₂ : List credit}
    (h : List.Forall₂ R l₁ l₂) (c' : credit) (hc : c' ∈ l₂) : ∃ c ∈ l₁, R c c' := by
  induction h with
  | nil => simp at hc
  | cons hab _ ih =>
    rcases List.mem_cons.mp hc with rfl | hmem
    · exact ⟨_, List.mem_cons_self _ _, hab⟩
    · obtain ⟨c, hc1, hc2⟩ := ih hmem
      exact ⟨c, List.mem_cons_of_mem _ hc1, hc2⟩

theorem forall₂_lotStep_refl (rs : List credit) : List.Forall₂ LotStep rs rs :=
  List.forall₂_same.mpr (fun _ _ => Or.inl rfl)

theorem sellWalk_lotStep (rs : List credit) (q : ℚ) (tx : Tx) :
    List.Forall₂ LotStep rs (sellWalk rs q tx) := by
  induction rs generalizing q with
  | nil => simp [sellWalk]
  | cons c rest ih =>
    rw [sellWalk]
    split_ifs
    · exact List.Forall₂.cons (Or.inr ⟨_, rfl⟩) (forall₂_lotStep_refl rest)
    · exact List.Forall₂.cons (Or.inr ⟨_, rfl⟩) (ih _)
    · exact List.Forall₂.cons (Or.inl rfl) (ih _)

theorem addCreditWalk_lotStep (rs : List credit) (rec : Tx) :
    List.Forall₂ LotStep rs (addCreditWalk rs rec).1 := by
  induction rs with
  | nil => simp [addCreditWalk]
  | cons c rest ih =>
    rw [addCreditWalk]
    split_ifs
    · exact List.Forall₂.cons (Or.inr ⟨_, rfl⟩) (forall₂_lotStep_refl rest)
    · exact List.Forall₂.cons (Or.inr ⟨_, rfl⟩) ih
    · exact List.Forall₂.cons (Or.inl rfl) ih

theorem conserved_debit (c : credit) (m : sell) : (c.debit m).conserved ↔ c.conserved := by
  unfold credit.conserved credit.debit qsum
  simp only [List.map_append, List.sum_append, List.map_cons, List.map_nil, List.sum_cons,
    List.sum_nil, add_zero]
  constructor
  · intro h
    linarith
  · intro h
    linarith

theorem conserved_lotStep (c c' : credit) (h : LotStep c c') : c'.conserved ↔ c.conserved := by
  rcases h with rfl | ⟨m, rfl⟩
  · exact Iff.rfl
  · exact conserved_debit c m

theorem Book.sell_conserved (b : Book) (q : ℚ) (tx : Tx) (r : Book × Except String ℚ)
    (hb : b.conserved) (h : b.sell q tx = some r) : r.1.conserved := by
  rw [Book.sell_eq] at h
  cases h
  intro c' hc'
  obtain ⟨c, hc, hstep⟩ := forall₂_mem_right (sellWalk_lotStep b.records q tx) c' hc'
  exact (conserved_lotStep c c' hstep).mpr (hb c hc)

theorem Book.addCredit_conserved (b : Book) (rec : Tx) (r : Book × Except String ℚ)
    (hb : b.conserved) (h : b.addCredit rec.Quantity rec = some r) : r.1.conserved := by
  by_cases hpay : rec.PayCurrency = EUR
  · rw [Book.addCredit_eq_eur _ _ _ hpay] at h
    cases h
    intro c' hc'
    rcases List.mem_append.mp hc' with hmem | hmem
    · exact hb c' hmem
    · rw [List.mem_singleton] at hmem
      subst hmem
      simp [credit.conserved, qsum]
  · rw [Book.addCredit_eq_walk _ _ _ hpay] at h
    cases h
    intro c' hc'
    obtain ⟨c, hc, hstep⟩ := forall₂_mem_right (addCreditWalk_lotStep b.records rec) c' hc'
    exact (conserved_lotStep c c' hstep).mpr (hb c hc)

theorem Book.addCredit_total (b : Book) (q : ℚ) (rec : Tx) : ∃ r, b.addCredit q rec = some r := by
  by_cases hpay : rec.PayCurrency = EUR
  · exact ⟨_, Book.addCredit_eq_eur _ _ _ hpay⟩
  · exact ⟨_, Book.addCredit_eq_walk _ _ _ hpay⟩

theorem Book.sell_frame (b : Book) (q : ℚ) (tx : Tx) (r : Book × Except String ℚ)
    (h : b.sell q tx = some r) :
    r.1.buys = b.buys ∧ r.1.sells = b.sells ∧ r.1.taxYear = b.taxYear := by
  rw [Book.sell_eq] at h
  cases h
  exact ⟨rfl, rfl, rfl⟩

theorem Book.addCredit_frame (b : Book) (q : ℚ) (rec : Tx) (r : Book × Except String ℚ)
    (h : b.addCredit q rec = some r) :
    r.1.buys = b.buys ∧ r.1.sells = b.sells ∧ r.1.taxYear = b.taxYear := by
  by_cases hpay : rec.PayCurrency = EUR
  · rw [Book.addCredit_eq_eur _ _ _ hpay] at h
    cases h
    exact ⟨rfl, rfl, rfl⟩
  · rw [Book.addCredit_eq_walk _ _ _ hpay] at h
    cases h
    exact ⟨rfl, rfl, rfl⟩

/-- An invariant of the book that the calls `addCredit(rec.Quantity, rec)` for the buys
of the list keep is kept by the loop of `addCredits`, which always returns. -/
theorem addCreditsLoop_invariant (P : Book → Prop) (l : List Tx)
    (hstep : ∀ (b : Book) (rec : Tx) (r : Book × Except String ℚ),
      rec ∈ l → P b → b.addCredit rec.Quantity rec = some r → P r.1)
    (b : Book) (hb : P b) : ∃ r, addCreditsLoop l b = some r ∧ P r.1 := by
  induction l generalizing b with
  | nil => exact ⟨_, rfl, hb⟩
  | cons rec rest ih =>
    obtain ⟨r, hr⟩ := Book.addCredit_total b rec.Quantity rec
    have hP := hstep b rec r (List.mem_cons_self _ _) hb hr
    obtain ⟨b1, res⟩ := r
    cases res with
    | error err => exact ⟨(b1, some err), by simp [addCreditsLoop, hr], hP⟩
    | ok v =>
      obtain ⟨r2, h2, hP2⟩ :=
        ih (fun b0 rec0 r0 hmem => hstep b0 rec0 r0 (List.mem_cons_of_mem _ hmem)) b1 hP
      exact ⟨r2, by simp [addCreditsLoop, hr, h2], hP2⟩

/-- An invariant of the book that the calls of `sell` for the sells of the list keep is
kept by the loop of `Calculate` over the sells, which always returns without an error. -/
theorem sellsLoop_invariant (P : Book → Prop) (l : List Tx)
    (hstep : ∀ (b : Book) (tx : Tx) (r : Book × Except String ℚ),
      tx ∈ l → P b → b.sell tx.Quantity tx = some r → P r.1)
    (b : Book) (hb : P b) : ∃ b1, sellsLoop l b = some (b1, none) ∧ P b1 := by
  induction l generalizing b with
  | nil => exact ⟨_, rfl, hb⟩
  | cons tx rest ih =>
    have hr := Book.sell_eq b tx.Quantity tx
    have hP := hstep b tx _ (List.mem_cons_self _ _) hb hr
    obtain ⟨b2, h2, hP2⟩ :=
      ih (fun b0 tx0 r0 hmem => hstep b0 tx0 r0 (List.mem_cons_of_mem _ hmem)) _ hP
    exact ⟨b2, by simp [sellsLoop, hr, h2], hP2⟩

/-- `Calculate` always returns; it changes nothing but the pool, and it keeps every
invariant of the book that is kept by the calls `addCredit(rec.Quantity, rec)` for the
buys of the book and by the calls `sell(tx.Quantity, tx)` for its sells. -/
theorem Calculate_invariant (P : Book → Prop) (b : Book)
    (hadd : ∀ (b0 : Book) (rec : Tx) (r : Book × Except String ℚ),
      rec ∈ b.buys → P b0 → b0.addCredit rec.Quantity rec = some r → P r.1)
    (hsell : ∀ (b0 : Book) (tx : Tx) (r : Book × Except String ℚ),
      tx ∈ b.sells → P b0 → b0.sell tx.Quantity tx = some r → P r.1)
    (hb : P b) :
    ∃ r, b.Calculate = some r ∧ P r.1 ∧
      r.1.buys = b.buys ∧ r.1.sells = b.sells ∧ r.1.taxYear = b.taxYear := by
  let Q : Book → Prop := fun b0 =>
    P b0 ∧ b0.buys = b.buys ∧ b0.sells = b.sells ∧ b0.taxYear = b.taxYear
  have hQadd : ∀ (b0 : Book) (rec : Tx) (r : Book × Except String ℚ),
      rec ∈ b.buys → Q b0 → b0.addCredit rec.Quantity rec = some r → Q r.1 := by
    intro b0 rec r hmem hq h
    obtain ⟨f1, f2, f3⟩ := Book.addCredit_frame b0 _ rec r h
    exact ⟨hadd b0 rec r hmem hq.1 h, f1.trans hq.2.1, f2.trans hq.2.2.1, f3.trans hq.2.2.2⟩
  have hQsell : ∀ (b0 : Book) (tx : Tx) (r : Book × Except String ℚ),
      tx ∈ b.sells → Q b0 → b0.sell tx.Quantity tx = some r → Q r.1 := by
    intro b0 tx r hmem hq h
    obtain ⟨f1, f2, f3⟩ := Book.sell_frame b0 _ tx r h
    exact ⟨hsell b0 tx r hmem hq.1 h, f1.trans hq.2.1, f2.trans hq.2.2.1, f3.trans hq.2.2.2⟩
  obtain ⟨r, hr, hQ⟩ := addCreditsLoop_invariant Q b.buys hQadd b ⟨hb, rfl, rfl, rfl⟩
  obtain ⟨b1, e⟩ := r
  cases e with
  | some err => exact ⟨(b1, some err), by simp [Book.Calculate, Book.addCredits, hr], hQ⟩
  | none =>
    have hs : b1.sells = b.sells := hQ.2.2.1
    obtain ⟨b2, h2, hQ2⟩ := sellsLoop_invariant Q b1.sells
      (fun b0 tx r hmem => hQsell b0 tx r (hs ▸ hmem)) b1 hQ
    exact ⟨(b2, none), by simp [Book.Calculate, Book.addCredits, hr, h2], hQ2⟩

theorem NewBook_split_records (l : List Tx) (b0 b : Book) (h : NewBook.split l b0 = .ok b) :
    b.records = b0.records ∧ b.taxYear = b0.taxYear := by
  induction l generalizing b0 with
  | nil =>
    simp only [NewBook.split, Except.ok.injEq] at h
    subst h
    exact ⟨rfl, rfl⟩
  | cons rec rest ih =>
    rw [NewBook.split] at h
    split_ifs at h
    · have h1 := ih { b0 with buys := b0.buys ++ [rec] } h
      exact h1
    · have h1 := ih { b0 with sells := b0.sells ++ [rec] } h
      exact h1

theorem NewBook_records (S : SortSlice) (txs : List Tx) (taxYear : Int) (b : Book)
    (h : NewBook S txs taxYear = .ok b) : b.records = [] := by
  unfold NewBook at h
  split at h
  · cases h
  · next b1 hb1 =>
    simp only [Except.ok.injEq] at h
    subst h
    exact (NewBook_split_records _ _ _ hb1).1

theorem lotStep_getElem? {l₁ l₂ : List credit} (h : List.Forall₂ LotStep l₁ l₂) (j : Nat)
    (c : credit) (hc : l₁[j]? = some c) :
    ∃ c', l₂[j]? = some c' ∧ (c'.conserved ↔ c.conserved) := by
  obtain ⟨c', h1, h2⟩ := forall₂_getElem? h j c hc
  exact ⟨c', h1, conserved_lotStep c c' h2⟩

/-- C1. Balance conservation. For a book built by `NewBook` from any list of
transactions, `Calculate` returns, with or without an error, and every lot of the pool
it leaves satisfies `balance + Σ match.quantity = buyTx.Quantity`. Every single call of
`sell` returns, keeps the number of lots and keeps the equation of every lot (the lot at
an index satisfies it afterwards exactly when it did before); every single call of
`addCredit` returns and keeps the equation of every lot that existed before, and the
lot it creates when called as `addCredit(rec.Quantity, rec)` satisfies it too. -/
theorem balance_conservation (S : SortSlice) (txs : List Tx) (taxYear : Int) (b : Book)
    (hnew : NewBook S txs taxYear = .ok b) :
    (∃ r, b.Calculate = some r ∧ ∀ c ∈ r.1.records, c.balance + qsum c.sells = c.buyTx.Quantity) ∧
    (∀ (b0 : Book) (q : ℚ) (tx : Tx), ∃ r, b0.sell q tx = some r ∧
      r.1.records.length = b0.records.length ∧
      ∀ (j : Nat) (c : credit), b0.records[j]? = some c →
        ∃ c' : credit, r.1.records[j]? = some c' ∧ (c'.conserved ↔ c.conserved)) ∧
    (∀ (b0 : Book) (q : ℚ) (rec : Tx), ∃ r, b0.addCredit q rec = some r ∧
      (∀ (j : Nat) (c : credit), b0.records[j]? = some c →
        ∃ c' : credit, r.1.records[j]? = some c' ∧ (c'.conserved ↔ c.conserved)) ∧
      (q = rec.Quantity → (∀ c ∈ b0.records, c.conserved) → ∀ c ∈ r.1.records, c.conserved)) := by
  refine ⟨?_, ?_, ?_⟩
  · have hb : b.conserved := by
      intro c hc
      rw [NewBook_records S txs taxYear b hnew] at hc
      simp at hc
    obtain ⟨r, h1, h2, _⟩ := Calculate_invariant Book.conserved b
      (fun b0 rec r _ h0 h1 => Book.addCredit_conserved b0 rec r h0 h1)
      (fun b0 tx r _ h0 h1 => Book.sell_conserved b0 tx.Quantity tx r h0 h1) hb
    exact ⟨r, h1, h2⟩
  · intro b0 q tx
    refine ⟨_, Book.sell_eq b0 q tx, ?_, ?_⟩
    · exact (sellWalk_lotStep b0.records q tx).length_eq.symm
    · intro j c hc
      exact lotStep_getElem? (sellWalk_lotStep b0.records q tx) j c hc
  · intro b0 q rec
    by_cases hpay : rec.PayCurrency = EUR
    · refine ⟨_, Book.addCredit_eq_eur b0 q rec hpay, ?_, ?_⟩
      · intro j c hc
        refine ⟨c, ?_, Iff.rfl⟩
        have hj : j < b0.records.length := (List.getElem?_eq_some_iff.mp hc).1
        simp only
        rw [List.getElem?_append_left hj]
        exact hc
      · intro hq hb c hc
        subst hq
        exact Book.addCredit_conserved b0 rec _ hb (Book.addCredit_eq_eur b0 _ rec hpay) c hc
    · refine ⟨_, Book.addCredit_eq_walk b0 q rec hpay, ?_, ?_⟩
      · intro j c hc
        exact lotStep_getElem? (addCreditWalk_lotStep b0.records rec) j c hc
      · intro hq hb c hc
        subst hq
        exact Book.addCredit_conserved b0 rec _ hb (Book.addCredit_eq_walk b0 _ rec hpay) c hc

/-- C1, witness: two buys and one sell that splits over both lots. -/
theorem balance_conservation_witness :
    NewBook insertionSortSlice [exSell, exBuy2, exBuy1] 2020 = .ok exBook ∧
    ∃ r, exBook.Calculate = some r ∧
      ∀ c ∈ r.1.records, c.balance + qsum c.sells = c.buyTx.Quantity :=
  ⟨rfl, (balance_conservation insertionSortSlice [exSell, exBuy2, exBuy1] 2020 exBook rfl).1⟩

/-- C3, the code at a lot with a negative balance. `Calculate` on the book of a single
EUR paid buy of -1 BTC leaves a lot with balance -1, and `findCredit` returns this lot,
whose balance is not greater than zero: the test in the code is `balance != 0`. -/
theorem findCredit_negative_balance :
    NewBook insertionSortSlice [exNegBuy] 2020 = .ok { exNegBook with records := [] } ∧
    Book.Calculate { exNegBook with records := [] } = some (exNegBook, none) ∧
    exNegBook.findCredit BTC 0 = some (0, exNegLot) ∧
    ¬ (0 < exNegLot.balance) := by
  refine ⟨rfl, ?_, by decide, ?_⟩
  · norm_num [Book.Calculate, Book.addCredits, addCreditsLoop, sellsLoop, Book.addCredit,
      addCreditFuel, exNegBook, exNegBuy, exNegLot, EUR]
  · norm_num [exNegLot]

theorem taxRecordsOfSells_mem (rec : credit) (ss : List sell) (inc : List String) (r : TaxRecord) :
    r ∈ (taxRecordsOfSells rec ss inc).1 → ∃ s ∈ ss, ∃ fees, r = mkTaxRecord rec s fees := by
  induction ss generalizing inc with
  | nil => simp [taxRecordsOfSells]
  | cons s rest ih =>
    intro h
    simp only [taxRecordsOfSells, List.mem_cons] at h
    rcases h with rfl | h
    · exact ⟨s, List.mem_cons_self _ _, _, rfl⟩
    · obtain ⟨s', hs', fees, hr⟩ := ih _ h
      exact ⟨s', List.mem_cons_of_mem _ hs', fees, hr⟩

theorem taxRecordsOfSells_mem_of (rec : credit) (ss : List sell) (inc : List String) (s : sell)
    (hs : s ∈ ss) : ∃ fees, mkTaxRecord rec s fees ∈ (taxRecordsOfSells rec ss inc).1 := by
  induction ss generalizing inc with
  | nil => simp at hs
  | cons a rest ih =>
    rcases List.mem_cons.mp hs with rfl | h
    · exact ⟨(claimFees rec s inc).1, by simp [taxRecordsOfSells]⟩
    · obtain ⟨fees, hf⟩ := ih _ h
      exact ⟨fees, by simp only [taxRecordsOfSells, List.mem_cons]; exact Or.inr hf⟩

theorem taxRecordsOfPool_mem (rs : List credit) (inc : List String) (r : TaxRecord) :
    r ∈ taxRecordsOfPool rs inc →
      ∃ rec ∈ rs, ∃ s ∈ rec.sells, ∃ fees, r = mkTaxRecord rec s fees := by
  induction rs generalizing inc with
  | nil => simp [taxRecordsOfPool]
  | cons c rest ih =>
    intro h
    simp only [taxRecordsOfPool, List.mem_append] at h
    rcases h with h | h
    · obtain ⟨s, hs, fees, hr⟩ := taxRecordsOfSells_mem c c.sells inc r h
      exact ⟨c, List.mem_cons_self _ _, s, hs, fees, hr⟩
    · obtain ⟨rec, hrec, s, hs, fees, hr⟩ := ih _ h
      exact ⟨rec, List.mem_cons_of_mem _ hrec, s, hs, fees, hr⟩

theorem taxRecordsOfPool_mem_of (rs : List credit) (inc : List String) (rec : credit) (s : sell)
    (hrec : rec ∈ rs) (hs : s ∈ rec.sells) :
    ∃ fees, mkTaxRecord rec s fees ∈ taxRecordsOfPool rs inc := by
  induction rs generalizing inc with
  | nil => simp at hrec
  | cons c rest ih =>
    rcases List.mem_cons.mp hrec with rfl | h
    · obtain ⟨fees, hf⟩ := taxRecordsOfSells_mem_of rec rec.sells inc s hs
      exact ⟨fees, by simp only [taxRecordsOfPool, List.mem_append]; exact Or.inl hf⟩
    · obtain ⟨fees, hf⟩ := ih _ h
      exact ⟨fees, by simp only [taxRecordsOfPool, List.mem_append]; exact Or.inr hf⟩

theorem TaxRecords_perm (S : SortSlice) (b : Book) :
    List.Perm (b.TaxRecords S) (taxRecordsOfPool b.records []) :=
  S.perm lessTaxRecord _

theorem mkTaxRecord_hold (rec : credit) (s : sell) (fees : ℚ) :
    (mkTaxRecord rec s fees).HoldLongerThenAYear = true ↔ TaxFreeAfter < s.holdTime := by
  simp [mkTaxRecord, sell.HoldTimeIsLessThenYear]

/-- C4, counterexample. A buy at time 0 and a sell 365 days later: the match has a hold
time of exactly 365 * 24 hours, and its tax record has `HoldLongerThenAYear = false`. -/
theorem holding_period_boundary_counterexample :
    exYearBook.Calculate = some (exYearBookDone, none) ∧
    exYearBookDone.TaxRecords insertionSortSlice = [exYearRecord] ∧
    exYearMatch.holdTime = 365 * 24 * (3600 * 1000000000) ∧
    ¬ (exYearRecord.HoldLongerThenAYear = true ↔
        exYearMatch.holdTime ≥ 365 * 24 * (3600 * 1000000000)) := by
  refine ⟨?_, ?_, ?_, ?_⟩
  · norm_num [Book.Calculate, Book.addCredits, addCreditsLoop, sellsLoop, Book.sell,
      Book.addCredit, addCreditFuel, sellFuel, findCreditIn, exYearBook, exYearBookDone,
      exYearMatch, exYearBuy, exYearSell, EUR, BTC, credit.debit, Time.After, sellMatch, day,
      calcProfit, Time.Sub, minDuration, maxDuration]
  · norm_num [Book.TaxRecords, insertionSortSlice, taxRecordsOfPool, taxRecordsOfSells,
      claimFees, mkTaxRecord, exYearBookDone, exYearBook, exYearMatch, exYearBuy, exYearSell,
      exYearRecord, sell.HoldTimeIsLessThenYear, TaxFreeAfter, day, Time.Year]
  · norm_num [exYearMatch, day]
  · norm_num [exYearRecord, exYearMatch, day]

/-- C4, amended. The tax record that `TaxRecords` produces for a match has
`HoldLongerThenAYear = true` exactly when the hold time of the match is greater than
365 * 24 hours: every match of the pool has such a record among the records returned and
every record returned is the one of a match of the pool. A match held for exactly
365 * 24 hours is taxable (`false`), a match held one nanosecond longer is tax-exempt
(`true`). -/
theorem holding_period_boundary (S : SortSlice) (b : Book) :
    (∀ rec ∈ b.records, ∀ s ∈ rec.sells, ∃ r ∈ b.TaxRecords S, ∃ fees : ℚ,
      r = mkTaxRecord rec s fees ∧
      (r.HoldLongerThenAYear = true ↔ 365 * 24 * (3600 * 1000000000) < s.holdTime)) ∧
    (∀ r ∈ b.TaxRecords S, ∃ rec ∈ b.records, ∃ s ∈ rec.sells, ∃ fees : ℚ,
      r = mkTaxRecord rec s fees ∧
      (r.HoldLongerThenAYear = true ↔ 365 * 24 * (3600 * 1000000000) < s.holdTime)) ∧
    (∀ (rec : credit) (s : sell) (fees : ℚ), s.holdTime = 365 * 24 * (3600 * 1000000000) →
      (mkTaxRecord rec s fees).HoldLongerThenAYear = false) ∧
    (∀ (rec : credit) (s : sell) (fees : ℚ), s.holdTime = 365 * 24 * (3600 * 1000000000) + 1 →
      (mkTaxRecord rec s fees).HoldLongerThenAYear = true) := by
  have hT : TaxFreeAfter = 365 * 24 * (3600 * 1000000000) := by norm_num [TaxFreeAfter]
  refine ⟨?_, ?_, ?_, ?_⟩
  · intro rec hrec s hs
    obtain ⟨fees, hf⟩ := taxRecordsOfPool_mem_of b.records [] rec s hrec hs
    refine ⟨_, (TaxRecords_perm S b).mem_iff.mpr hf, fees, rfl, ?_⟩
    rw [← hT]
    exact mkTaxRecord_hold rec s fees
  · intro r hr
    obtain ⟨rec, hrec, s, hs, fees, h⟩ :=
      taxRecordsOfPool_mem b.records [] r ((TaxRecords_perm S b).mem_iff.mp hr)
    refine ⟨rec, hrec, s, hs, fees, h, ?_⟩
    rw [h, ← hT]
    exact mkTaxRecord_hold rec s fees
  · intro rec s fees h
    have h1 := mkTaxRecord_hold rec s fees
    rw [hT, h] at h1
    simpa using h1
  · intro rec s fees h
    have h1 := mkTaxRecord_hold rec s fees
    rw [hT, h] at h1
    exact h1.mpr (by norm_num)

/-- C4, amended, witness: at the hold time of exactly 365 * 24 hours the record is
taxable. -/
theorem holding_period_boundary_witness :
    (mkTaxRecord { balance := 0, buyTx := exYearBuy, sells := [exYearMatch] } exYearMatch
      0).HoldLongerThenAYear = false :=
  (holding_period_boundary insertionSortSlice exYearBookDone).2.2.1 _ exYearMatch 0
    (by norm_num [exYearMatch, day])

theorem findCreditIn_eq_some_of (rs : List credit) (currency : Currency) (frm : Time) (i : Nat)
    (c : credit) (hc : rs[i]? = some c) (he : eligible currency frm c)
    (hbefore : ∀ (k : Nat) (d : credit), k < i → rs[k]? = some d → ¬ eligible currency frm d) :
    findCreditIn rs currency frm = some (i, c) := by
  induction rs generalizing i with
  | nil => simp at hc
  | cons a rest ih =>
    cases i with
    | zero =>
      simp only [List.getElem?_cons_zero, Option.some.injEq] at hc
      subst hc
      exact findCreditIn_cons_eligible _ _ _ _ he
    | succ i =>
      simp only [List.getElem?_cons_succ] at hc
      have ha : ¬ eligible currency frm a := hbefore 0 a (Nat.succ_pos i) (by simp)
      rw [findCreditIn_cons_not_eligible _ _ _ _ ha,
        ih i hc (fun k d hk hd => hbefore (k + 1) d (Nat.succ_lt_succ hk) (by simpa using hd))]
      rfl

theorem sellFuel_full (fuel : Nat) (rs : List credit) (q : ℚ) (tx : Tx) (i : Nat) (L : credit)
    (hfind : findCreditIn rs tx.Currency tx.Timestamp = some (i, L)) (hq : q ≤ L.balance) :
    sellFuel (fuel + 1) rs q tx = some (rs.set i (L.debit (sellMatch q L tx)), .ok 0) := by
  rw [sellFuel, hfind]
  simp [hq]

theorem sellFuel_partial (fuel : Nat) (rs : List credit) (q : ℚ) (tx : Tx) (i : Nat) (L : credit)
    (hfind : findCreditIn rs tx.Currency tx.Timestamp = some (i, L)) (hq : L.balance < q) :
    sellFuel (fuel + 1) rs q tx =
      sellFuel fuel (rs.set i (L.debit (sellMatch L.balance L tx))) (q - L.balance) tx := by
  rw [sellFuel, hfind]
  simp [not_le.mpr hq]

theorem sellFuel_none (fuel : Nat) (rs : List credit) (q : ℚ) (tx : Tx)
    (hfind : findCreditIn rs tx.Currency tx.Timestamp = none) :
    sellFuel (fuel + 1) rs q tx = some (rs, .ok 0) := by
  rw [sellFuel, hfind]

theorem Book.sell_none (b : Book) (q : ℚ) (tx : Tx)
    (hfind : b.findCredit tx.Currency tx.Timestamp = none) : b.sell q tx = some (b, .ok 0) := by
  unfold Book.sell
  rw [sellFuel_none _ _ _ _ hfind]
  rfl

/-- C9. No matching lot is recovered, not fatal. When `findCredit(tx.Currency,
tx.Timestamp)` finds no lot, `sell(q, tx)` returns a zero remainder and no error and
leaves the book as it is, every balance and every list of matches included, so
`TaxRecords` returns what it returned before the call. `Calculate` on a book with an
empty pool and no buys returns no error, whatever its sells are, leaves the pool empty,
and `TaxRecords` is empty. -/
theorem no_matching_lot (S : SortSlice) (b : Book) (q : ℚ) (tx : Tx)
    (hfind : b.findCredit tx.Currency tx.Timestamp = none) :
    b.sell q tx = some (b, .ok 0) ∧
    (∀ r, b.sell q tx = some r → r.1.TaxRecords S = b.TaxRecords S) ∧
    (∀ b0 : Book, b0.records = [] → b0.buys = [] →
      b0.Calculate = some (b0, none) ∧ b0.TaxRecords S = []) := by
  have hsell : b.sell q tx = some (b, .ok 0) := Book.sell_none b q tx hfind
  refine ⟨hsell, ?_, ?_⟩
  · intro r hr
    rw [hsell] at hr
    cases hr
    rfl
  · intro b0 h1 h2
    constructor
    · have hloop : ∀ l : List Tx, sellsLoop l b0 = some (b0, none) := by
        intro l
        induction l with
        | nil => rfl
        | cons t rest ih =>
          have ht : b0.sell t.Quantity t = some (b0, .ok 0) := by
            apply Book.sell_none
            unfold Book.findCredit
            rw [h1]
            rfl
          simp [sellsLoop, ht, ih]
      simp [Book.Calculate, Book.addCredits, h2, addCreditsLoop, hloop]
    · have hp := TaxRecords_perm S b0
      rw [h1] at hp
      exact List.Perm.eq_nil hp

/-- C9, witness: a sell of BTC on a book without any buy. -/
theorem no_matching_lot_witness :
    Book.findCredit { records := [], buys := [], sells := [exSell], taxYear := 2020 }
      exSell.Currency exSell.Timestamp = none ∧
    Book.sell { records := [], buys := [], sells := [exSell], taxYear := 2020 } 4 exSell =
      some ({ records := [], buys := [], sells := [exSell], taxYear := 2020 }, .ok 0) ∧
    Book.Calculate { records := [], buys := [], sells := [exSell], taxYear := 2020 } =
      some ({ records := [], buys := [], sells := [exSell], taxYear := 2020 }, none) ∧
    Book.TaxRecords insertionSortSlice
      { records := [], buys := [], sells := [exSell], taxYear := 2020 } = [] :=
  ⟨rfl,
    (no_matching_lot insertionSortSlice
      { records := [], buys := [], sells := [exSell], taxYear := 2020 } 4 exSell rfl).1,
    ((no_matching_lot insertionSortSlice
      { records := [], buys := [], sells := [exSell], taxYear := 2020 } 4 exSell rfl).2.2
      { records := [], buys := [], sells := [exSell], taxYear := 2020 } rfl rfl).1,
    ((no_matching_lot insertionSortSlice
      { records := [], buys := [], sells := [exSell], taxYear := 2020 } 4 exSell rfl).2.2
      { records := [], buys := [], sells := [exSell], taxYear := 2020 } rfl rfl).2⟩

theorem createdMatches_self (rs : List credit) : createdMatches rs rs = [] := by
  induction rs with
  | nil => rfl
  | cons c rest ih => simp [createdMatches, ih]

theorem eligibleBalance_cons_eligible (currency : Currency) (frm : Time) (c : credit)
    (rest : List credit) (h : eligible currency frm c) :
    eligibleBalance currency frm (c :: rest) = c.balance + eligibleBalance currency frm rest := by
  simp [eligibleBalance, List.filter_cons, h]

theorem eligibleBalance_cons_not_eligible (currency : Currency) (frm : Time) (c : credit)
    (rest : List credit) (h : ¬ eligible currency frm c) :
    eligibleBalance currency frm (c :: rest) = eligibleBalance currency frm rest := by
  simp [eligibleBalance, List.filter_cons, h]

theorem eligibleBalance_of_none (currency : Currency) (frm : Time) (rs : List credit)
    (h : ∀ c ∈ rs, ¬ eligible currency frm c) : eligibleBalance currency frm rs = 0 := by
  induction rs with
  | nil => rfl
  | cons c rest ih =>
    rw [eligibleBalance_cons_not_eligible _ _ _ _ (h c (List.mem_cons_self _ _))]
    exact ih (fun d hd => h d (List.mem_cons_of_mem _ hd))

theorem createdMatches_cons_debit (c : credit) (m : sell) (rest rest' : List credit) :
    createdMatches (c :: rest) (c.debit m :: rest') = m :: createdMatches rest rest' := by
  simp [createdMatches, credit.debit]

theorem createdMatches_cons_same (c : credit) (rest rest' : List credit) :
    createdMatches (c :: rest) (c :: rest') = createdMatches rest rest' := by
  simp [createdMatches]

theorem qsum_cons (m : sell) (ms : List sell) : qsum (m :: ms) = m.quantity + qsum ms := by
  simp [qsum]

/-- The total quantity matched by one pass of `sell`: the quantity asked for, or else the
whole eligible balance, which then is less than the quantity asked for unless there is
no eligible lot at all. -/
theorem sellWalk_created (rs : List credit) (q : ℚ) (tx : Tx) :
    qsum (createdMatches rs (sellWalk rs q tx)) = q ∨
    (qsum (createdMatches rs (sellWalk rs q tx)) = eligibleBalance tx.Currency tx.Timestamp rs ∧
      (eligibleBalance tx.Currency tx.Timestamp rs < q ∨
        ∀ c ∈ rs, ¬ eligible tx.Currency tx.Timestamp c)) := by
  induction rs generalizing q with
  | nil =>
    right
    exact ⟨by simp [sellWalk, createdMatches, qsum, eligibleBalance], Or.inr (by simp)⟩
  | cons c rest ih =>
    by_cases hc : eligible tx.Currency tx.Timestamp c
    · by_cases hq : q ≤ c.balance
      · left
        simp only [sellWalk, hc, hq, if_true]
        rw [createdMatches_cons_debit, createdMatches_self, qsum_cons]
        simp [sellMatch, qsum]
      · simp only [sellWalk, hc, hq, if_true, if_false]
        rw [createdMatches_cons_debit, qsum_cons, eligibleBalance_cons_eligible _ _ _ _ hc]
        have hm : (sellMatch c.balance c tx).quantity = c.balance := rfl
        rw [hm]
        rcases ih (q - c.balance) with h | ⟨h1, h2⟩
        · left
          rw [h]
          ring
        · right
          refine ⟨by rw [h1], Or.inl ?_⟩
          rcases h2 with h2 | h2
          · linarith
          · rw [eligibleBalance_of_none _ _ _ h2]
            have := not_le.mp hq
            linarith
    · simp only [sellWalk, hc, if_false]
      rw [createdMatches_cons_same, eligibleBalance_cons_not_eligible _ _ _ _ hc]
      rcases ih q with h | ⟨h1, h2⟩
      · exact Or.inl h
      · right
        refine ⟨h1, ?_⟩
        rcases h2 with h2 | h2
        · exact Or.inl h2
        · right
          intro d hd
          rcases List.mem_cons.mp hd with rfl | hmem
          · exact hc
          · exact h2 d hmem

theorem Book.addCredit_none (b : Book) (q : ℚ) (rec : Tx) (hpay : rec.PayCurrency ≠ EUR)
    (hfind : b.findCredit rec.PayCurrency rec.Timestamp = none) :
    b.addCredit q rec = some (b, .error "could not find credit for buying") := by
  unfold Book.findCredit at hfind
  unfold Book.addCredit
  rw [addCreditFuel]
  simp only [hpay, if_false, hfind]
  rfl

theorem addCreditWalk_error_iff (rs : List credit) (rec : Tx) :
    (∃ err, (addCreditWalk rs rec).2 = .error err) ↔
      ∀ c ∈ rs, eligible rec.PayCurrency rec.Timestamp c → c.balance < rec.PriceNoFees := by
  induction rs with
  | nil => simp [addCreditWalk]
  | cons c rest ih =>
    by_cases hc : eligible rec.PayCurrency rec.Timestamp c
    · by_cases hq : rec.PriceNoFees ≤ c.balance
      · simp only [addCreditWalk, hc, hq, if_true, List.mem_cons, forall_eq_or_imp]
        constructor
        · rintro ⟨err, h⟩
          cases h
        · intro h
          exact absurd (h.1 trivial) (not_lt.mpr hq)
      · simp only [addCreditWalk, hc, hq, if_true, if_false, List.mem_cons, forall_eq_or_imp]
        rw [ih]
        exact ⟨fun h => ⟨fun _ => not_le.mp hq, h⟩, fun h => h.2⟩
    · simp only [addCreditWalk, hc, if_false, List.mem_cons, forall_eq_or_imp]
      rw [ih]
      exact ⟨fun h => ⟨fun he => he.elim, h⟩, fun h => h.2⟩

theorem addCreditsLoop_append (pre l : List Tx) (b b1 : Book)
    (h : addCreditsLoop pre b = some (b1, none)) :
    addCreditsLoop (pre ++ l) b = addCreditsLoop l b1 := by
  induction pre generalizing b with
  | nil =>
    simp only [addCreditsLoop, Option.some.injEq, Prod.mk.injEq, and_true] at h
    subst h
    rfl
  | cons rec rest ih =>
    obtain ⟨r, hr⟩ := Book.addCredit_total b rec.Quantity rec
    obtain ⟨b2, res⟩ := r
    cases res with
    | error err => simp [addCreditsLoop, hr] at h
    | ok v =>
      simp only [addCreditsLoop, hr] at h
      simp only [List.cons_append, addCreditsLoop, hr]
      exact ih b2 h

theorem addCreditsLoop_all_eur (l : List Tx) (b : Book) (h : ∀ rec ∈ l, rec.PayCurrency = EUR) :
    ∃ b1, addCreditsLoop l b = some (b1, none) := by
  induction l generalizing b with
  | nil => exact ⟨b, rfl⟩
  | cons rec rest ih =>
    have hr := Book.addCredit_eq_eur b rec.Quantity rec (h rec (List.mem_cons_self _ _))
    obtain ⟨b1, h1⟩ := ih _ (fun x hx => h x (List.mem_cons_of_mem _ hx))
    exact ⟨b1, by simp only [addCreditsLoop, hr]; exact h1⟩

theorem lotStep_buyTx (c c' : credit) (h : LotStep c c') : c'.buyTx = c.buyTx := by
  rcases h with rfl | ⟨m, rfl⟩
  · rfl
  · rfl

theorem Book.addCredit_lotsFrom (buys : List Tx) (b : Book) (q : ℚ) (rec : Tx)
    (r : Book × Except String ℚ) (hrec : rec ∈ buys) (hb : lotsFrom buys b)
    (h : b.addCredit q rec = some r) : lotsFrom buys r.1 := by
  by_cases hpay : rec.PayCurrency = EUR
  · rw [Book.addCredit_eq_eur _ _ _ hpay] at h
    cases h
    intro c hc
    rcases List.mem_append.mp hc with hmem | hmem
    · exact hb c hmem
    · rw [List.mem_singleton] at hmem
      subst hmem
      exact ⟨hrec, hpay⟩
  · rw [Book.addCredit_eq_walk _ _ _ hpay] at h
    cases h
    intro c' hc'
    obtain ⟨c, hc, hstep⟩ := forall₂_mem_right (addCreditWalk_lotStep b.records rec) c' hc'
    rw [lotStep_buyTx c c' hstep]
    exact hb c hc

theorem addCreditsLoop_error_of_unfunded (buys l : List Tx) (b : Book) (rec : Tx)
    (hl : ∀ x ∈ l, x ∈ buys) (hrec : rec ∈ l) (hpay : rec.PayCurrency ≠ EUR)
    (hno : ∀ x ∈ buys, x.PayCurrency = EUR → x.Currency = rec.PayCurrency →
      rec.Timestamp < x.Timestamp)
    (hb : lotsFrom buys b) : ∃ b1 err, addCreditsLoop l b = some (b1, some err) := by
  induction l generalizing b with
  | nil => simp at hrec
  | cons a rest ih =>
    obtain ⟨r, hr⟩ := Book.addCredit_total b a.Quantity a
    have hinv := Book.addCredit_lotsFrom buys b a.Quantity a r (hl a (List.mem_cons_self _ _)) hb hr
    obtain ⟨b2, res⟩ := r
    cases res with
    | error err => exact ⟨b2, err, by simp [addCreditsLoop, hr]⟩
    | ok v =>
      rcases List.mem_cons.mp hrec with heq | hmem
      · subst heq
        have hfind : b.findCredit rec.PayCurrency rec.Timestamp = none := by
          apply (findCreditIn_none _ _ _).mpr
          intro c hc he
          have h1 := hno c.buyTx (hb c hc).1 (hb c hc).2 he.2.1
          exact absurd he.2.2 (not_le.mpr h1)
        rw [Book.addCredit_none b _ rec hpay hfind] at hr
        cases hr
      · obtain ⟨b3, err, h3⟩ := ih b2 (fun x hx => hl x (List.mem_cons_of_mem _ hx)) hmem hinv
        exact ⟨b3, err, by simp only [addCreditsLoop, hr]; exact h3⟩

/-- C10. Funding-lot-not-found is fatal. (1) A call of `addCredit` for a buy that is not
paid in EUR, on a pool where `findCredit` finds no lot of the pay currency, returns an
error and leaves the book as it is; (2) such a call returns an error exactly when no
eligible lot of the pool has a balance of at least the price of the buy, the lots below
the price being exhausted one after the other before the search fails; (3) an error of
`addCredit` for a buy, after the buys before it were processed without error, is what
`Calculate` returns; (4) in particular so when `findCredit` finds no lot for that buy;
(5) on a fresh book `Calculate` returns an error when some buy is not paid in EUR and
the book holds no EUR paid buy of its pay currency at or before its timestamp; (6) a
book whose buys are all paid in EUR never makes `Calculate` fail; (7) `sell` never
returns an error. -/
theorem funding_lot_not_found (b : Book) :
    (∀ (b0 : Book) (q : ℚ) (rec : Tx), rec.PayCurrency ≠ EUR →
      b0.findCredit rec.PayCurrency rec.Timestamp = none →
      ∃ err, b0.addCredit q rec = some (b0, .error err)) ∧
    (∀ (b0 : Book) (q : ℚ) (rec : Tx), rec.PayCurrency ≠ EUR →
      ((∃ b1 err, b0.addCredit q rec = some (b1, .error err)) ↔
        ∀ c ∈ b0.records, c.balance ≠ 0 → c.buyTx.Currency = rec.PayCurrency →
          c.buyTx.Timestamp ≤ rec.Timestamp → c.balance < rec.PriceNoFees)) ∧
    (∀ (pre post : List Tx) (rec : Tx) (b1 b2 : Book) (err : String),
      b.buys = pre ++ rec :: post → addCreditsLoop pre b = some (b1, none) →
      b1.addCredit rec.Quantity rec = some (b2, .error err) →
      b.Calculate = some (b2, some err)) ∧
    (∀ (pre post : List Tx) (rec : Tx) (b1 : Book),
      b.buys = pre ++ rec :: post → addCreditsLoop pre b = some (b1, none) →
      rec.PayCurrency ≠ EUR → b1.findCredit rec.PayCurrency rec.Timestamp = none →
      ∃ err, b.Calculate = some (b1, some err)) ∧
    (b.records = [] → ∀ rec ∈ b.buys, rec.PayCurrency ≠ EUR →
      (∀ x ∈ b.buys, x.PayCurrency = EUR → x.Currency = rec.PayCurrency →
        rec.Timestamp < x.Timestamp) →
      ∃ b1 err, b.Calculate = some (b1, some err)) ∧
    ((∀ rec ∈ b.buys, rec.PayCurrency = EUR) → ∃ b1, b.Calculate = some (b1, none)) ∧
    (∀ (b0 : Book) (q : ℚ) (tx : Tx), ∃ b1, b0.sell q tx = some (b1, .ok 0)) := by
  have hcalc : ∀ (pre post : List Tx) (rec : Tx) (b1 b2 : Book) (err : String),
      b.buys = pre ++ rec :: post → addCreditsLoop pre b = some (b1, none) →
      b1.addCredit rec.Quantity rec = some (b2, .error err) →
      b.Calculate = some (b2, some err) := by
    intro pre post rec b1 b2 err hbuys hpre hadd
    have h1 : addCreditsLoop b.buys b = some (b2, some err) := by
      rw [hbuys, addCreditsLoop_append pre (rec :: post) b b1 hpre]
      simp [addCreditsLoop, hadd]
    simp [Book.Calculate, Book.addCredits, h1]
  refine ⟨?_, ?_, hcalc, ?_, ?_, ?_, ?_⟩
  · intro b0 q rec hpay hfind
    exact ⟨_, Book.addCredit_none b0 q rec hpay hfind⟩
  · intro b0 q rec hpay
    rw [Book.addCredit_eq_walk b0 q rec hpay]
    have hiff := addCreditWalk_error_iff b0.records rec
    constructor
    · rintro ⟨b1, err, h⟩
      simp only [Option.some.injEq, Prod.mk.injEq] at h
      intro c hc h1 h2 h3
      exact hiff.mp ⟨err, h.2⟩ c hc ⟨h1, h2, h3⟩
    · intro h
      obtain ⟨err, he⟩ := hiff.mpr (fun c hc hel => h c hc hel.1 hel.2.1 hel.2.2)
      exact ⟨_, err, by rw [he]⟩
  · intro pre post rec b1 hbuys hpre hpay hfind
    exact ⟨_, hcalc pre post rec b1 b1 _ hbuys hpre
      (Book.addCredit_none b1 rec.Quantity rec hpay hfind)⟩
  · intro hrecords rec hrec hpay hno
    have hb : lotsFrom b.buys b := by
      intro c hc
      rw [hrecords] at hc
      simp at hc
    obtain ⟨b1, err, h1⟩ :=
      addCreditsLoop_error_of_unfunded b.buys b.buys b rec (fun x hx => hx) hrec hpay hno hb
    exact ⟨b1, err, by simp [Book.Calculate, Book.addCredits, h1]⟩
  · intro hall
    obtain ⟨b1, h1⟩ := addCreditsLoop_all_eur b.buys b hall
    obtain ⟨b2, h2, _⟩ := sellsLoop_invariant (fun _ => True) b1.sells
      (fun _ _ _ _ _ _ => trivial) b1 trivial
    exact ⟨b2, by simp [Book.Calculate, Book.addCredits, h1, h2]⟩
  · intro b0 q tx
    exact ⟨_, Book.sell_eq b0 q tx⟩

/-- C10, witness: a book whose only buy is 5 ETH paid in BTC has no BTC lot, so
`Calculate` returns an error. -/
theorem funding_lot_not_found_witness :
    ∃ b1 err, exTradeBook.Calculate = some (b1, some err) :=
  (funding_lot_not_found exTradeBook).2.2.2.2.1 rfl exTrade (by simp [exTradeBook])
    (by decide) (by
      intro x hx h1
      simp only [exTradeBook, List.mem_singleton] at hx
      subst hx
      exact absurd h1 (by decide))

theorem firstSeen_append (inc : List String) (a b : List Tx) :
    firstSeen inc (a ++ b) = firstSeen inc a ++ firstSeen (seenAfter inc a) b := by
  induction a generalizing inc with
  | nil => rfl
  | cons t ts ih =>
    by_cases h : t.ID ∈ inc
    · simp [firstSeen, seenAfter, h, ih]
    · simp [firstSeen, seenAfter, h, ih]

theorem seenAfter_append (inc : List String) (a b : List Tx) :
    seenAfter inc (a ++ b) = seenAfter (seenAfter inc a) b := by
  induction a generalizing inc with
  | nil => rfl
  | cons t ts ih =>
    by_cases h : t.ID ∈ inc
    · simp [seenAfter, h, ih]
    · simp [seenAfter, h, ih]

theorem claimedList_append (inc : List String) (a b : List (List Tx)) :
    claimedList inc (a ++ b) = claimedList inc a ++ claimedList (seenAfter inc a.flatten) b := by
  induction a generalizing inc with
  | nil => rfl
  | cons g gs ih =>
    show claimedList inc (g :: (gs ++ b)) = _
    simp only [claimedList, List.flatten_cons, seenAfter_append, ih, List.cons_append]

theorem claimedList_join (inc : List String) (gs : List (List Tx)) :
    (claimedList inc gs).flatten = firstSeen inc gs.flatten := by
  induction gs generalizing inc with
  | nil => rfl
  | cons g rest ih => simp only [claimedList, List.flatten_cons, firstSeen_append, ih]

theorem claimFees_eq (rec : credit) (s : sell) (inc : List String) :
    claimFees rec s inc =
      (feeSum (firstSeen inc [s.tx, rec.buyTx]), seenAfter inc [s.tx, rec.buyTx]) := by
  by_cases h1 : s.tx.ID ∈ inc
  · by_cases h2 : rec.buyTx.ID ∈ inc
    · simp [claimFees, firstSeen, seenAfter, feeSum, h1, h2]
    · simp [claimFees, firstSeen, seenAfter, feeSum, h1, h2]
  · by_cases h2 : rec.buyTx.ID ∈ s.tx.ID :: inc
    · simp [claimFees, firstSeen, seenAfter, feeSum, h1, h2]
    · simp [claimFees, firstSeen, seenAfter, feeSum, h1, h2]

theorem taxRecordsOfSells_fees (rec : credit) (ss : List sell) (inc : List String) :
    (taxRecordsOfSells rec ss inc).1.map (fun r => r.AdvertisingCosts) =
        (claimedList inc (ss.map (fun s => [s.tx, rec.buyTx]))).map feeSum ∧
      (taxRecordsOfSells rec ss inc).2 =
        seenAfter inc (ss.map (fun s => [s.tx, rec.buyTx])).flatten := by
  induction ss generalizing inc with
  | nil => exact ⟨rfl, rfl⟩
  | cons s rest ih =>
    obtain ⟨h1, h2⟩ := ih (claimFees rec s inc).2
    simp only [taxRecordsOfSells, List.map_cons, claimedList, List.flatten_cons, seenAfter_append]
    rw [h1, h2, claimFees_eq]
    exact ⟨by simp [mkTaxRecord], rfl⟩

theorem taxRecordsOfPool_fees (rs : List credit) (inc : List String) :
    (taxRecordsOfPool rs inc).map (fun r => r.AdvertisingCosts) =
      (claimedList inc (touchedOfPool rs)).map feeSum := by
  induction rs generalizing inc with
  | nil => rfl
  | cons rec rest ih =>
    obtain ⟨h1, h2⟩ := taxRecordsOfSells_fees rec rec.sells inc
    simp only [taxRecordsOfPool, touchedOfPool, List.map_append, claimedList_append]
    rw [h1, h2, ih]

theorem seenAfter_mem (inc : List String) (ts : List Tx) (x : String) :
    x ∈ seenAfter inc ts ↔ x ∈ inc ∨ ∃ t ∈ ts, t.ID = x := by
  induction ts generalizing inc with
  | nil => simp [seenAfter]
  | cons t rest ih =>
    by_cases h : t.ID ∈ inc
    · simp only [seenAfter, h, if_true, ih, List.mem_cons, exists_eq_or_imp]
      constructor
      · rintro (h1 | h1)
        · exact Or.inl h1
        · exact Or.inr (Or.inr h1)
      · rintro (h1 | h1 | h1)
        · exact Or.inl h1
        · exact Or.inl (h1 ▸ h)
        · exact Or.inr h1
    · simp only [seenAfter, h, if_false, ih, List.mem_cons, exists_eq_or_imp]
      constructor
      · rintro ((h1 | h1) | h1)
        · exact Or.inr (Or.inl h1.symm)
        · exact Or.inl h1
        · exact Or.inr (Or.inr h1)
      · rintro (h1 | h1 | h1)
        · exact Or.inl (Or.inr h1)
        · exact Or.inl (Or.inl h1.symm)
        · exact Or.inr h1

theorem firstSeen_sub (inc : List String) (ts : List Tx) (t : Tx) (h : t ∈ firstSeen inc ts) :
    t ∈ ts ∧ t.ID ∉ inc := by
  induction ts generalizing inc with
  | nil => simp [firstSeen] at h
  | cons a rest ih =>
    by_cases ha : a.ID ∈ inc
    · simp only [firstSeen, ha, if_true] at h
      exact ⟨List.mem_cons_of_mem _ (ih inc h).1, (ih inc h).2⟩
    · simp only [firstSeen, ha, if_false, List.mem_cons] at h
      rcases h with rfl | h
      · exact ⟨List.mem_cons_self _ _, ha⟩
      · obtain ⟨h1, h2⟩ := ih _ h
        exact ⟨List.mem_cons_of_mem _ h1, fun hn => h2 (List.mem_cons_of_mem _ hn)⟩

theorem firstSeen_mem_of (inc : List String) (ts : List Tx) (t : Tx)
    (hinj : ∀ x ∈ ts, ∀ y ∈ ts, x.ID = y.ID → x = y) (ht : t ∈ ts) (hid : t.ID ∉ inc) :
    t ∈ firstSeen inc ts := by
  induction ts generalizing inc with
  | nil => simp at ht
  | cons a rest ih =>
    have hinj' : ∀ x ∈ rest, ∀ y ∈ rest, x.ID = y.ID → x = y :=
      fun x hx y hy => hinj x (List.mem_cons_of_mem _ hx) y (List.mem_cons_of_mem _ hy)
    by_cases hta : t = a
    · subst hta
      simp [firstSeen, hid]
    · have htr : t ∈ rest := by
        rcases List.mem_cons.mp ht with h | h
        · exact absurd h hta
        · exact h
      by_cases ha : a.ID ∈ inc
      · simp only [firstSeen, ha, if_true]
        exact ih inc hinj' htr hid
      · simp only [firstSeen, ha, if_false, List.mem_cons]
        right
        apply ih _ hinj' htr
        intro hn
        rcases List.mem_cons.mp hn with h | h
        · exact hta (hinj t ht a (List.mem_cons_self _ _) h)
        · exact hid h

theorem firstSeen_ids_nodup (inc : List String) (ts : List Tx) :
    ((firstSeen inc ts).map (fun t => t.ID)).Nodup := by
  induction ts generalizing inc with
  | nil => simp [firstSeen]
  | cons a rest ih =>
    by_cases ha : a.ID ∈ inc
    · simp only [firstSeen, ha, if_true]
      exact ih inc
    · simp only [firstSeen, ha, if_false, List.map_cons, List.nodup_cons]
      refine ⟨?_, ih _⟩
      intro hmem
      obtain ⟨t, ht, hid⟩ := List.mem_map.mp hmem
      exact (firstSeen_sub _ _ t ht).2 (by rw [hid]; exact List.mem_cons_self _ _)

theorem firstSeen_nodup (inc : List String) (ts : List Tx) : (firstSeen inc ts).Nodup :=
  List.Nodup.of_map _ (firstSeen_ids_nodup inc ts)

theorem claimedList_getElem? (inc : List String) (gs : List (List Tx)) (k : Nat) :
    (claimedList inc gs)[k]? =
      gs[k]?.map (fun g => firstSeen (seenAfter inc (gs.take k).flatten) g) := by
  induction gs generalizing inc k with
  | nil => simp [claimedList]
  | cons g rest ih =>
    cases k with
    | zero => simp [claimedList, seenAfter]
    | succ k =>
      simp only [claimedList, List.getElem?_cons_succ, List.take_succ_cons, List.flatten_cons,
        seenAfter_append]
      exact ih _ k

theorem mem_take_iff_getElem? (gs : List (List Tx)) (k : Nat) (g : List Tx) :
    g ∈ gs.take k ↔ ∃ j, j < k ∧ gs[j]? = some g := by
  induction gs generalizing k with
  | nil => simp
  | cons a rest ih =>
    cases k with
    | zero => simp
    | succ k =>
      simp only [List.take_succ_cons, List.mem_cons, ih]
      constructor
      · rintro (rfl | ⟨j, hj, hg⟩)
        · exact ⟨0, Nat.succ_pos k, by simp⟩
        · exact ⟨j + 1, Nat.succ_lt_succ hj, by simpa using hg⟩
      · rintro ⟨j, hj, hg⟩
        cases j with
        | zero =>
          simp only [List.getElem?_cons_zero, Option.some.injEq] at hg
          exact Or.inl hg.symm
        | succ j =>
          simp only [List.getElem?_cons_succ] at hg
          exact Or.inr ⟨j, Nat.lt_of_succ_lt_succ hj, hg⟩

/-- A transaction is claimed by the first match that touches it, and only by it. -/
theorem claimedList_first (gs : List (List Tx))
    (hinj : ∀ x ∈ gs.flatten, ∀ y ∈ gs.flatten, x.ID = y.ID → x = y)
    (k : Nat) (g c : List Tx) (hg : gs[k]? = some g) (hc : (claimedList [] gs)[k]? = some c)
    (t : Tx) :
    t ∈ c ↔ t ∈ g ∧ ∀ (j : Nat) (g' : List Tx), j < k → gs[j]? = some g' → t ∉ g' := by
  rw [claimedList_getElem?, hg] at hc
  simp only [Option.map_some', Option.some.injEq] at hc
  subst hc
  have hgmem : g ∈ gs := List.getElem?_mem hg
  have hsub : ∀ x ∈ g, x ∈ gs.flatten := fun x hx => List.mem_flatten.mpr ⟨g, hgmem, hx⟩
  constructor
  · intro ht
    obtain ⟨h1, h2⟩ := firstSeen_sub _ _ t ht
    refine ⟨h1, ?_⟩
    intro j g' hj hg' htg'
    apply h2
    rw [seenAfter_mem]
    right
    exact ⟨t, List.mem_flatten.mpr ⟨g', (mem_take_iff_getElem? gs k g').mpr ⟨j, hj, hg'⟩, htg'⟩,
      rfl⟩
  · rintro ⟨h1, h2⟩
    apply firstSeen_mem_of _ _ _ (fun x hx y hy => hinj x (hsub x hx) y (hsub y hy)) h1
    intro hseen
    rw [seenAfter_mem] at hseen
    rcases hseen with hseen | ⟨u, hu, hid⟩
    · simp at hseen
    · obtain ⟨g', hg'mem, hug'⟩ := List.mem_flatten.mp hu
      obtain ⟨j, hj, hg'⟩ := (mem_take_iff_getElem? gs k g').mp hg'mem
      have hu' : u ∈ gs.flatten := List.mem_flatten.mpr ⟨g', List.getElem?_mem hg', hug'⟩
      have : u = t := hinj u hu' t (hsub t h1) hid
      subst this
      exact h2 j g' hj hg' hug'

/-- The fees of every transaction that takes part in a match are counted once. -/
theorem claimedList_sum (gs : List (List Tx))
    (hinj : ∀ x ∈ gs.flatten, ∀ y ∈ gs.flatten, x.ID = y.ID → x = y) :
    ((claimedList [] gs).map feeSum).sum = ∑ t in gs.flatten.toFinset, t.Fees := by
  have h1 : ((claimedList [] gs).map feeSum).sum = feeSum (claimedList [] gs).flatten := by
    generalize claimedList [] gs = cs
    induction cs with
    | nil => rfl
    | cons c rest ih =>
      simp only [List.map_cons, List.sum_cons, List.flatten_cons, ih]
      simp [feeSum]
  rw [h1, claimedList_join]
  have h2 : (firstSeen [] gs.flatten).toFinset = gs.flatten.toFinset := by
    ext t
    simp only [List.mem_toFinset]
    constructor
    · intro h
      exact (firstSeen_sub _ _ t h).1
    · intro h
      exact firstSeen_mem_of _ _ t hinj h (by simp)
  rw [← h2, List.sum_toFinset _ (firstSeen_nodup [] gs.flatten)]
  rfl

theorem touchedOfPool_mem (rs : List credit) (t : Tx) :
    t ∈ (touchedOfPool rs).flatten ↔ ∃ c ∈ rs, ∃ m ∈ c.sells, t = m.tx ∨ t = c.buyTx := by
  induction rs with
  | nil => simp [touchedOfPool]
  | cons c rest ih =>
    simp only [touchedOfPool, List.flatten_append, List.mem_append, ih, List.mem_cons,
      exists_eq_or_imp]
    apply or_congr_left
    simp only [List.mem_flatten, List.mem_map]
    constructor
    · rintro ⟨g, ⟨m, hm, rfl⟩, ht⟩
      refine ⟨m, hm, ?_⟩
      simpa using ht
    · rintro ⟨m, hm, ht⟩
      exact ⟨_, ⟨m, hm, rfl⟩, by simpa using ht⟩

theorem sellWalk_lotStepFor (rs : List credit) (q : ℚ) (tx : Tx) :
    List.Forall₂ (fun c c' => c' = c ∨ ∃ m : sell, m.tx = tx ∧ c' = c.debit m) rs
      (sellWalk rs q tx) := by
  induction rs generalizing q with
  | nil => simp [sellWalk]
  | cons c rest ih =>
    rw [sellWalk]
    split_ifs
    · exact List.Forall₂.cons (Or.inr ⟨_, rfl, rfl⟩)
        (List.forall₂_same.mpr (fun _ _ => Or.inl rfl))
    · exact List.Forall₂.cons (Or.inr ⟨_, rfl, rfl⟩) (ih _)
    · exact List.Forall₂.cons (Or.inl rfl) (ih _)

theorem addCreditWalk_lotStepFor (rs : List credit) (rec : Tx) :
    List.Forall₂ (fun c c' => c' = c ∨ ∃ m : sell, m.tx = rec ∧ c' = c.debit m) rs
      (addCreditWalk rs rec).1 := by
  induction rs with
  | nil => simp [addCreditWalk]
  | cons c rest ih =>
    rw [addCreditWalk]
    split_ifs
    · exact List.Forall₂.cons (Or.inr ⟨_, rfl, rfl⟩)
        (List.forall₂_same.mpr (fun _ _ => Or.inl rfl))
    · exact List.Forall₂.cons (Or.inr ⟨_, rfl, rfl⟩) ih
    · exact List.Forall₂.cons (Or.inl rfl) ih

theorem txsFrom_step (U : List Tx) (tx : Tx) (htx : tx ∈ U) (c c' : credit)
    (hc : c.buyTx ∈ U ∧ ∀ m ∈ c.sells, m.tx ∈ U)
    (h : c' = c ∨ ∃ m : sell, m.tx = tx ∧ c' = c.debit m) :
    c'.buyTx ∈ U ∧ ∀ m ∈ c'.sells, m.tx ∈ U := by
  rcases h with rfl | ⟨m, hm, rfl⟩
  · exact hc
  · refine ⟨hc.1, ?_⟩
    intro m' hm'
    simp only [credit.debit, List.mem_append, List.mem_singleton] at hm'
    rcases hm' with h | rfl
    · exact hc.2 m' h
    · rw [hm]
      exact htx

theorem Book.sell_txsFrom (U : List Tx) (b : Book) (q : ℚ) (tx : Tx)
    (r : Book × Except String ℚ) (htx : tx ∈ U) (hb : txsFrom U b)
    (h : b.sell q tx = some r) : txsFrom U r.1 := by
  rw [Book.sell_eq] at h
  cases h
  intro c' hc'
  obtain ⟨c, hc, hstep⟩ := forall₂_mem_right (sellWalk_lotStepFor b.records q tx) c' hc'
  exact txsFrom_step U tx htx c c' (hb c hc) hstep

theorem Book.addCredit_txsFrom (U : List Tx) (b : Book) (q : ℚ) (rec : Tx)
    (r : Book × Except String ℚ) (hrec : rec ∈ U) (hb : txsFrom U b)
    (h : b.addCredit q rec = some r) : txsFrom U r.1 := by
  by_cases hpay : rec.PayCurrency = EUR
  · rw [Book.addCredit_eq_eur _ _ _ hpay] at h
    cases h
    intro c hc
    rcases List.mem_append.mp hc with hmem | hmem
    · exact hb c hmem
    · rw [List.mem_singleton] at hmem
      subst hmem
      exact ⟨hrec, by simp⟩
  · rw [Book.addCredit_eq_walk _ _ _ hpay] at h
    cases h
    intro c' hc'
    obtain ⟨c, hc, hstep⟩ := forall₂_mem_right (addCreditWalk_lotStepFor b.records rec) c' hc'
    exact txsFrom_step U rec hrec c c' (hb c hc) hstep

theorem NewBook_split_mem (l : List Tx) (b0 b : Book) (h : NewBook.split l b0 = .ok b) (t : Tx) :
    (t ∈ b.buys → t ∈ b0.buys ∨ t ∈ l) ∧ (t ∈ b.sells → t ∈ b0.sells ∨ t ∈ l) := by
  induction l generalizing b0 with
  | nil =>
    simp only [NewBook.split, Except.ok.injEq] at h
    subst h
    exact ⟨Or.inl, Or.inl⟩
  | cons rec rest ih =>
    rw [NewBook.split] at h
    split_ifs at h
    · obtain ⟨h1, h2⟩ := ih { b0 with buys := b0.buys ++ [rec] } h
      constructor
      · intro ht
        rcases h1 ht with h3 | h3
        · rcases List.mem_append.mp h3 with h4 | h4
          · exact Or.inl h4
          · exact Or.inr (by rw [List.mem_singleton] at h4; rw [h4]; exact List.mem_cons_self _ _)
        · exact Or.inr (List.mem_cons_of_mem _ h3)
      · intro ht
        rcases h2 ht with h3 | h3
        · exact Or.inl h3
        · exact Or.inr (List.mem_cons_of_mem _ h3)
    · obtain ⟨h1, h2⟩ := ih { b0 with sells := b0.sells ++ [rec] } h
      constructor
      · intro ht
        rcases h1 ht with h3 | h3
        · exact Or.inl h3
        · exact Or.inr (List.mem_cons_of_mem _ h3)
      · intro ht
        rcases h2 ht with h3 | h3
        · rcases List.mem_append.mp h3 with h4 | h4
          · exact Or.inl h4
          · exact Or.inr (by rw [List.mem_singleton] at h4; rw [h4]; exact List.mem_cons_self _ _)
        · exact Or.inr (List.mem_cons_of_mem _ h3)

theorem NewBook_mem (S : SortSlice) (txs : List Tx) (taxYear : Int) (b : Book)
    (h : NewBook S txs taxYear = .ok b) (t : Tx) :
    (t ∈ b.buys → t ∈ txs) ∧ (t ∈ b.sells → t ∈ txs) := by
  unfold NewBook at h
  split at h
  · cases h
  · next b1 hb1 =>
    simp only [Except.ok.injEq] at h
    subst h
    obtain ⟨h1, h2⟩ := NewBook_split_mem _ _ _ hb1 t
    constructor
    · intro ht
      rcases h1 ((S.perm lessByUnixNano b1.buys).mem_iff.mp ht) with h3 | h3
      · simp at h3
      · exact h3
    · intro ht
      rcases h2 ((S.perm lessByUnixNano b1.sells).mem_iff.mp ht) with h3 | h3
      · simp at h3
      · exact h3

/-- C5. Fee idempotence. Let the transactions handed to `NewBook` have pairwise
distinct IDs and let `Calculate` have run. The records of `TaxRecords` are, up to their
order, the records of the loop over the matches of the pool, and the `AdvertisingCosts`
of the record of a match is the sum of the fees of the transactions this match claims. A
transaction is claimed by a match exactly when the match touches it (as its disposal or
as the buy of its lot) and no earlier match in pool order does, and no match claims a
transaction twice: whatever the number of matches a transaction takes part in, its fees
go to the record of the first of them and to no other. The sum of `AdvertisingCosts`
over the records returned is therefore the sum of the fees over the distinct
transactions that take part in at least one match. -/
theorem fee_idempotence (S : SortSlice) (txs : List Tx) (taxYear : Int) (b : Book)
    (r : Book × Option String)
    (hnew : NewBook S txs taxYear = .ok b)
    (hids : (txs.map (fun t => t.ID)).Nodup)
    (hcalc : b.Calculate = some r) :
    List.Perm (r.1.TaxRecords S) (taxRecordsOfPool r.1.records []) ∧
    (taxRecordsOfPool r.1.records []).map (fun x => x.AdvertisingCosts) =
      (claimedList [] (touchedOfPool r.1.records)).map feeSum ∧
    (∀ (k : Nat) (g c : List Tx), (touchedOfPool r.1.records)[k]? = some g →
      (claimedList [] (touchedOfPool r.1.records))[k]? = some c →
      c.Nodup ∧ ∀ t : Tx, t ∈ c ↔
        (t ∈ g ∧ ∀ (j : Nat) (g' : List Tx), j < k →
          (touchedOfPool r.1.records)[j]? = some g' → t ∉ g')) ∧
    ((r.1.TaxRecords S).map (fun x => x.AdvertisingCosts)).sum =
      ∑ t in (touchedOfPool r.1.records).flatten.toFinset, t.Fees := by
  have hempty : txsFrom txs b := by
    intro c hc
    rw [NewBook_records S txs taxYear b hnew] at hc
    simp at hc
  obtain ⟨r', hr', hP, _⟩ := Calculate_invariant (txsFrom txs) b
    (fun b0 rec r0 hmem h0 h1 =>
      Book.addCredit_txsFrom txs b0 _ rec r0 ((NewBook_mem S txs taxYear b hnew rec).1 hmem) h0 h1)
    (fun b0 tx r0 hmem h0 h1 =>
      Book.sell_txsFrom txs b0 _ tx r0 ((NewBook_mem S txs taxYear b hnew tx).2 hmem) h0 h1)
    hempty
  rw [hcalc] at hr'
  cases hr'
  have hsub : ∀ t ∈ (touchedOfPool r.1.records).flatten, t ∈ txs := by
    intro t ht
    obtain ⟨c, hc, m, hm, h⟩ := (touchedOfPool_mem _ t).mp ht
    rcases h with rfl | rfl
    · exact (hP c hc).2 m hm
    · exact (hP c hc).1
  have hinj : ∀ x ∈ (touchedOfPool r.1.records).flatten,
      ∀ y ∈ (touchedOfPool r.1.records).flatten, x.ID = y.ID → x = y :=
    fun x hx y hy hxy => List.inj_on_of_nodup_map hids (hsub x hx) (hsub y hy) hxy
  refine ⟨TaxRecords_perm S r.1, taxRecordsOfPool_fees r.1.records [], ?_, ?_⟩
  · intro k g c hg hc
    refine ⟨?_, claimedList_first _ hinj k g c hg hc⟩
    rw [claimedList_getElem?, hg] at hc
    simp only [Option.map_some', Option.some.injEq] at hc
    rw [← hc]
    exact firstSeen_nodup _ _
  · rw [((TaxRecords_perm S r.1).map (fun x => x.AdvertisingCosts)).sum_eq,
      taxRecordsOfPool_fees, claimedList_sum _ hinj]

/-- C5, witness: the sell `s1` (fees 3) is split over the lots of `b1` (fees 1) and `b2`
(fees 2); the two records carry 4 and 2, in total 6, the fees of the three
transactions. -/
theorem fee_idempotence_witness :
    (exSplitDone.TaxRecords insertionSortSlice).map (fun x => x.AdvertisingCosts) = [4, 2] ∧
    ((exSplitDone.TaxRecords insertionSortSlice).map (fun x => x.AdvertisingCosts)).sum =
      ∑ t in (touchedOfPool exSplitDone.records).flatten.toFinset, t.Fees := by
  have hcalc : exBook.Calculate = some (exSplitDone, none) := by
    norm_num [Book.Calculate, Book.addCredits, addCreditsLoop, sellsLoop, Book.sell,
      Book.addCredit, addCreditFuel, sellFuel, findCreditIn, exBook, exSplitDone,
      exBuy1, exBuy2, exSell, EUR, BTC, credit.debit, Time.After, sellMatch, day,
      calcProfit, Time.Sub, minDuration, maxDuration]
  refine ⟨?_, (fee_idempotence insertionSortSlice [exSell, exBuy2, exBuy1] 2020 exBook
    (exSplitDone, none) rfl (by decide) hcalc).2.2.2⟩
  norm_num [Book.TaxRecords, insertionSortSlice, taxRecordsOfPool, taxRecordsOfSells,
    claimFees, mkTaxRecord, exSplitDone, exBook, exBuy1, exBuy2, exSell,
    sell.HoldTimeIsLessThenYear, TaxFreeAfter, day, Time.Year, lessTaxRecord, Time.Before, BTC]
  simp

/-- C11, the code at a buy that is funded from two lots. BTC lots of 2 and 10 and a buy
of ETH for a price of `P = 5` BTC: `addCredit` takes the whole balance `b = 2` of the
first lot and then the whole price 5, not the shortfall `P - b = 3`, from the second
lot. The matches created for the buy sum to 7, not to 5, and the balance of the second
lot goes down by 5, from 10 to 5. -/
theorem addCredit_shortfall_overdraw :
    NewBook insertionSortSlice [exTradeBig, exBuyBig, exBuy1] 2020 = .ok exFundBook ∧
    exFundBook.Calculate = some (exFundDone, none) ∧
    exTradeBig.PriceNoFees = 5 ∧
    qsum (createdMatches
      [{ balance := 2, buyTx := exBuy1, sells := [] },
       { balance := 10, buyTx := exBuyBig, sells := [] }] exFundDone.records) = 7 ∧
    exFundDone.records.map (fun c => c.balance) = [0, 5] ∧
    (10 : ℚ) - 5 ≠ exTradeBig.PriceNoFees - 2 := by
  refine ⟨rfl, ?_, ?_, ?_, ?_, ?_⟩
  · norm_num [Book.Calculate, Book.addCredits, addCreditsLoop, sellsLoop, Book.addCredit,
      addCreditFuel, findCreditIn, exFundBook, exFundDone, exBuy1, exBuyBig, exTradeBig, EUR,
      BTC, credit.debit, Time.After, tradeMatch, day, Tx.PriceNoFees, Time.Sub, minDuration,
      maxDuration]
  · norm_num [Tx.PriceNoFees, exTradeBig]
  · norm_num [createdMatches, exFundDone, qsum]
  · simp [exFundDone]
  · norm_num [Tx.PriceNoFees, exTradeBig]

theorem lessTaxRecord_iff (x y : TaxRecord) :
    lessTaxRecord x y = true ↔
      (x.TaxYear < y.TaxYear ∨
        (x.TaxYear = y.TaxYear ∧
          (x.SellTs < y.SellTs ∨ (x.SellTs = y.SellTs ∧ x.Currency < y.Currency)))) := by
  unfold lessTaxRecord Time.Before
  by_cases h1 : x.TaxYear = y.TaxYear
  · by_cases h2 : x.SellTs = y.SellTs
    · simp [h1, h2]
    · simp [h1, h2]
  · simp only [ne_eq, h1, not_false_eq_true, if_true, decide_eq_true_eq, false_and, or_false]

theorem lessTaxRecord_asymm (a b : TaxRecord) (h : lessTaxRecord a b = true) :
    lessTaxRecord b a = false := by
  rw [← Bool.not_eq_true, lessTaxRecord_iff]
  rw [lessTaxRecord_iff] at h
  intro hn
  rcases h with h | ⟨h1, h | ⟨h2, h3⟩⟩ <;> rcases hn with g | ⟨g1, g | ⟨g2, g3⟩⟩ <;> linarith

theorem keyLe_of_not_less (a b : TaxRecord) (h : lessTaxRecord b a = false) : keyLe a b := by
  rw [← Bool.not_eq_true, lessTaxRecord_iff] at h
  unfold keyLe
  by_contra hn
  apply h
  rcases lt_trichotomy b.TaxYear a.TaxYear with h1 | h1 | h1
  · exact Or.inl h1
  · rcases lt_trichotomy b.SellTs a.SellTs with h2 | h2 | h2
    · exact Or.inr ⟨h1, Or.inl h2⟩
    · by_cases h3 : b.Currency < a.Currency
      · exact Or.inr ⟨h1, Or.inr ⟨h2, h3⟩⟩
      · exact absurd (Or.inr ⟨h1.symm, Or.inr ⟨h2.symm, not_lt.mp h3⟩⟩) hn
    · exact absurd (Or.inr ⟨h1.symm, Or.inl h2⟩) hn
  · exact absurd (Or.inl h1) hn

theorem lessTaxRecord_negTrans (a b c : TaxRecord) (hab : lessTaxRecord b a = false)
    (hbc : lessTaxRecord c b = false) : lessTaxRecord c a = false := by
  have h1 := keyLe_of_not_less a b hab
  have h2 := keyLe_of_not_less b c hbc
  rw [← Bool.not_eq_true, lessTaxRecord_iff]
  unfold keyLe at h1 h2
  intro hn
  rcases h1 with h | ⟨h1, h | ⟨h2', h3⟩⟩ <;> rcases h2 with g | ⟨g1, g | ⟨g2, g3⟩⟩ <;>
    rcases hn with k | ⟨k1, k | ⟨k2, k3⟩⟩ <;> linarith

theorem taxRecordsOfSells_length (rec : credit) (ss : List sell) (inc : List String) :
    (taxRecordsOfSells rec ss inc).1.length = ss.length := by
  induction ss generalizing inc with
  | nil => rfl
  | cons s rest ih => simp [taxRecordsOfSells, ih]

theorem taxRecordsOfPool_length (rs : List credit) (inc : List String) :
    (taxRecordsOfPool rs inc).length = (rs.map (fun c => c.sells.length)).sum := by
  induction rs generalizing inc with
  | nil => rfl
  | cons c rest ih => simp [taxRecordsOfPool, taxRecordsOfSells_length, ih]

/-- C12. `TaxRecords` returns one record per match of the pool: its length is the total
number of matches over all lots, and it is a permutation of the records of the loop over
the matches. The sequence returned is ordered by (TaxYear, SellTs, Currency): the key of
a record is lexicographically less than or equal to the key of every later record, in
particular for every adjacent pair. -/
theorem tax_records_sorted (S : SortSlice) (b : Book) :
    (b.TaxRecords S).length = (b.records.map (fun c => c.sells.length)).sum ∧
    List.Perm (b.TaxRecords S) (taxRecordsOfPool b.records []) ∧
    List.Pairwise keyLe (b.TaxRecords S) ∧
    List.Chain' keyLe (b.TaxRecords S) := by
  have hp : List.Pairwise keyLe (b.TaxRecords S) :=
    (S.sorted lessTaxRecord (taxRecordsOfPool b.records []) lessTaxRecord_asymm
      lessTaxRecord_negTrans).imp (fun {a c} h => keyLe_of_not_less a c h)
  refine ⟨?_, TaxRecords_perm S b, hp, List.Pairwise.chain' hp⟩
  rw [(TaxRecords_perm S b).length_eq, taxRecordsOfPool_length]

theorem sellWalk_eligibleStep (rs : List credit) (q : ℚ) (tx : Tx) :
    List.Forall₂ (fun c c' => c' = c ∨
        (eligible tx.Currency tx.Timestamp c ∧ ∃ a : ℚ, c' = c.debit (sellMatch a c tx)))
      rs (sellWalk rs q tx) := by
  induction rs generalizing q with
  | nil => simp [sellWalk]
  | cons c rest ih =>
    by_cases hc : eligible tx.Currency tx.Timestamp c
    · by_cases hq : q ≤ c.balance
      · simp only [sellWalk, hc, hq, if_true]
        exact List.Forall₂.cons (Or.inr ⟨hc, _, rfl⟩)
          (List.forall₂_same.mpr (fun _ _ => Or.inl rfl))
      · simp only [sellWalk, hc, hq, if_true, if_false]
        exact List.Forall₂.cons (Or.inr ⟨hc, _, rfl⟩) (ih _)
    · simp only [sellWalk, hc, if_false]
      exact List.Forall₂.cons (Or.inl rfl) (ih _)

theorem addCreditWalk_eligibleStep (rs : List credit) (rec : Tx) :
    List.Forall₂ (fun c c' => c' = c ∨
        (eligible rec.PayCurrency rec.Timestamp c ∧ ∃ a : ℚ, c' = c.debit (tradeMatch a c rec)))
      rs (addCreditWalk rs rec).1 := by
  induction rs with
  | nil => simp [addCreditWalk]
  | cons c rest ih =>
    by_cases hc : eligible rec.PayCurrency rec.Timestamp c
    · by_cases hq : rec.PriceNoFees ≤ c.balance
      · simp only [addCreditWalk, hc, hq, if_true]
        exact List.Forall₂.cons (Or.inr ⟨hc, _, rfl⟩)
          (List.forall₂_same.mpr (fun _ _ => Or.inl rfl))
      · simp only [addCreditWalk, hc, hq, if_true, if_false]
        exact List.Forall₂.cons (Or.inr ⟨hc, _, rfl⟩) ih
    · simp only [addCreditWalk, hc, if_false]
      exact List.Forall₂.cons (Or.inl rfl) ih

theorem wellMatched_debit_sellMatch (c : credit) (a : ℚ) (tx : Tx) (h : c.wellMatched)
    (he : eligible tx.Currency tx.Timestamp c) : (c.debit (sellMatch a c tx)).wellMatched := by
  intro m hm
  simp only [credit.debit, List.mem_append, List.mem_singleton] at hm
  rcases hm with hm | rfl
  · exact h m hm
  · exact ⟨he.2.2, rfl, fun _ => rfl, fun hp => by simp [sellMatch] at hp⟩

theorem wellMatched_debit_tradeMatch (c : credit) (a : ℚ) (rec : Tx) (h : c.wellMatched)
    (he : eligible rec.PayCurrency rec.Timestamp c) :
    (c.debit (tradeMatch a c rec)).wellMatched := by
  intro m hm
  simp only [credit.debit, List.mem_append, List.mem_singleton] at hm
  rcases hm with hm | rfl
  · exact h m hm
  · exact ⟨he.2.2, rfl, fun hp => by simp [tradeMatch] at hp, fun _ => rfl⟩

theorem Book.sell_wellMatched (b : Book) (q : ℚ) (tx : Tx) (r : Book × Except String ℚ)
    (hb : b.wellMatched) (h : b.sell q tx = some r) : r.1.wellMatched := by
  rw [Book.sell_eq] at h
  cases h
  intro c' hc'
  obtain ⟨c, hc, hstep⟩ := forall₂_mem_right (sellWalk_eligibleStep b.records q tx) c' hc'
  rcases hstep with rfl | ⟨he, a, rfl⟩
  · exact hb _ hc
  · exact wellMatched_debit_sellMatch c a tx (hb c hc) he

theorem Book.addCredit_wellMatched (b : Book) (q : ℚ) (rec : Tx) (r : Book × Except String ℚ)
    (hb : b.wellMatched) (h : b.addCredit q rec = some r) : r.1.wellMatched := by
  by_cases hpay : rec.PayCurrency = EUR
  · rw [Book.addCredit_eq_eur _ _ _ hpay] at h
    cases h
    intro c hc
    rcases List.mem_append.mp hc with hmem | hmem
    · exact hb c hmem
    · rw [List.mem_singleton] at hmem
      subst hmem
      intro m hm
      simp at hm
  · rw [Book.addCredit_eq_walk _ _ _ hpay] at h
    cases h
    intro c' hc'
    obtain ⟨c, hc, hstep⟩ := forall₂_mem_right (addCreditWalk_eligibleStep b.records rec) c' hc'
    rcases hstep with rfl | ⟨he, a, rfl⟩
    · exact hb _ hc
    · exact wellMatched_debit_tradeMatch c a rec (hb c hc) he

theorem Calculate_wellMatched (S : SortSlice) (txs : List Tx) (taxYear : Int) (b : Book)
    (r : Book × Option String) (hnew : NewBook S txs taxYear = .ok b)
    (hcalc : b.Calculate = some r) : r.1.wellMatched := by
  have hempty : b.wellMatched := by
    intro c hc
    rw [NewBook_records S txs taxYear b hnew] at hc
    simp at hc
  obtain ⟨r', hr', hP, _⟩ := Calculate_invariant Book.wellMatched b
    (fun b0 rec r0 _ h0 h1 => Book.addCredit_wellMatched b0 _ rec r0 h0 h1)
    (fun b0 tx r0 _ h0 h1 => Book.sell_wellMatched b0 _ tx r0 h0 h1) hempty
  rw [hcalc] at hr'
  cases hr'
  exact hP

theorem Time.Sub_nonneg (t u : Time) (h : u ≤ t) : 0 ≤ Time.Sub t u := by
  have h0 : (0 : Int) ≤ t - u := sub_nonneg.mpr h
  unfold Time.Sub minDuration maxDuration
  split_ifs with h1 h2
  · norm_num at h1
    exact absurd h0 (not_le.mpr (lt_trans h1 (by norm_num)))
  · norm_num
  · exact h0

theorem Time.Sub_eq (t u : Time) (h : u ≤ t) (hfit : t - u ≤ maxDuration) :
    Time.Sub t u = t - u := by
  have h0 : (0 : Int) ≤ t - u := sub_nonneg.mpr h
  unfold Time.Sub
  split_ifs with h1 h2
  · unfold minDuration at h1
    norm_num at h1
    exact absurd h0 (not_le.mpr (lt_trans h1 (by norm_num)))
  · exact absurd hfit (not_le.mpr h2)
  · rfl

theorem Time.Sub_sat (t u : Time) (h : u ≤ t) (hbig : maxDuration < t - u) :
    Time.Sub t u = maxDuration := by
  have h0 : (0 : Int) ≤ t - u := sub_nonneg.mpr h
  unfold Time.Sub
  split_ifs with h1
  · unfold minDuration at h1
    norm_num at h1
    exact absurd h0 (not_le.mpr (lt_trans h1 (by norm_num)))
  · rfl

/-- C13. Tax record fields. For every lot of the pool and every match `m` of its list,
ordinary sell or trade, `TaxRecords` returns the record built for this match, with
`SellPrice = m.quantity * m.tx.SpotPrice`, `BuyPrice = m.quantity * lot.buyTx.SpotPrice`,
the currency and the buy timestamp of the lot, `SellTs = m.tx.Timestamp` and
`TaxYear` the calendar year of `m.tx.Timestamp`. After `Calculate` on a book built by
`NewBook`, the record of a match created by an ordinary sell has
`SellPrice - BuyPrice = m.profit`. -/
theorem tax_record_fields (S : SortSlice) (txs : List Tx) (taxYear : Int) (b : Book)
    (r : Book × Option String) (hnew : NewBook S txs taxYear = .ok b)
    (hcalc : b.Calculate = some r) :
    (∀ (b0 : Book), ∀ lot ∈ b0.records, ∀ m ∈ lot.sells, ∃ x ∈ b0.TaxRecords S,
      (∃ fees : ℚ, x = mkTaxRecord lot m fees) ∧
      x.SellPrice = m.quantity * m.tx.SpotPrice ∧
      x.BuyPrice = m.quantity * lot.buyTx.SpotPrice ∧
      x.Currency = lot.buyTx.Currency ∧
      x.BuyTs = lot.buyTx.Timestamp ∧
      x.SellTs = m.tx.Timestamp ∧
      x.TaxYear = Time.Year m.tx.Timestamp) ∧
    (∀ lot ∈ r.1.records, ∀ m ∈ lot.sells, m.paidWithCryptocurrency = false →
      ∃ x ∈ r.1.TaxRecords S, (∃ fees : ℚ, x = mkTaxRecord lot m fees) ∧
        x.SellPrice - x.BuyPrice = m.profit) := by
  constructor
  · intro b0 lot hlot m hm
    obtain ⟨fees, hf⟩ := taxRecordsOfPool_mem_of b0.records [] lot m hlot hm
    exact ⟨_, (TaxRecords_perm S b0).mem_iff.mpr hf, ⟨fees, rfl⟩, rfl, rfl, rfl, rfl, rfl, rfl⟩
  · intro lot hlot m hm hp
    obtain ⟨fees, hf⟩ := taxRecordsOfPool_mem_of r.1.records [] lot m hlot hm
    refine ⟨_, (TaxRecords_perm S r.1).mem_iff.mpr hf, ⟨fees, rfl⟩, ?_⟩
    have hw := Calculate_wellMatched S txs taxYear b r hnew hcalc lot hlot m hm
    rw [hw.2.2.1 hp]
    rfl

/-- C13, witness: the split sell of the example book; the records of its two matches
have sell prices 300 and 300, buy prices 200 and 220, and the differences 100 and 80 are
the profits of the matches. -/
theorem tax_record_fields_witness :
    (exSplitDone.TaxRecords insertionSortSlice).map (fun x => (x.SellPrice, x.BuyPrice)) =
      [(300, 200), (300, 220)] ∧
    ∀ lot ∈ exSplitDone.records, ∀ m ∈ lot.sells, m.paidWithCryptocurrency = false →
      ∃ x ∈ exSplitDone.TaxRecords insertionSortSlice,
        (∃ fees : ℚ, x = mkTaxRecord lot m fees) ∧ x.SellPrice - x.BuyPrice = m.profit := by
  have hcalc : exBook.Calculate = some (exSplitDone, none) := by
    norm_num [Book.Calculate, Book.addCredits, addCreditsLoop, sellsLoop, Book.sell,
      Book.addCredit, addCreditFuel, sellFuel, findCreditIn, exBook, exSplitDone,
      exBuy1, exBuy2, exSell, EUR, BTC, credit.debit, Time.After, sellMatch, day,
      calcProfit, Time.Sub, minDuration, maxDuration]
  refine ⟨?_, (tax_record_fields insertionSortSlice [exSell, exBuy2, exBuy1] 2020 exBook
    (exSplitDone, none) rfl hcalc).2⟩
  norm_num [Book.TaxRecords, insertionSortSlice, taxRecordsOfPool, taxRecordsOfSells,
    claimFees, mkTaxRecord, exSplitDone, exBook, exBuy1, exBuy2, exSell,
    sell.HoldTimeIsLessThenYear, TaxFreeAfter, day, Time.Year, lessTaxRecord, Time.Before, BTC]

/-- C20, counterexample. A buy of 1 BTC in 1970 and a sell of 1 BTC on 2300-01-01:
`Calculate` matches the sell against the lot, and the hold time of the match is
`2 ^ 63 - 1` nanoseconds, the largest `Duration`, not the difference of the two
timestamps, which is 10413792000 seconds. -/
theorem no_later_dated_lot_counterexample :
    NewBook insertionSortSlice [exSell2300, exYearBuy] 2300 = .ok exHoldBook ∧
    exHoldBook.Calculate = some (exHoldDone, none) ∧
    exHoldDone.records.map (fun c => c.sells.map (fun m => m.holdTime)) =
      [[9223372036854775807]] ∧
    exHoldDone.records.map (fun c => c.sells.map (fun m => m.tx.Timestamp - c.buyTx.Timestamp)) =
      [[10413792000000000000]] ∧
    ¬ (∀ lot ∈ exHoldDone.records, ∀ m ∈ lot.sells,
        m.holdTime = m.tx.Timestamp - lot.buyTx.Timestamp) := by
  refine ⟨rfl, ?_, ?_, ?_, ?_⟩
  · norm_num [Book.Calculate, Book.addCredits, addCreditsLoop, sellsLoop, Book.sell,
      Book.addCredit, addCreditFuel, sellFuel, findCreditIn, exHoldBook, exHoldDone,
      exHoldMatch, exYearBuy, exSell2300, EUR, BTC, credit.debit, Time.After, sellMatch,
      calcProfit, Time.Sub, minDuration, maxDuration]
  · norm_num [exHoldDone, exHoldMatch]
  · norm_num [exHoldDone, exHoldMatch, exSell2300, exYearBuy]
  · intro h
    have h1 := h { balance := 0, buyTx := exYearBuy, sells := [exHoldMatch] }
      (by simp [exHoldDone, exHoldBook]) exHoldMatch (by simp)
    norm_num [exHoldMatch, exSell2300, exYearBuy, maxDuration] at h1

/-- C20, amended. No disposal is matched against a later-dated lot. After `Calculate` on
a book built by `NewBook`, every match `m` of every lot, ordinary sell or trade, has
`lot.buyTx.Timestamp ≤ m.tx.Timestamp`, and its hold time is not negative: it is the
difference `m.tx.Timestamp - lot.buyTx.Timestamp` when this difference is at most
`2 ^ 63 - 1` nanoseconds (about 292 years), and `2 ^ 63 - 1` otherwise, which is what
`m.tx.Timestamp.Sub(lot.buyTx.Timestamp)` returns. -/
theorem no_later_dated_lot (S : SortSlice) (txs : List Tx) (taxYear : Int) (b : Book)
    (r : Book × Option String) (hnew : NewBook S txs taxYear = .ok b)
    (hcalc : b.Calculate = some r) :
    ∀ lot ∈ r.1.records, ∀ m ∈ lot.sells,
      lot.buyTx.Timestamp ≤ m.tx.Timestamp ∧
      0 ≤ m.holdTime ∧
      (m.tx.Timestamp - lot.buyTx.Timestamp ≤ 2 ^ 63 - 1 →
        m.holdTime = m.tx.Timestamp - lot.buyTx.Timestamp) ∧
      (2 ^ 63 - 1 < m.tx.Timestamp - lot.buyTx.Timestamp → m.holdTime = 2 ^ 63 - 1) ∧
      m.holdTime = Time.Sub m.tx.Timestamp lot.buyTx.Timestamp := by
  intro lot hlot m hm
  obtain ⟨h1, h2, _, _⟩ := Calculate_wellMatched S txs taxYear b r hnew hcalc lot hlot m hm
  refine ⟨h1, ?_, ?_, ?_, h2⟩
  · rw [h2]
    exact Time.Sub_nonneg _ _ h1
  · intro hfit
    rw [h2]
    exact Time.Sub_eq _ _ h1 hfit
  · intro hbig
    rw [h2]
    exact Time.Sub_sat _ _ h1 hbig

/-- C20, amended, witness: the two matches of the example book are held for 400 and 390
days, and the match of the sell of 2300 against the lot of 1970 is held for
`2 ^ 63 - 1` nanoseconds. -/
theorem no_later_dated_lot_witness :
    exSplitDone.records.map (fun c => c.sells.map (fun m => m.holdTime)) =
      [[400 * day], [390 * day]] ∧
    (∀ lot ∈ exSplitDone.records, ∀ m ∈ lot.sells,
      lot.buyTx.Timestamp ≤ m.tx.Timestamp ∧
      0 ≤ m.holdTime ∧
      (m.tx.Timestamp - lot.buyTx.Timestamp ≤ 2 ^ 63 - 1 →
        m.holdTime = m.tx.Timestamp - lot.buyTx.Timestamp) ∧
      (2 ^ 63 - 1 < m.tx.Timestamp - lot.buyTx.Timestamp → m.holdTime = 2 ^ 63 - 1) ∧
      m.holdTime = Time.Sub m.tx.Timestamp lot.buyTx.Timestamp) ∧
    (2 : Int) ^ 63 - 1 < exSell2300.Timestamp - exYearBuy.Timestamp ∧
    exHoldMatch.holdTime = 2 ^ 63 - 1 :=
  ⟨by simp [exSplitDone],
   no_later_dated_lot insertionSortSlice [exSell, exBuy2, exBuy1] 2020 exBook
    (exSplitDone, none) rfl (by
      norm_num [Book.Calculate, Book.addCredits, addCreditsLoop, sellsLoop, Book.sell,
        Book.addCredit, addCreditFuel, sellFuel, findCreditIn, exBook, exSplitDone,
        exBuy1, exBuy2, exSell, EUR, BTC, credit.debit, Time.After, sellMatch, day,
        calcProfit, Time.Sub, minDuration, maxDuration]),
   by norm_num [exSell2300, exYearBuy],
   ((no_later_dated_lot insertionSortSlice [exSell2300, exYearBuy] 2300 exHoldBook
    (exHoldDone, none) rfl (by
      norm_num [Book.Calculate, Book.addCredits, addCreditsLoop, sellsLoop, Book.sell,
        Book.addCredit, addCreditFuel, sellFuel, findCreditIn, exHoldBook, exHoldDone,
        exHoldMatch, exYearBuy, exSell2300, EUR, BTC, credit.debit, Time.After, sellMatch,
        calcProfit, Time.Sub, minDuration, maxDuration])
    { balance := 0, buyTx := exYearBuy, sells := [exHoldMatch] }
    (by simp [exHoldDone, exHoldBook]) exHoldMatch (by simp)).2.2.2.1
    (by norm_num [exHoldMatch, exSell2300, exYearBuy]))⟩

theorem earningsOf_append (l₁ l₂ : List TaxRecord) :
    earningsOf (l₁ ++ l₂) = earningsOf l₁ + earningsOf l₂ := by
  simp [earningsOf]

theorem lossOf_append (l₁ l₂ : List TaxRecord) : lossOf (l₁ ++ l₂) = lossOf l₁ + lossOf l₂ := by
  simp [lossOf]

theorem earnings_add_loss (rows : List TaxRecord) :
    earningsOf rows + lossOf rows = (rows.map TaxRecord.net).sum := by
  induction rows with
  | nil => simp [earningsOf, lossOf]
  | cons tr rest ih =>
    have h1 : earningsOf (tr :: rest) = earningsOf [tr] + earningsOf rest :=
      earningsOf_append [tr] rest
    have h2 : lossOf (tr :: rest) = lossOf [tr] + lossOf rest := lossOf_append [tr] rest
    have h3 : earningsOf [tr] + lossOf [tr] = tr.net := by
      by_cases h : 0 ≤ tr.net
      · simp [earningsOf, lossOf, List.filter, h, not_lt.mpr h]
      · simp [earningsOf, lossOf, List.filter, h, not_le.mp h]
    rw [h1, h2, List.map_cons, List.sum_cons, ← ih, ← h3]
    ring

theorem earningsOf_singleton (tr : TaxRecord) :
    earningsOf [tr] = if 0 ≤ tr.net then tr.net else 0 := by
  by_cases h : 0 ≤ tr.net
  · simp [earningsOf, List.filter, h]
  · simp [earningsOf, List.filter, h]

theorem lossOf_singleton (tr : TaxRecord) :
    lossOf [tr] = if 0 ≤ tr.net then 0 else tr.net := by
  by_cases h : 0 ≤ tr.net
  · simp [lossOf, List.filter, h, not_lt.mpr h]
  · simp [lossOf, List.filter, h, not_le.mp h]

theorem taxReportLoop_eq (full : Bool) (taxYear : Int) (l : List TaxRecord) (acc : ReportTotals) :
    taxReportLoop full taxYear l acc =
      { rows := acc.rows ++ l.filter (reportIncludes full taxYear),
        count := acc.count + (l.filter (reportIncludes full taxYear)).length,
        earnings := acc.earnings + earningsOf (l.filter (reportIncludes full taxYear)),
        loss := acc.loss + lossOf (l.filter (reportIncludes full taxYear)) } := by
  induction l generalizing acc with
  | nil => simp [taxReportLoop, earningsOf, lossOf]
  | cons tr rest ih =>
    by_cases hinc : reportIncludes full taxYear tr = true
    · have hskip1 : ¬ (full = false ∧ taxYear ≠ tr.TaxYear) := by
        rintro ⟨hf, hy⟩
        simp only [reportIncludes, hf, Bool.false_or, Bool.and_eq_true, decide_eq_true_eq] at hinc
        exact hy hinc.1.symm
      have hskip2 : ¬ (full = false ∧ tr.HoldLongerThenAYear = true) := by
        rintro ⟨hf, hh⟩
        simp [reportIncludes, hf, hh] at hinc
      have hf : (tr :: rest).filter (reportIncludes full taxYear) =
          [tr] ++ rest.filter (reportIncludes full taxYear) := by
        simp [List.filter_cons, hinc]
      rw [hf, earningsOf_append, lossOf_append]
      by_cases hp : 0 ≤ tr.SellPrice - tr.BuyPrice - tr.AdvertisingCosts
      · have hp' : 0 ≤ tr.net := hp
        simp only [taxReportLoop, hskip1, hskip2, hp, if_true, if_false, ih,
          earningsOf_singleton, lossOf_singleton, hp']
        simp only [TaxRecord.net, List.append_assoc, List.length_append, List.length_singleton,
          add_assoc, zero_add, Nat.add_assoc]
      · have hp' : ¬ 0 ≤ tr.net := hp
        simp only [taxReportLoop, hskip1, hskip2, hp, if_false, ih,
          earningsOf_singleton, lossOf_singleton, hp']
        simp only [TaxRecord.net, List.append_assoc, List.length_append, List.length_singleton,
          add_assoc, zero_add, Nat.add_assoc]
    · have hf : (tr :: rest).filter (reportIncludes full taxYear) =
          rest.filter (reportIncludes full taxYear) := by
        simp [List.filter_cons, hinc]
      rw [hf]
      have hskip : (full = false ∧ taxYear ≠ tr.TaxYear) ∨
          (full = false ∧ tr.HoldLongerThenAYear = true) := by
        cases hfull : full with
        | true => simp [reportIncludes, hfull] at hinc
        | false =>
          by_cases hy : taxYear = tr.TaxYear
          · right
            refine ⟨rfl, ?_⟩
            cases hh : tr.HoldLongerThenAYear with
            | true => rfl
            | false => simp [reportIncludes, hfull, hy, hh] at hinc
          · exact Or.inl ⟨rfl, hy⟩
      rcases hskip with ⟨hf0, hy⟩ | ⟨hf0, hh⟩
      · subst hf0
        simp only [taxReportLoop, hy, ne_eq, not_false_eq_true, and_self, if_true]
        exact ih acc
      · subst hf0
        by_cases h1 : taxYear = tr.TaxYear
        · rw [taxReportLoop, if_neg (fun h => h.2 h1), if_pos ⟨rfl, hh⟩]
          exact ih acc
        · simp only [taxReportLoop, h1, ne_eq, not_false_eq_true, and_self, if_true]
          exact ih acc

/-- C14. `TaxReport` aggregation. The full report includes every record of
`TaxRecords`, in their order; the report of the tax year includes exactly the records
with `TaxYear` equal to the configured tax year of the book and
`HoldLongerThenAYear = false`. In both modes `Count` is the number of included records,
`Earning` is the sum of `p = SellPrice - BuyPrice - AdvertisingCosts` over the included
records with `0 ≤ p`, `Loss` is the sum of `p` over the included records with `p < 0`,
and `Earning + Loss` is the sum of `p` over all included records. -/
theorem tax_report_aggregation (S : SortSlice) (b : Book) :
    (b.TaxReport S true).rows = b.TaxRecords S ∧
    (b.TaxReport S false).rows =
      (b.TaxRecords S).filter
        (fun tr => decide (tr.TaxYear = b.taxYear ∧ tr.HoldLongerThenAYear = false)) ∧
    (∀ full : Bool,
      (b.TaxReport S full).count = (b.TaxReport S full).rows.length ∧
      (b.TaxReport S full).earnings =
        (((b.TaxReport S full).rows.filter
          (fun tr => decide (0 ≤ tr.SellPrice - tr.BuyPrice - tr.AdvertisingCosts))).map
          (fun tr => tr.SellPrice - tr.BuyPrice - tr.AdvertisingCosts)).sum ∧
      (b.TaxReport S full).loss =
        (((b.TaxReport S full).rows.filter
          (fun tr => decide (tr.SellPrice - tr.BuyPrice - tr.AdvertisingCosts < 0))).map
          (fun tr => tr.SellPrice - tr.BuyPrice - tr.AdvertisingCosts)).sum ∧
      (b.TaxReport S full).earnings + (b.TaxReport S full).loss =
        ((b.TaxReport S full).rows.map
          (fun tr => tr.SellPrice - tr.BuyPrice - tr.AdvertisingCosts)).sum) := by
  refine ⟨?_, ?_, ?_⟩
  · simp [Book.TaxReport, taxReportLoop_eq, reportIncludes]
  · simp only [Book.TaxReport, taxReportLoop_eq, List.nil_append]
    apply List.filter_congr
    intro tr _
    cases h : tr.HoldLongerThenAYear <;> simp [reportIncludes, h]
  · intro full
    simp only [Book.TaxReport, taxReportLoop_eq, List.nil_append, Nat.zero_add, zero_add]
    exact ⟨trivial, rfl, rfl, earnings_add_loss _⟩

theorem NewBook_split_eq (l : List Tx) (b0 : Book)
    (h : ∀ t ∈ l, t.Typ = Buy ∨ t.Typ = Sell) :
    NewBook.split l b0 =
      .ok { b0 with buys := b0.buys ++ l.filter (fun t => decide (t.Typ = Buy)),
                    sells := b0.sells ++ l.filter (fun t => decide (t.Typ = Sell)) } := by
  induction l generalizing b0 with
  | nil => simp [NewBook.split]
  | cons t rest ih =>
    have hrest : ∀ x ∈ rest, x.Typ = Buy ∨ x.Typ = Sell :=
      fun x hx => h x (List.mem_cons_of_mem _ hx)
    rcases h t (List.mem_cons_self _ _) with ht | ht
    · have hns : ¬ t.Typ = Sell := by rw [ht]; decide
      rw [NewBook.split, if_pos ht, ih _ hrest]
      have hbs : ¬ (Buy = Sell) := by decide
      simp [List.filter_cons, ht, hbs]
    · have hnb : ¬ t.Typ = Buy := by rw [ht]; decide
      rw [NewBook.split, if_neg hnb, if_pos ht, ih _ hrest]
      have hsb : ¬ (Sell = Buy) := by decide
      simp [List.filter_cons, ht, hsb]

theorem NewBook_split_error (l : List Tx) (b0 : Book)
    (h : ¬ ∀ t ∈ l, t.Typ = Buy ∨ t.Typ = Sell) :
    NewBook.split l b0 = .error "unsupported transaction type" := by
  induction l generalizing b0 with
  | nil => simp at h
  | cons t rest ih =>
    by_cases hb : t.Typ = Buy
    · rw [NewBook.split, if_pos hb]
      apply ih
      intro hall
      apply h
      intro x hx
      rcases List.mem_cons.mp hx with rfl | hx
      · exact Or.inl hb
      · exact hall x hx
    · by_cases hs : t.Typ = Sell
      · rw [NewBook.split, if_neg hb, if_pos hs]
        apply ih
        intro hall
        apply h
        intro x hx
        rcases List.mem_cons.mp hx with rfl | hx
        · exact Or.inr hs
        · exact hall x hx
      · rw [NewBook.split, if_neg hb, if_neg hs]

theorem NewBook_eq (S : SortSlice) (txs : List Tx) (taxYear : Int)
    (h : ∀ t ∈ txs, t.Typ = Buy ∨ t.Typ = Sell) :
    NewBook S txs taxYear =
      .ok { records := [],
            buys := S.sort lessByUnixNano (txs.filter (fun t => decide (t.Typ = Buy))),
            sells := S.sort lessByUnixNano (txs.filter (fun t => decide (t.Typ = Sell))),
            taxYear := taxYear } := by
  unfold NewBook
  rw [NewBook_split_eq _ _ h]
  simp

theorem NewBook_error (S : SortSlice) (txs : List Tx) (taxYear : Int)
    (h : ¬ ∀ t ∈ txs, t.Typ = Buy ∨ t.Typ = Sell) :
    NewBook S txs taxYear = .error "unsupported transaction type" := by
  unfold NewBook
  rw [NewBook_split_error _ _ h]

theorem lessByUnixNano_asymm (a b : Tx) (h : lessByUnixNano a b = true) :
    lessByUnixNano b a = false := by
  unfold lessByUnixNano at *
  simp only [decide_eq_true_eq] at h
  simp only [decide_eq_false_iff_not, not_lt]
  exact le_of_lt h

theorem lessByUnixNano_negTrans (a b c : Tx) (hab : lessByUnixNano b a = false)
    (hbc : lessByUnixNano c b = false) : lessByUnixNano c a = false := by
  unfold lessByUnixNano at *
  simp only [decide_eq_false_iff_not, not_lt] at *
  exact le_trans hab hbc

theorem sort_lessByUnixNano_pairwise (S : SortSlice) (l : List Tx) :
    List.Pairwise (fun a b => Time.UnixNano a.Timestamp ≤ Time.UnixNano b.Timestamp)
      (S.sort lessByUnixNano l) := by
  refine (S.sorted lessByUnixNano l lessByUnixNano_asymm lessByUnixNano_negTrans).imp ?_
  intro a b h
  unfold lessByUnixNano at h
  simpa using h

theorem Time.UnixNano_of_inRange (t : Time) (h : Time.inUnixNanoRange t) :
    Time.UnixNano t = t := by
  obtain ⟨h1, h2⟩ := h
  unfold Time.UnixNano
  have h3 : (0 : Int) ≤ t + 2 ^ 63 := by linarith
  have h4 : t + 2 ^ 63 < (2 : Int) ^ 64 := by
    have : (2 : Int) ^ 64 = 2 ^ 63 + 2 ^ 63 := by norm_num
    linarith
  rw [Int.emod_eq_of_lt h3 h4]
  ring

theorem map_buyTx_of_lotStep {rs rs' : List credit} (h : List.Forall₂ LotStep rs rs') :
    rs'.map (fun c => c.buyTx) = rs.map (fun c => c.buyTx) := by
  induction h with
  | nil => rfl
  | cons hab _ ih =>
    simp only [List.map_cons, ih, lotStep_buyTx _ _ hab]

theorem addCreditsLoop_buyTx (l : List Tx) (b b1 : Book)
    (h : addCreditsLoop l b = some (b1, none)) :
    b1.records.map (fun c => c.buyTx) =
      b.records.map (fun c => c.buyTx) ++ l.filter (fun t => decide (t.PayCurrency = EUR)) := by
  induction l generalizing b with
  | nil =>
    simp only [addCreditsLoop, Option.some.injEq, Prod.mk.injEq, and_true] at h
    subst h
    simp
  | cons rec rest ih =>
    by_cases hpay : rec.PayCurrency = EUR
    · have hr := Book.addCredit_eq_eur b rec.Quantity rec hpay
      simp only [addCreditsLoop, hr] at h
      rw [ih _ h]
      simp [List.filter_cons, hpay]
    · have hr := Book.addCredit_eq_walk b rec.Quantity rec hpay
      simp only [addCreditsLoop, hr] at h
      cases hres : (addCreditWalk b.records rec).2 with
      | error err => simp [hres] at h
      | ok v =>
        simp only [hres] at h
        rw [ih _ h]
        simp only [List.filter_cons, hpay, decide_False, Bool.false_eq_true, if_false]
        rw [map_buyTx_of_lotStep (addCreditWalk_lotStep b.records rec)]

theorem sellsLoop_buyTx (l : List Tx) (b : Book) :
    ∃ b1, sellsLoop l b = some (b1, none) ∧
      b1.records.map (fun c => c.buyTx) = b.records.map (fun c => c.buyTx) := by
  apply sellsLoop_invariant
    (fun b0 => b0.records.map (fun c => c.buyTx) = b.records.map (fun c => c.buyTx)) l
  · intro b0 tx r _ h0 h1
    rw [Book.sell_eq] at h1
    cases h1
    simp only
    rw [map_buyTx_of_lotStep (sellWalk_lotStep b0.records tx.Quantity tx)]
    exact h0
  · rfl

theorem Calculate_buyTx (b r : Book) (h : b.Calculate = some (r, none)) :
    r.records.map (fun c => c.buyTx) =
      b.records.map (fun c => c.buyTx) ++
        b.buys.filter (fun t => decide (t.PayCurrency = EUR)) := by
  unfold Book.Calculate Book.addCredits at h
  cases h1 : addCreditsLoop b.buys b with
  | none => simp [h1] at h
  | some p =>
    obtain ⟨b1, e⟩ := p
    cases e with
    | some err => simp [h1] at h
    | none =>
      simp only [h1] at h
      obtain ⟨b2, h2, h3⟩ := sellsLoop_buyTx b1.sells b1
      rw [h2] at h
      simp only [Option.some.injEq, Prod.mk.injEq, and_true] at h
      subst h
      rw [h3, addCreditsLoop_buyTx _ _ _ h1]

/-- The lots after a successful `Calculate` on a book built by `NewBook`: one lot for
every buy of the input that is paid in EUR and no other lot, in the order of the
sorted buys, which is the order of the buy timestamps when every timestamp is in the
range of `UnixNano`. -/
theorem lots_of_fiat_buys (S : SortSlice) (txs : List Tx) (taxYear : Int) (b r : Book)
    (hnew : NewBook S txs taxYear = .ok b) (hcalc : b.Calculate = some (r, none)) :
    r.records.map (fun c => c.buyTx) = b.buys.filter (fun t => decide (t.PayCurrency = EUR)) ∧
    List.Perm (r.records.map (fun c => c.buyTx))
      (txs.filter (fun t => decide (t.Typ = Buy) && decide (t.PayCurrency = EUR))) ∧
    ((∀ t ∈ txs, Time.inUnixNanoRange t.Timestamp) →
      List.Pairwise (fun c d => c.buyTx.Timestamp ≤ d.buyTx.Timestamp) r.records) := by
  have hall : ∀ t ∈ txs, t.Typ = Buy ∨ t.Typ = Sell := by
    by_contra hn
    rw [NewBook_error S txs taxYear hn] at hnew
    cases hnew
  have hb := NewBook_eq S txs taxYear hall
  rw [hnew] at hb
  simp only [Except.ok.injEq] at hb
  have hbuys : b.buys = S.sort lessByUnixNano (txs.filter (fun t => decide (t.Typ = Buy))) := by
    rw [hb]
  have hrec : r.records.map (fun c => c.buyTx) =
      b.buys.filter (fun t => decide (t.PayCurrency = EUR)) := by
    rw [Calculate_buyTx b r hcalc, NewBook_records S txs taxYear b hnew]
    simp
  refine ⟨hrec, ?_, ?_⟩
  · rw [hrec, hbuys]
    have hp := (S.perm lessByUnixNano (txs.filter (fun t => decide (t.Typ = Buy)))).filter
      (fun t => decide (t.PayCurrency = EUR))
    rw [List.filter_filter] at hp
    refine hp.trans ?_
    rw [List.filter_congr]
    intro t _
    exact Bool.and_comm _ _
  · intro hrange
    have hsorted := (sort_lessByUnixNano_pairwise S
      (txs.filter (fun t => decide (t.Typ = Buy)))).filter
      (fun t => decide (t.PayCurrency = EUR))
    rw [← hbuys, ← hrec] at hsorted
    rw [List.pairwise_map] at hsorted
    have hmem : ∀ c ∈ r.records, c.buyTx ∈ txs := by
      intro c hc
      have h1 : c.buyTx ∈ r.records.map (fun c => c.buyTx) := List.mem_map.mpr ⟨c, hc, rfl⟩
      rw [hrec] at h1
      exact (NewBook_mem S txs taxYear b hnew c.buyTx).1 (List.mem_filter.mp h1).1
    refine hsorted.imp_of_mem ?_
    intro c d hc hd h
    rw [Time.UnixNano_of_inRange _ (hrange _ (hmem c hc)),
      Time.UnixNano_of_inRange _ (hrange _ (hmem d hd))] at h
    exact h

/-- C15, the code at a buy dated after the year 2262. `NewBook` orders the buys with
`Timestamp.UnixNano()`, which wraps around for the buy of 2300-01-01 and puts it before
the buy of 1970-01-01. `Calculate` succeeds and the pool holds the lot of the later buy
first: the lots are not in non-decreasing order of their buy timestamps. -/
theorem lots_order_after_2262 :
    Time.Year exLateBuy.Timestamp = 2300 ∧
    Time.UnixNano exLateBuy.Timestamp < Time.UnixNano exBuy1.Timestamp ∧
    NewBook insertionSortSlice [exBuy1, exLateBuy] 2020 = .ok exLateBook ∧
    exLateBook.Calculate = some (exLateDone, none) ∧
    exLateDone.records.map (fun c => c.buyTx.Timestamp) = [10413792000 * 1000000000, 0] ∧
    ¬ List.Pairwise (fun c d => c.buyTx.Timestamp ≤ d.buyTx.Timestamp) exLateDone.records := by
  refine ⟨by decide, by decide, rfl, ?_, ?_, ?_⟩
  · norm_num [Book.Calculate, Book.addCredits, addCreditsLoop, sellsLoop, Book.addCredit,
      addCreditFuel, exLateBook, exLateDone, exLateBuy, exBuy1, EUR]
  · simp [exLateDone, exLateBuy, exBuy1]
  · simp [exLateDone, exLateBuy, exBuy1]

theorem pairwise_lt_of_le_of_nodup (l : List Tx)
    (hle : List.Pairwise
      (fun a b => Time.UnixNano a.Timestamp ≤ Time.UnixNano b.Timestamp) l)
    (hnd : (l.map (fun t => Time.UnixNano t.Timestamp)).Nodup) :
    List.Pairwise (fun a b => Time.UnixNano a.Timestamp < Time.UnixNano b.Timestamp) l := by
  have hne : List.Pairwise
      (fun a b => Time.UnixNano a.Timestamp ≠ Time.UnixNano b.Timestamp) l := by
    unfold List.Nodup at hnd
    rw [List.pairwise_map] at hnd
    exact hnd
  exact (hle.and hne).imp (fun {a b} h => lt_of_le_of_ne h.1 h.2)

/-- Lists that are permutations of each other and have pairwise distinct sort keys are
sorted to the same list, whatever `sort.Slice` does with equal keys. -/
theorem sort_eq_of_perm (S : SortSlice) (l₁ l₂ : List Tx) (hp : List.Perm l₁ l₂)
    (hnd : (l₁.map (fun t => Time.UnixNano t.Timestamp)).Nodup) :
    S.sort lessByUnixNano l₁ = S.sort lessByUnixNano l₂ := by
  have hp1 := S.perm lessByUnixNano l₁
  have hp2 := S.perm lessByUnixNano l₂
  have hnd1 : ((S.sort lessByUnixNano l₁).map (fun t => Time.UnixNano t.Timestamp)).Nodup :=
    ((hp1.map _).nodup_iff).mpr hnd
  have hnd2 : ((S.sort lessByUnixNano l₂).map (fun t => Time.UnixNano t.Timestamp)).Nodup :=
    (((hp2.trans hp.symm).map _).nodup_iff).mpr hnd
  have hs1 := pairwise_lt_of_le_of_nodup _ (sort_lessByUnixNano_pairwise S l₁) hnd1
  have hs2 := pairwise_lt_of_le_of_nodup _ (sort_lessByUnixNano_pairwise S l₂) hnd2
  haveI : IsAntisymm Tx
      (fun a b => Time.UnixNano a.Timestamp < Time.UnixNano b.Timestamp) :=
    ⟨fun a b h1 h2 => absurd h1 (not_lt.mpr (le_of_lt h2))⟩
  exact List.eq_of_perm_of_sorted (hp1.trans (hp.trans hp2.symm)) hs1 hs2

/-- C16, counterexample. Two buys of 1 BTC with the same timestamp, at 100 and at 200,
and a sell of 1 BTC. With the buys in the order a, b the sell is matched against the lot
bought at 100, with the order b, a against the lot bought at 200: the tax records of the
two runs differ in `BuyPrice`. -/
theorem input_order_counterexample :
    List.Perm [exTieA, exTieB, exTieSell] [exTieB, exTieA, exTieSell] ∧
    NewBook insertionSortSlice [exTieA, exTieB, exTieSell] 2020 = .ok exTieBookAB ∧
    NewBook insertionSortSlice [exTieB, exTieA, exTieSell] 2020 = .ok exTieBookBA ∧
    exTieBookAB.Calculate = some (exTieDoneAB, none) ∧
    exTieBookBA.Calculate = some (exTieDoneBA, none) ∧
    (exTieDoneAB.TaxRecords insertionSortSlice).map (fun x => x.BuyPrice) = [100] ∧
    (exTieDoneBA.TaxRecords insertionSortSlice).map (fun x => x.BuyPrice) = [200] ∧
    exTieDoneAB.TaxRecords insertionSortSlice ≠ exTieDoneBA.TaxRecords insertionSortSlice := by
  have hAB : (exTieDoneAB.TaxRecords insertionSortSlice).map (fun x => x.BuyPrice) = [100] := by
    norm_num [Book.TaxRecords, insertionSortSlice, taxRecordsOfPool, taxRecordsOfSells,
      mkTaxRecord, exTieDoneAB, exTieA, exTieB, exTieSell]
  have hBA : (exTieDoneBA.TaxRecords insertionSortSlice).map (fun x => x.BuyPrice) = [200] := by
    norm_num [Book.TaxRecords, insertionSortSlice, taxRecordsOfPool, taxRecordsOfSells,
      mkTaxRecord, exTieDoneBA, exTieA, exTieB, exTieSell]
  refine ⟨List.Perm.swap _ _ _, rfl, rfl, ?_, ?_, hAB, hBA, ?_⟩
  · norm_num [Book.Calculate, Book.addCredits, addCreditsLoop, sellsLoop, Book.sell,
      Book.addCredit, addCreditFuel, sellFuel, findCreditIn, exTieBookAB, exTieDoneAB,
      exTieA, exTieB, exTieSell, EUR, BTC, credit.debit, Time.After, sellMatch, day,
      calcProfit, Time.Sub, minDuration, maxDuration]
  · norm_num [Book.Calculate, Book.addCredits, addCreditsLoop, sellsLoop, Book.sell,
      Book.addCredit, addCreditFuel, sellFuel, findCreditIn, exTieBookBA, exTieDoneBA,
      exTieA, exTieB, exTieSell, EUR, BTC, credit.debit, Time.After, sellMatch, day,
      calcProfit, Time.Sub, minDuration, maxDuration]
  · intro h
    have h1 := congrArg (List.map (fun x => x.BuyPrice)) h
    rw [hAB, hBA] at h1
    norm_num at h1

/-- C16, amended. Let `ys` be a permutation of `xs`, and let no two buys of `xs` and no
two sells of `xs` have the same timestamp (as the nanosecond count that `NewBook`
compares). Then `NewBook` returns the same on both lists, an error or the same book, so
`Calculate` fails on both or succeeds on both and leaves the same pool, and
`TaxRecords` returns the same sequence of records. -/
theorem input_order (S : SortSlice) (xs ys : List Tx) (taxYear : Int)
    (hperm : List.Perm xs ys)
    (hbuys : ((xs.filter (fun t => decide (t.Typ = Buy))).map
      (fun t => Time.UnixNano t.Timestamp)).Nodup)
    (hsells : ((xs.filter (fun t => decide (t.Typ = Sell))).map
      (fun t => Time.UnixNano t.Timestamp)).Nodup) :
    NewBook S xs taxYear = NewBook S ys taxYear ∧
    (∀ bx bz : Book, NewBook S xs taxYear = .ok bx → NewBook S ys taxYear = .ok bz →
      bx.Calculate = bz.Calculate ∧
      ∀ rx rz : Book × Option String, bx.Calculate = some rx → bz.Calculate = some rz →
        rx.2 = rz.2 ∧ rx.1.TaxRecords S = rz.1.TaxRecords S) := by
  have hnew : NewBook S xs taxYear = NewBook S ys taxYear := by
    by_cases hall : ∀ t ∈ xs, t.Typ = Buy ∨ t.Typ = Sell
    · have hall' : ∀ t ∈ ys, t.Typ = Buy ∨ t.Typ = Sell :=
        fun t ht => hall t (hperm.mem_iff.mpr ht)
      rw [NewBook_eq S xs taxYear hall, NewBook_eq S ys taxYear hall',
        sort_eq_of_perm S _ _ (hperm.filter _) hbuys,
        sort_eq_of_perm S _ _ (hperm.filter _) hsells]
    · have hall' : ¬ ∀ t ∈ ys, t.Typ = Buy ∨ t.Typ = Sell :=
        fun h => hall (fun t ht => h t (hperm.mem_iff.mp ht))
      rw [NewBook_error S xs taxYear hall, NewBook_error S ys taxYear hall']
  refine ⟨hnew, ?_⟩
  intro bx bz hx hz
  rw [hnew, hz] at hx
  cases hx
  refine ⟨rfl, ?_⟩
  intro rx rz h1 h2
  rw [h1] at h2
  cases h2
  exact ⟨rfl, rfl⟩

/-- C16, amended, witness: the example transactions in two orders. -/
theorem input_order_witness :
    NewBook insertionSortSlice [exSell, exBuy2, exBuy1] 2020 =
      NewBook insertionSortSlice [exBuy1, exSell, exBuy2] 2020 :=
  (input_order insertionSortSlice [exSell, exBuy2, exBuy1] [exBuy1, exSell, exBuy2] 2020
    (by decide) (by decide) (by decide)).1

theorem sellWalk_signStep (rs : List credit) (q : ℚ) (tx : Tx)
    (hrs : ∀ c ∈ rs, 0 ≤ c.balance) (hq : 0 ≤ q) :
    List.Forall₂ (fun c c' => c' = c ∨
        ∃ a : ℚ, 0 ≤ a ∧ a ≤ c.balance ∧ (0 < q → 0 < a) ∧ c' = c.debit (sellMatch a c tx))
      rs (sellWalk rs q tx) := by
  induction rs generalizing q with
  | nil => simp [sellWalk]
  | cons c rest ih =>
    have hrest : ∀ d ∈ rest, 0 ≤ d.balance := fun d hd => hrs d (List.mem_cons_of_mem _ hd)
    have hc0 : 0 ≤ c.balance := hrs c (List.mem_cons_self _ _)
    by_cases hc : eligible tx.Currency tx.Timestamp c
    · have hpos : 0 < c.balance := lt_of_le_of_ne hc0 (Ne.symm hc.1)
      by_cases hle : q ≤ c.balance
      · simp only [sellWalk, hc, hle, if_true]
        exact List.Forall₂.cons (Or.inr ⟨q, hq, hle, fun h => h, rfl⟩)
          (List.forall₂_same.mpr (fun _ _ => Or.inl rfl))
      · simp only [sellWalk, hc, hle, if_true, if_false]
        have hq' : 0 < q - c.balance := sub_pos.mpr (not_le.mp hle)
        refine List.Forall₂.cons (Or.inr ⟨c.balance, hc0, le_refl _, fun _ => hpos, rfl⟩) ?_
        refine (ih (q - c.balance) hrest (le_of_lt hq')).imp ?_
        intro d d' h
        rcases h with h | ⟨a, h1, h2, h3, h4⟩
        · exact Or.inl h
        · exact Or.inr ⟨a, h1, h2, fun _ => h3 hq', h4⟩
    · simp only [sellWalk, hc, if_false]
      exact List.Forall₂.cons (Or.inl rfl) (ih q hrest hq)

theorem addCreditWalk_signStep (rs : List credit) (rec : Tx)
    (hrs : ∀ c ∈ rs, 0 ≤ c.balance) (hq : 0 ≤ rec.PriceNoFees) :
    List.Forall₂ (fun c c' => c' = c ∨
        ∃ a : ℚ, 0 ≤ a ∧ a ≤ c.balance ∧ (0 < rec.PriceNoFees → 0 < a) ∧
          c' = c.debit (tradeMatch a c rec))
      rs (addCreditWalk rs rec).1 := by
  induction rs with
  | nil => simp [addCreditWalk]
  | cons c rest ih =>
    have hrest : ∀ d ∈ rest, 0 ≤ d.balance := fun d hd => hrs d (List.mem_cons_of_mem _ hd)
    have hc0 : 0 ≤ c.balance := hrs c (List.mem_cons_self _ _)
    by_cases hc : eligible rec.PayCurrency rec.Timestamp c
    · have hpos : 0 < c.balance := lt_of_le_of_ne hc0 (Ne.symm hc.1)
      by_cases hle : rec.PriceNoFees ≤ c.balance
      · simp only [addCreditWalk, hc, hle, if_true]
        exact List.Forall₂.cons (Or.inr ⟨_, hq, hle, fun h => h, rfl⟩)
          (List.forall₂_same.mpr (fun _ _ => Or.inl rfl))
      · simp only [addCreditWalk, hc, hle, if_true, if_false]
        exact List.Forall₂.cons (Or.inr ⟨c.balance, hc0, le_refl _, fun _ => hpos, rfl⟩)
          (ih hrest)
    · simp only [addCreditWalk, hc, if_false]
      exact List.Forall₂.cons (Or.inl rfl) (ih hrest)

theorem bounded_debit (c : credit) (m : sell) (h : c.bounded) (h0 : 0 ≤ m.quantity)
    (h1 : m.quantity ≤ c.balance) :
    (c.debit m).bounded ∧ (c.debit m).balance ≤ c.balance := by
  obtain ⟨hb0, hb1⟩ := h
  simp only [credit.bounded, credit.debit]
  exact ⟨⟨by linarith, by linarith⟩, by linarith⟩

/-- The pool after a call with a non-negative amount: every lot keeps its bounds and no
balance goes up, given the sign facts of the step. -/
theorem bounded_of_signStep {rs rs' : List credit} (P : ℚ → Prop) (mk : ℚ → credit → sell)
    (hmk : ∀ a c, (mk a c).quantity = a)
    (h : List.Forall₂ (fun c c' => c' = c ∨
        ∃ a : ℚ, 0 ≤ a ∧ a ≤ c.balance ∧ P a ∧ c' = c.debit (mk a c)) rs rs')
    (hb : ∀ c ∈ rs, c.bounded) :
    (∀ c' ∈ rs', c'.bounded) ∧
    ∀ (j : Nat) (c : credit), rs[j]? = some c →
      ∃ c' : credit, rs'[j]? = some c' ∧ c'.balance ≤ c.balance := by
  constructor
  · intro c' hc'
    obtain ⟨c, hc, hstep⟩ := forall₂_mem_right h c' hc'
    rcases hstep with rfl | ⟨a, h0, h1, _, rfl⟩
    · exact hb _ hc
    · exact (bounded_debit c _ (hb c hc) (by rw [hmk]; exact h0) (by rw [hmk]; exact h1)).1
  · intro j c hj
    obtain ⟨c', hc', hstep⟩ := forall₂_getElem? h j c hj
    refine ⟨c', hc', ?_⟩
    rcases hstep with rfl | ⟨a, h0, h1, _, rfl⟩
    · exact le_refl _
    · exact (bounded_debit c _ (hb c (List.getElem?_mem hj)) (by rw [hmk]; exact h0)
        (by rw [hmk]; exact h1)).2

theorem Book.sell_bounded (b : Book) (q : ℚ) (tx : Tx) (hb : ∀ c ∈ b.records, c.bounded)
    (hq : 0 ≤ q) :
    ∃ r, b.sell q tx = some r ∧ (∀ c ∈ r.1.records, c.bounded) ∧
      ∀ (j : Nat) (c : credit), b.records[j]? = some c →
        ∃ c' : credit, r.1.records[j]? = some c' ∧ c'.balance ≤ c.balance := by
  refine ⟨_, Book.sell_eq b q tx, ?_⟩
  have hstep := sellWalk_signStep b.records q tx (fun c hc => (hb c hc).1) hq
  exact bounded_of_signStep (fun a => 0 < q → 0 < a) (fun a c => sellMatch a c tx)
    (fun _ _ => rfl) hstep hb

theorem Book.addCredit_bounded (b : Book) (rec : Tx) (hb : ∀ c ∈ b.records, c.bounded)
    (hq : 0 ≤ rec.Quantity) (hp : 0 ≤ rec.SpotPrice) :
    ∃ r, b.addCredit rec.Quantity rec = some r ∧ (∀ c ∈ r.1.records, c.bounded) ∧
      ∀ (j : Nat) (c : credit), b.records[j]? = some c →
        ∃ c' : credit, r.1.records[j]? = some c' ∧ c'.balance ≤ c.balance := by
  by_cases hpay : rec.PayCurrency = EUR
  · refine ⟨_, Book.addCredit_eq_eur b _ rec hpay, ?_, ?_⟩
    · intro c hc
      rcases List.mem_append.mp hc with hmem | hmem
      · exact hb c hmem
      · rw [List.mem_singleton] at hmem
        subst hmem
        exact ⟨hq, le_refl _⟩
    · intro j c hj
      refine ⟨c, ?_, le_refl _⟩
      have hlt : j < b.records.length := (List.getElem?_eq_some_iff.mp hj).1
      simp only
      rw [List.getElem?_append_left hlt]
      exact hj
  · refine ⟨_, Book.addCredit_eq_walk b _ rec hpay, ?_⟩
    have hstep := addCreditWalk_signStep b.records rec (fun c hc => (hb c hc).1)
      (mul_nonneg hq hp)
    exact bounded_of_signStep (fun a => 0 < rec.PriceNoFees → 0 < a)
      (fun a c => tradeMatch a c rec) (fun _ _ => rfl) hstep hb

theorem posMatched_debit (c : credit) (m : sell) (h : c.posMatched) (h0 : 0 ≤ m.quantity)
    (h1 : m.paidWithCryptocurrency = false → 0 < m.tx.Quantity → 0 < m.quantity)
    (h2 : m.paidWithCryptocurrency = true → 0 < m.tx.Quantity * m.tx.SpotPrice →
      0 < m.quantity) : (c.debit m).posMatched := by
  intro m' hm'
  simp only [credit.debit, List.mem_append, List.mem_singleton] at hm'
  rcases hm' with hm' | rfl
  · exact h m' hm'
  · exact ⟨h0, h1, h2⟩

theorem Book.sell_posMatched (b : Book) (tx : Tx) (r : Book × Except String ℚ)
    (hb : ∀ c ∈ b.records, c.bounded ∧ c.posMatched) (hq : 0 ≤ tx.Quantity)
    (h : b.sell tx.Quantity tx = some r) : ∀ c ∈ r.1.records, c.bounded ∧ c.posMatched := by
  obtain ⟨r', hr', hbd, _⟩ := Book.sell_bounded b tx.Quantity tx (fun c hc => (hb c hc).1) hq
  rw [h] at hr'
  cases hr'
  intro c' hc'
  refine ⟨hbd c' hc', ?_⟩
  rw [Book.sell_eq] at h
  cases h
  obtain ⟨c, hc, hstep⟩ := forall₂_mem_right
    (sellWalk_signStep b.records tx.Quantity tx (fun c hc => (hb c hc).1.1) hq) c' hc'
  rcases hstep with rfl | ⟨a, h0, _, h3, rfl⟩
  · exact (hb _ hc).2
  · exact posMatched_debit c _ (hb c hc).2 h0 (fun _ hpos => h3 hpos)
      (fun hp => by simp [sellMatch] at hp)

theorem Book.addCredit_posMatched (b : Book) (rec : Tx) (r : Book × Except String ℚ)
    (hb : ∀ c ∈ b.records, c.bounded ∧ c.posMatched) (hq : 0 ≤ rec.Quantity)
    (hp : 0 ≤ rec.SpotPrice) (h : b.addCredit rec.Quantity rec = some r) :
    ∀ c ∈ r.1.records, c.bounded ∧ c.posMatched := by
  obtain ⟨r', hr', hbd, _⟩ := Book.addCredit_bounded b rec (fun c hc => (hb c hc).1) hq hp
  rw [h] at hr'
  cases hr'
  intro c' hc'
  refine ⟨hbd c' hc', ?_⟩
  by_cases hpay : rec.PayCurrency = EUR
  · rw [Book.addCredit_eq_eur _ _ _ hpay] at h
    cases h
    rcases List.mem_append.mp hc' with hmem | hmem
    · exact (hb c' hmem).2
    · rw [List.mem_singleton] at hmem
      subst hmem
      intro m hm
      simp at hm
  · rw [Book.addCredit_eq_walk _ _ _ hpay] at h
    cases h
    obtain ⟨c, hc, hstep⟩ := forall₂_mem_right
      (addCreditWalk_signStep b.records rec (fun c hc => (hb c hc).1.1) (mul_nonneg hq hp))
      c' hc'
    rcases hstep with rfl | ⟨a, h0, _, h3, rfl⟩
    · exact (hb _ hc).2
    · exact posMatched_debit c _ (hb c hc).2 h0 (fun hp' => by simp [tradeMatch] at hp')
        (fun _ hpos => h3 hpos)

/-- After `Calculate` on a book built by `NewBook` from transactions with non-negative
quantities and spot prices, every lot has its bounds, every match the sign of its
request, and every transaction of the pool is one of the input. -/
theorem Calculate_signs (S : SortSlice) (txs : List Tx) (taxYear : Int) (b : Book)
    (hnew : NewBook S txs taxYear = .ok b)
    (hsign : ∀ t ∈ txs, 0 ≤ t.Quantity ∧ 0 ≤ t.SpotPrice) :
    ∃ r, b.Calculate = some r ∧ (∀ c ∈ r.1.records, c.bounded ∧ c.posMatched) ∧
      txsFrom txs r.1 := by
  have hrec := NewBook_records S txs taxYear b hnew
  have hempty : (∀ c ∈ b.records, c.bounded ∧ c.posMatched) ∧ txsFrom txs b := by
    constructor
    · intro c hc
      rw [hrec] at hc
      simp at hc
    · intro c hc
      rw [hrec] at hc
      simp at hc
  obtain ⟨r, hr, hP, _⟩ := Calculate_invariant
    (fun b0 => (∀ c ∈ b0.records, c.bounded ∧ c.posMatched) ∧ txsFrom txs b0) b
    (fun b0 rec r0 hmem h0 h1 =>
      have hin := (NewBook_mem S txs taxYear b hnew rec).1 hmem
      ⟨Book.addCredit_posMatched b0 rec r0 h0.1 (hsign rec hin).1 (hsign rec hin).2 h1,
        Book.addCredit_txsFrom txs b0 _ rec r0 hin h0.2 h1⟩)
    (fun b0 tx r0 hmem h0 h1 =>
      have hin := (NewBook_mem S txs taxYear b hnew tx).2 hmem
      ⟨Book.sell_posMatched b0 tx r0 h0.1 (hsign tx hin).1 h1,
        Book.sell_txsFrom txs b0 _ tx r0 hin h0.2 h1⟩)
    hempty
  exact ⟨r, hr, hP.1, hP.2⟩

/-- C17. Balance bounds. Let every transaction handed to `NewBook` have a non-negative
quantity and spot price. `Calculate` returns and every lot of the pool it leaves has
`0 ≤ balance ≤ buyTx.Quantity`. The bounds hold at every point in between: a call
`sell(q, tx)` with `0 ≤ q`, and a call `addCredit(rec.Quantity, rec)` for a buy with
non-negative quantity and spot price, on a pool whose lots have the bounds, returns a
pool whose lots have the bounds, and the balance of no lot is greater after the call
than before it. -/
theorem balance_bounds (S : SortSlice) (txs : List Tx) (taxYear : Int) (b : Book)
    (hnew : NewBook S txs taxYear = .ok b)
    (hsign : ∀ t ∈ txs, 0 ≤ t.Quantity ∧ 0 ≤ t.SpotPrice) :
    (∃ r, b.Calculate = some r ∧
      ∀ c ∈ r.1.records, 0 ≤ c.balance ∧ c.balance ≤ c.buyTx.Quantity) ∧
    (∀ (b0 : Book) (q : ℚ) (tx : Tx),
      (∀ c ∈ b0.records, 0 ≤ c.balance ∧ c.balance ≤ c.buyTx.Quantity) → 0 ≤ q →
      ∃ r, b0.sell q tx = some r ∧
        (∀ c ∈ r.1.records, 0 ≤ c.balance ∧ c.balance ≤ c.buyTx.Quantity) ∧
        ∀ (j : Nat) (c : credit), b0.records[j]? = some c →
          ∃ c' : credit, r.1.records[j]? = some c' ∧ c'.balance ≤ c.balance) ∧
    (∀ (b0 : Book) (rec : Tx),
      (∀ c ∈ b0.records, 0 ≤ c.balance ∧ c.balance ≤ c.buyTx.Quantity) →
      0 ≤ rec.Quantity → 0 ≤ rec.SpotPrice →
      ∃ r, b0.addCredit rec.Quantity rec = some r ∧
        (∀ c ∈ r.1.records, 0 ≤ c.balance ∧ c.balance ≤ c.buyTx.Quantity) ∧
        ∀ (j : Nat) (c : credit), b0.records[j]? = some c →
          ∃ c' : credit, r.1.records[j]? = some c' ∧ c'.balance ≤ c.balance) := by
  refine ⟨?_, ?_, ?_⟩
  · obtain ⟨r, hr, hP, _⟩ := Calculate_signs S txs taxYear b hnew hsign
    exact ⟨r, hr, fun c hc => (hP c hc).1⟩
  · intro b0 q tx hb hq
    exact Book.sell_bounded b0 q tx hb hq
  · intro b0 rec hb hq hp
    exact Book.addCredit_bounded b0 rec hb hq hp

/-- C17, witness: the example book; its lots end with the balances 0 and 1. -/
theorem balance_bounds_witness :
    ∃ r, exBook.Calculate = some r ∧
      ∀ c ∈ r.1.records, 0 ≤ c.balance ∧ c.balance ≤ c.buyTx.Quantity :=
  (balance_bounds insertionSortSlice [exSell, exBuy2, exBuy1] 2020 exBook rfl (by
    intro t ht
    simp only [List.mem_cons, List.mem_singleton, List.not_mem_nil, or_false] at ht
    rcases ht with rfl | rfl | rfl <;> norm_num [exSell, exBuy2, exBuy1])).1

/-- C18, counterexample. A buy of 1 BTC and a sell of 0 BTC, all quantities, prices and
fees non-negative: `Calculate` succeeds and the lot has a match of quantity 0. -/
theorem match_quantities_counterexample :
    NewBook insertionSortSlice [exYearBuy, exZeroSell] 2020 = .ok exZeroBook ∧
    (∀ t ∈ [exYearBuy, exZeroSell], 0 ≤ t.Quantity ∧ 0 ≤ t.SpotPrice ∧ 0 ≤ t.Fees) ∧
    exZeroBook.Calculate = some (exZeroDone, none) ∧
    ¬ (∀ lot ∈ exZeroDone.records, ∀ m ∈ lot.sells, 0 < m.quantity) := by
  refine ⟨rfl, ?_, ?_, ?_⟩
  · intro t ht
    simp only [List.mem_cons, List.mem_singleton, List.not_mem_nil, or_false] at ht
    rcases ht with rfl | rfl <;> norm_num [exYearBuy, exZeroSell]
  · norm_num [Book.Calculate, Book.addCredits, addCreditsLoop, sellsLoop, Book.sell,
      Book.addCredit, addCreditFuel, sellFuel, findCreditIn, exZeroBook, exZeroDone,
      exYearBuy, exZeroSell, EUR, BTC, credit.debit, Time.After, sellMatch, day,
      calcProfit, Time.Sub, minDuration, maxDuration]
  · intro h
    have h1 := h { balance := 1, buyTx := exYearBuy,
                   sells := [{ profit := 0, quantity := 0, holdTime := 400 * day,
                               tx := exZeroSell, paidWithCryptocurrency := false }] }
      (by simp [exZeroDone])
      { profit := 0, quantity := 0, holdTime := 400 * day, tx := exZeroSell,
        paidWithCryptocurrency := false } (by simp)
    norm_num at h1

/-- C18, amended. Let every transaction handed to `NewBook` have a non-negative quantity
and spot price. After `Calculate` every match of every lot has a quantity that is not
negative; the quantity is positive when the amount asked for by its disposal is
positive, that is `tx.Quantity` for an ordinary sell and `tx.Quantity * tx.SpotPrice`
for a buy paid in a cryptocurrency. In particular every match has a positive quantity
when every transaction has a positive quantity and a positive spot price. -/
theorem match_quantities (S : SortSlice) (txs : List Tx) (taxYear : Int) (b : Book)
    (r : Book × Option String)
    (hnew : NewBook S txs taxYear = .ok b)
    (hsign : ∀ t ∈ txs, 0 ≤ t.Quantity ∧ 0 ≤ t.SpotPrice)
    (hcalc : b.Calculate = some r) :
    (∀ lot ∈ r.1.records, ∀ m ∈ lot.sells,
      0 ≤ m.quantity ∧
      (m.paidWithCryptocurrency = false → 0 < m.tx.Quantity → 0 < m.quantity) ∧
      (m.paidWithCryptocurrency = true → 0 < m.tx.Quantity * m.tx.SpotPrice →
        0 < m.quantity)) ∧
    ((∀ t ∈ txs, 0 < t.Quantity ∧ 0 < t.SpotPrice) →
      ∀ lot ∈ r.1.records, ∀ m ∈ lot.sells, 0 < m.quantity) := by
  obtain ⟨r', hr', hP, hU⟩ := Calculate_signs S txs taxYear b hnew hsign
  rw [hcalc] at hr'
  cases hr'
  refine ⟨fun lot hlot m hm => (hP lot hlot).2 m hm, ?_⟩
  intro hpos lot hlot m hm
  obtain ⟨_, h1, h2⟩ := (hP lot hlot).2 m hm
  have hin : m.tx ∈ txs := (hU lot hlot).2 m hm
  cases hp : m.paidWithCryptocurrency with
  | false => exact h1 hp (hpos _ hin).1
  | true => exact h2 hp (mul_pos (hpos _ hin).1 (hpos _ hin).2)

/-- C18, amended, witness: the matches of the example book have the quantities 2 and
2. -/
theorem match_quantities_witness :
    exSplitDone.records.map (fun c => c.sells.map (fun m => m.quantity)) = [[2], [2]] ∧
    ∀ lot ∈ exSplitDone.records, ∀ m ∈ lot.sells, 0 < m.quantity :=
  ⟨by simp [exSplitDone],
   (match_quantities insertionSortSlice [exSell, exBuy2, exBuy1] 2020 exBook
    (exSplitDone, none) rfl
    (by
      intro t ht
      simp only [List.mem_cons, List.mem_singleton, List.not_mem_nil, or_false] at ht
      rcases ht with rfl | rfl | rfl <;> norm_num [exSell, exBuy2, exBuy1])
    (by
      norm_num [Book.Calculate, Book.addCredits, addCreditsLoop, sellsLoop, Book.sell,
        Book.addCredit, addCreditFuel, sellFuel, findCreditIn, exBook, exSplitDone,
        exBuy1, exBuy2, exSell, EUR, BTC, credit.debit, Time.After, sellMatch, day,
        calcProfit, Time.Sub, minDuration, maxDuration])).2
    (by
      intro t ht
      simp only [List.mem_cons, List.mem_singleton, List.not_mem_nil, or_false] at ht
      rcases ht with rfl | rfl | rfl <;> norm_num [exSell, exBuy2, exBuy1])⟩

theorem liveCount_le_length (rs : List credit) : liveCount rs ≤ rs.length :=
  List.countP_le_length _

theorem liveCount_set (rs : List credit) (i : Nat) (L L' : credit) (hi : rs[i]? = some L)
    (hL : L.balance ≠ 0) (hL' : L'.balance = 0) :
    liveCount (rs.set i L') + 1 = liveCount rs := by
  induction rs generalizing i with
  | nil => simp at hi
  | cons c rest ih =>
    cases i with
    | zero =>
      simp only [List.getElem?_cons_zero, Option.some.injEq] at hi
      subst hi
      simp [liveCount, List.countP_cons, hL, hL']
    | succ i =>
      simp only [List.getElem?_cons_succ] at hi
      have h := ih i hi
      simp only [liveCount, List.set_cons_succ, List.countP_cons] at h ⊢
      omega

theorem sellFuel_mono (fuel : Nat) (rs : List credit) (q : ℚ) (tx : Tx)
    (r : List credit × Except String ℚ) (h : sellFuel fuel rs q tx = some r) :
    sellFuel (fuel + 1) rs q tx = some r := by
  induction fuel generalizing rs q with
  | zero => simp [sellFuel] at h
  | succ fuel ih =>
    rw [sellFuel] at h ⊢
    cases hf : findCreditIn rs tx.Currency tx.Timestamp with
    | none =>
      rw [hf] at h
      exact h
    | some p =>
      obtain ⟨i, L⟩ := p
      rw [hf] at h
      simp only at h ⊢
      by_cases hq : q ≤ L.balance
      · simp only [hq, if_true] at h ⊢
        exact h
      · simp only [hq, if_false] at h ⊢
        exact ih _ _ h

theorem addCreditFuel_mono (fuel : Nat) (rs : List credit) (q : ℚ) (rec : Tx)
    (r : List credit × Except String ℚ) (h : addCreditFuel fuel rs q rec = some r) :
    addCreditFuel (fuel + 1) rs q rec = some r := by
  induction fuel generalizing rs q with
  | zero => simp [addCreditFuel] at h
  | succ fuel ih =>
    rw [addCreditFuel] at h ⊢
    by_cases hpay : rec.PayCurrency = EUR
    · simp only [hpay, if_true] at h ⊢
      exact h
    · simp only [hpay, if_false] at h ⊢
      cases hf : findCreditIn rs rec.PayCurrency rec.Timestamp with
      | none =>
        rw [hf] at h
        exact h
      | some p =>
        obtain ⟨i, L⟩ := p
        rw [hf] at h
        simp only at h ⊢
        by_cases hq : rec.PriceNoFees ≤ L.balance
        · simp only [hq, if_true] at h ⊢
          exact h
        · simp only [hq, if_false] at h ⊢
          exact ih _ _ h

theorem sellFuel_mono_le (fuel fuel' : Nat) (hle : fuel ≤ fuel') (rs : List credit) (q : ℚ)
    (tx : Tx) (r : List credit × Except String ℚ) (h : sellFuel fuel rs q tx = some r) :
    sellFuel fuel' rs q tx = some r := by
  induction hle with
  | refl => exact h
  | step _ ih => exact sellFuel_mono _ _ _ _ _ ih

theorem addCreditFuel_mono_le (fuel fuel' : Nat) (hle : fuel ≤ fuel') (rs : List credit) (q : ℚ)
    (rec : Tx) (r : List credit × Except String ℚ) (h : addCreditFuel fuel rs q rec = some r) :
    addCreditFuel fuel' rs q rec = some r := by
  induction hle with
  | refl => exact h
  | step _ ih => exact addCreditFuel_mono _ _ _ _ _ ih

theorem sellFuel_returns (fuel : Nat) (rs : List credit) (q : ℚ) (tx : Tx)
    (h : liveCount rs < fuel) : ∃ r, sellFuel fuel rs q tx = some r := by
  induction fuel generalizing rs q with
  | zero => exact absurd h (Nat.not_lt_zero _)
  | succ fuel ih =>
    rw [sellFuel]
    cases hf : findCreditIn rs tx.Currency tx.Timestamp with
    | none => exact ⟨_, rfl⟩
    | some p =>
      obtain ⟨i, L⟩ := p
      simp only
      by_cases hq : q ≤ L.balance
      · simp only [hq, if_true]
        exact ⟨_, rfl⟩
      · simp only [hq, if_false]
        obtain ⟨h1, h2, _⟩ := findCreditIn_some _ _ _ _ _ hf
        have hlive := liveCount_set rs i L (L.debit (sellMatch L.balance L tx)) h1 h2.1
          (debit_balance_self _ _ rfl)
        exact ih _ _ (by omega)

theorem addCreditFuel_returns (fuel : Nat) (rs : List credit) (q : ℚ) (rec : Tx)
    (h : liveCount rs < fuel) : ∃ r, addCreditFuel fuel rs q rec = some r := by
  induction fuel generalizing rs q with
  | zero => exact absurd h (Nat.not_lt_zero _)
  | succ fuel ih =>
    rw [addCreditFuel]
    by_cases hpay : rec.PayCurrency = EUR
    · simp only [hpay, if_true]
      exact ⟨_, rfl⟩
    · simp only [hpay, if_false]
      cases hf : findCreditIn rs rec.PayCurrency rec.Timestamp with
      | none => exact ⟨_, rfl⟩
      | some p =>
        obtain ⟨i, L⟩ := p
        simp only
        by_cases hq : rec.PriceNoFees ≤ L.balance
        · simp only [hq, if_true]
          exact ⟨_, rfl⟩
        · simp only [hq, if_false]
          obtain ⟨h1, h2, _⟩ := findCreditIn_some _ _ _ _ _ hf
          have hlive := liveCount_set rs i L (L.debit (tradeMatch L.balance L rec)) h1 h2.1
            (debit_balance_self _ _ rfl)
          exact ih _ _ (by omega)

theorem sellFuel_eq_of_live (fuel : Nat) (rs : List credit) (q : ℚ) (tx : Tx)
    (h : liveCount rs < fuel) : sellFuel fuel rs q tx = some (sellWalk rs q tx, .ok 0) := by
  obtain ⟨r, hr⟩ := sellFuel_returns fuel rs q tx h
  have h1 := sellFuel_mono_le fuel (fuel + (rs.length + 1)) (Nat.le_add_right _ _) rs q tx r hr
  rw [sellFuel_eq_sellWalk rs _ q tx (by omega)] at h1
  rw [hr, ← h1]

theorem addCreditFuel_eq_of_live (fuel : Nat) (rs : List credit) (q : ℚ) (rec : Tx)
    (hpay : rec.PayCurrency ≠ EUR) (h : liveCount rs < fuel) :
    addCreditFuel fuel rs q rec = some (addCreditWalk rs rec) := by
  obtain ⟨r, hr⟩ := addCreditFuel_returns fuel rs q rec h
  have h1 := addCreditFuel_mono_le fuel (fuel + (rs.length + 1)) (Nat.le_add_right _ _) rs q rec
    r hr
  rw [addCreditFuel_eq_addCreditWalk rs _ q rec hpay (by omega)] at h1
  rw [hr, ← h1]

theorem addCreditWalk_result (rs : List credit) (rec : Tx) :
    (addCreditWalk rs rec).2 = .ok 0 ∨ ∃ err, (addCreditWalk rs rec).2 = .error err := by
  induction rs with
  | nil => exact Or.inr ⟨_, rfl⟩
  | cons c rest ih =>
    rw [addCreditWalk]
    split_ifs
    · exact Or.inl rfl
    · exact ih
    · exact ih

/-- C19. Termination. The fuel of `sellFuel` and `addCreditFuel` bounds the depth of the
recursion of `sell` and `addCredit`. (1) With more fuel than the pool has lots of
non-zero balance, `sell` returns, the result of its single pass over the pool and a nil
error; (2) so does `addCredit`, with a zero remainder or an error; (3) the number of
lots of non-zero balance is at most the number of lots, so a depth of number of lots
plus one is enough. (4) `sell` calls itself only in the case where the lot found holds
less than the quantity, and then on a pool in which this lot has balance 0 and which has
one lot of non-zero balance less; (5) it ends without a further call in the not-found
fallback and (6) in the match with a lot that covers the quantity. (7) `addCredit`
calls itself only when the lot found holds less than the price, on a pool in which this
lot has balance 0 and which has one lot of non-zero balance less. -/
theorem termination (rs : List credit) (q : ℚ) (tx : Tx) :
    (∀ fuel : Nat, liveCount rs < fuel →
      sellFuel fuel rs q tx = some (sellWalk rs q tx, .ok 0)) ∧
    (∀ fuel : Nat, liveCount rs < fuel →
      ∃ r, addCreditFuel fuel rs q tx = some r ∧ (r.2 = .ok 0 ∨ ∃ err, r.2 = .error err)) ∧
    (liveCount rs ≤ rs.length ∧
      (∃ r, sellFuel (rs.length + 1) rs q tx = some r) ∧
      (∃ r, addCreditFuel (rs.length + 1) rs q tx = some r)) ∧
    (∀ (fuel i : Nat) (L : credit),
      findCreditIn rs tx.Currency tx.Timestamp = some (i, L) → L.balance < q →
      ∃ L' : credit, L'.balance = 0 ∧ rs[i]? = some L ∧ L.balance ≠ 0 ∧
        liveCount (rs.set i L') + 1 = liveCount rs ∧
        sellFuel (fuel + 1) rs q tx = sellFuel fuel (rs.set i L') (q - L.balance) tx) ∧
    (∀ fuel : Nat, findCreditIn rs tx.Currency tx.Timestamp = none →
      sellFuel (fuel + 1) rs q tx = some (rs, .ok 0)) ∧
    (∀ (fuel i : Nat) (L : credit),
      findCreditIn rs tx.Currency tx.Timestamp = some (i, L) → q ≤ L.balance →
      sellFuel (fuel + 1) rs q tx = some (rs.set i (L.debit (sellMatch q L tx)), .ok 0)) ∧
    (tx.PayCurrency ≠ EUR → ∀ (fuel i : Nat) (L : credit),
      findCreditIn rs tx.PayCurrency tx.Timestamp = some (i, L) →
      L.balance < tx.PriceNoFees →
      ∃ L' : credit, L'.balance = 0 ∧ rs[i]? = some L ∧ L.balance ≠ 0 ∧
        liveCount (rs.set i L') + 1 = liveCount rs ∧
        addCreditFuel (fuel + 1) rs q tx =
          addCreditFuel fuel (rs.set i L') ((tx.PriceNoFees - L.balance) / tx.SpotPrice) tx) := by
  refine ⟨?_, ?_, ⟨liveCount_le_length rs, ?_, ?_⟩, ?_, ?_, ?_, ?_⟩
  · intro fuel h
    exact sellFuel_eq_of_live fuel rs q tx h
  · intro fuel h
    by_cases hpay : tx.PayCurrency = EUR
    · obtain ⟨n, rfl⟩ : ∃ n, fuel = n + 1 := ⟨fuel - 1, by omega⟩
      exact ⟨_, addCreditFuel_eur rs n q tx hpay, Or.inl rfl⟩
    · exact ⟨_, addCreditFuel_eq_of_live fuel rs q tx hpay h, addCreditWalk_result rs tx⟩
  · exact sellFuel_returns _ rs q tx (Nat.lt_succ_of_le (liveCount_le_length rs))
  · exact addCreditFuel_returns _ rs q tx (Nat.lt_succ_of_le (liveCount_le_length rs))
  · intro fuel i L hf hq
    obtain ⟨h1, h2, _⟩ := findCreditIn_some _ _ _ _ _ hf
    exact ⟨L.debit (sellMatch L.balance L tx), debit_balance_self _ _ rfl, h1, h2.1,
      liveCount_set rs i L _ h1 h2.1 (debit_balance_self _ _ rfl),
      sellFuel_partial fuel rs q tx i L hf hq⟩
  · intro fuel hf
    exact sellFuel_none fuel rs q tx hf
  · intro fuel i L hf hq
    exact sellFuel_full fuel rs q tx i L hf hq
  · intro hpay fuel i L hf hq
    obtain ⟨h1, h2, _⟩ := findCreditIn_some _ _ _ _ _ hf
    refine ⟨L.debit (tradeMatch L.balance L tx), debit_balance_self _ _ rfl, h1, h2.1,
      liveCount_set rs i L _ h1 h2.1 (debit_balance_self _ _ rfl), ?_⟩
    rw [addCreditFuel]
    simp [hpay, hf, not_le.mpr hq]

/-- C19, witness: the sell of 10 units on the lots of 2 and 3 units needs a depth of
three, the two lots and the not-found fallback. -/
theorem termination_witness :
    liveCount [exLot1, exLot2] = 2 ∧
    sellFuel 3 [exLot1, exLot2] 10 exSell10 =
      some (sellWalk [exLot1, exLot2] 10 exSell10, .ok 0) ∧
    sellFuel 2 [exLot1, exLot2] 10 exSell10 = none := by
  have hlive : liveCount [exLot1, exLot2] = 2 := by
    norm_num [liveCount, List.countP_cons, exLot1, exLot2]
  refine ⟨hlive, (termination [exLot1, exLot2] 10 exSell10).1 3 (by rw [hlive]; decide), ?_⟩
  norm_num [sellFuel, findCreditIn, exLot1, exLot2, exSell10, exBuy1, exBuy2, BTC,
    credit.debit, Time.After, sellMatch, day]

theorem fundsFor_eq_eligibleBalance (currency : Currency) (frm : Time) (rs : List credit) :
    fundsFor currency frm rs = eligibleBalance currency frm rs := by
  induction rs with
  | nil => rfl
  | cons c rest ih =>
    have ih' : ((rest.filter
        (fun c => decide (c.buyTx.Currency = currency ∧ c.buyTx.Timestamp ≤ frm))).map
        (fun c => c.balance)).sum = eligibleBalance currency frm rest := ih
    by_cases hc : c.buyTx.Currency = currency ∧ c.buyTx.Timestamp ≤ frm
    · by_cases hz : c.balance = 0
      · have hne : ¬ eligible currency frm c := fun h => h.1 hz
        rw [eligibleBalance_cons_not_eligible _ _ _ _ hne]
        simp only [fundsFor, List.filter_cons, hc, and_self, decide_True, if_true, List.map_cons,
          List.sum_cons, hz, zero_add]
        exact ih'
      · have he : eligible currency frm c := ⟨hz, hc.1, hc.2⟩
        rw [eligibleBalance_cons_eligible _ _ _ _ he]
        simp only [fundsFor, List.filter_cons, hc, and_self, decide_True, if_true, List.map_cons,
          List.sum_cons]
        rw [ih']
    · have hne : ¬ eligible currency frm c := fun h => hc ⟨h.2.1, h.2.2⟩
      rw [eligibleBalance_cons_not_eligible _ _ _ _ hne]
      simp only [fundsFor, List.filter_cons, hc, decide_False, Bool.false_eq_true, if_false]
      exact ih'

theorem eligibleBalance_nonneg (currency : Currency) (frm : Time) (rs : List credit)
    (h : ∀ c ∈ rs, 0 ≤ c.balance) : 0 ≤ eligibleBalance currency frm rs := by
  induction rs with
  | nil => simp [eligibleBalance]
  | cons c rest ih =>
    have hrest := ih (fun d hd => h d (List.mem_cons_of_mem _ hd))
    by_cases hc : eligible currency frm c
    · rw [eligibleBalance_cons_eligible _ _ _ _ hc]
      exact add_nonneg (h c (List.mem_cons_self _ _)) hrest
    · rw [eligibleBalance_cons_not_eligible _ _ _ _ hc]
      exact hrest

/-- The total quantity matched by one pass of `sell` over a pool of non-negative
balances: the smaller of the quantity asked for and the eligible balance. -/
theorem sellWalk_created_min (rs : List credit) (q : ℚ) (tx : Tx)
    (hrs : ∀ c ∈ rs, 0 ≤ c.balance) (hq : 0 ≤ q) :
    qsum (createdMatches rs (sellWalk rs q tx)) =
      min q (eligibleBalance tx.Currency tx.Timestamp rs) := by
  induction rs generalizing q with
  | nil =>
    simp only [sellWalk, createdMatches, qsum, eligibleBalance, List.filter_nil, List.map_nil,
      List.sum_nil]
    exact (min_eq_right hq).symm
  | cons c rest ih =>
    have hrest : ∀ d ∈ rest, 0 ≤ d.balance := fun d hd => hrs d (List.mem_cons_of_mem _ hd)
    have hE := eligibleBalance_nonneg tx.Currency tx.Timestamp rest hrest
    by_cases hc : eligible tx.Currency tx.Timestamp c
    · rw [eligibleBalance_cons_eligible _ _ _ _ hc]
      by_cases hle : q ≤ c.balance
      · simp only [sellWalk, hc, hle, if_true]
        rw [createdMatches_cons_debit, createdMatches_self, qsum_cons]
        have h1 : (sellMatch q c tx).quantity = q := rfl
        have h2 : qsum [] = 0 := rfl
        rw [h1, h2, add_zero]
        exact (min_eq_left (by linarith)).symm
      · simp only [sellWalk, hc, hle, if_true, if_false]
        rw [createdMatches_cons_debit, qsum_cons]
        have h1 : (sellMatch c.balance c tx).quantity = c.balance := rfl
        have hq' : 0 ≤ q - c.balance := le_of_lt (sub_pos.mpr (not_le.mp hle))
        rw [h1, ih (q - c.balance) hrest hq']
        rcases le_total (q - c.balance) (eligibleBalance tx.Currency tx.Timestamp rest) with h | h
        · rw [min_eq_left h, min_eq_left (by linarith)]
          ring
        · rw [min_eq_right h, min_eq_right (by linarith)]
    · rw [eligibleBalance_cons_not_eligible _ _ _ _ hc]
      simp only [sellWalk, hc, if_false]
      rw [createdMatches_cons_same]
      exact ih q hrest hq

theorem totalBalance_of_lotStep {rs rs' : List credit} (h : List.Forall₂ LotStep rs rs') :
    totalBalance rs - totalBalance rs' = qsum (createdMatches rs rs') := by
  induction h with
  | nil => simp [totalBalance, createdMatches, qsum]
  | cons hab _ ih =>
    rename_i c c' l l'
    have hcons : ∀ (x : credit) (xs : List credit),
        totalBalance (x :: xs) = x.balance + totalBalance xs := by
      intro x xs
      simp [totalBalance]
    rw [hcons, hcons]
    rcases hab with rfl | ⟨m, rfl⟩
    · rw [createdMatches_cons_same, ← ih]
      ring
    · rw [createdMatches_cons_debit, qsum_cons, ← ih]
      simp only [credit.debit]
      ring

theorem sellWalk_unchanged (rs : List credit) (q : ℚ) (tx : Tx) (j : Nat) (c : credit)
    (hj : rs[j]? = some c)
    (hc : ¬ (c.buyTx.Currency = tx.Currency ∧ c.buyTx.Timestamp ≤ tx.Timestamp)) :
    (sellWalk rs q tx)[j]? = some c := by
  obtain ⟨c', hc', hstep⟩ := forall₂_getElem? (sellWalk_eligibleStep rs q tx) j c hj
  rcases hstep with rfl | ⟨he, _⟩
  · exact hc'
  · exact absurd ⟨he.2.1, he.2.2⟩ hc

theorem Int.log_two_abs_eq (x : ℚ) (e : ℤ) (h1 : (2 : ℚ) ^ e ≤ |x|) (h2 : |x| < 2 ^ (e + 1)) :
    Int.log 2 |x| = e := by
  have hpos : (0 : ℚ) < |x| := lt_of_lt_of_le (by positivity) h1
  have a : e ≤ Int.log 2 |x| :=
    (Int.zpow_le_iff_le_log (by norm_num) hpos).1 (by exact_mod_cast h1)
  have b : Int.log 2 |x| < e + 1 :=
    (Int.lt_zpow_iff_log_lt (by norm_num) hpos).1 (by exact_mod_cast h2)
  omega

theorem roundHalfEven_eq (m : ℚ) (k : ℤ) (h : |m - k| < 1 / 2) : roundHalfEven m = k := by
  rw [abs_lt] at h
  obtain ⟨h1, h2⟩ := h
  by_cases hk : (k : ℚ) ≤ m
  · have hf : ⌊m⌋ = k := by
      rw [Int.floor_eq_iff]
      constructor
      · exact hk
      · linarith
    simp only [roundHalfEven, hf]
    rw [if_pos (by linarith)]
  · have hf : ⌊m⌋ = k - 1 := by
      rw [Int.floor_eq_iff]
      push_cast
      constructor
      · linarith
      · push_neg at hk
        linarith
    simp only [roundHalfEven, hf]
    push_cast
    rw [if_neg (by linarith), if_pos (by linarith)]
    ring

theorem roundHalfEven_tie_up (m : ℚ) (k : ℤ) (h : m = k - 1 / 2) (hk : k % 2 = 0) :
    roundHalfEven m = k := by
  have hf : ⌊m⌋ = k - 1 := by
    rw [Int.floor_eq_iff]
    push_cast
    constructor <;> linarith
  have hodd : ¬ ((k - 1) % 2 = 0) := by omega
  simp only [roundHalfEven, hf]
  push_cast
  rw [if_neg (by linarith), if_neg (by linarith), if_neg hodd]
  ring

theorem roundHalfEven_tie_down (m : ℚ) (k : ℤ) (h : m = k + 1 / 2) (hk : k % 2 = 0) :
    roundHalfEven m = k := by
  have hf : ⌊m⌋ = k := by
    rw [Int.floor_eq_iff]
    constructor <;> linarith
  simp only [roundHalfEven, hf]
  rw [if_neg (by linarith), if_neg (by linarith), if_pos hk]

/-- Rounding to `prec` bits, evaluated: with `2 ^ e ≤ |x| < 2 ^ (e + 1)` and `k` the
rounded value of `x / 2 ^ (e - (prec - 1))`, the result is `k * 2 ^ (e - (prec - 1))`. -/
theorem roundToPrec_eq (prec : Nat) (x : ℚ) (e k : ℤ) (h1 : (2 : ℚ) ^ e ≤ |x|)
    (h2 : |x| < 2 ^ (e + 1)) (h : roundHalfEven (x / 2 ^ (e - ((prec : Int) - 1))) = k) :
    roundToPrec prec x = k * 2 ^ (e - ((prec : Int) - 1)) := by
  have hpos : (0 : ℚ) < |x| := lt_of_lt_of_le (by positivity) h1
  have hx : x ≠ 0 := abs_pos.1 hpos
  rw [roundToPrec, if_neg hx, Int.log_two_abs_eq x e h1 h2, h]

theorem bigFloat_rnd_tenth : Rounding.bigFloat.rnd (1 / 10) = exTenth := by
  show roundToPrec FloatPrec (1 / 10) = exTenth
  rw [roundToPrec_eq FloatPrec (1 / 10) (-4) 1014120480182583521197362564301
    (by norm_num [abs_of_pos]) (by norm_num [abs_of_pos])
    (roundHalfEven_eq _ _ (by norm_num [abs_lt, FloatPrec]))]
  norm_num [exTenth, FloatPrec]

theorem bigFloat_rnd_threeTenths : Rounding.bigFloat.rnd (3 / 10) = exThreeTenths := by
  show roundToPrec FloatPrec (3 / 10) = exThreeTenths
  rw [roundToPrec_eq FloatPrec (3 / 10) (-2) 760590360136937640898021923226
    (by norm_num [abs_of_pos]) (by norm_num [abs_of_pos])
    (roundHalfEven_eq _ _ (by norm_num [abs_lt, FloatPrec]))]
  norm_num [exThreeTenths, FloatPrec]

/-- The two examples are numbers of 100 bits: rounding keeps them. -/
theorem bigFloat_rnd_exTenth : Rounding.bigFloat.rnd exTenth = exTenth := by
  show roundToPrec FloatPrec exTenth = exTenth
  rw [roundToPrec_eq FloatPrec exTenth (-4) 1014120480182583521197362564301
    (by norm_num [abs_of_pos, exTenth]) (by norm_num [abs_of_pos, exTenth])
    (roundHalfEven_eq _ _ (by norm_num [abs_lt, FloatPrec, exTenth]))]
  norm_num [exTenth, FloatPrec]

theorem bigFloat_rnd_exThreeTenths : Rounding.bigFloat.rnd exThreeTenths = exThreeTenths := by
  show roundToPrec FloatPrec exThreeTenths = exThreeTenths
  rw [roundToPrec_eq FloatPrec exThreeTenths (-2) 760590360136937640898021923226
    (by norm_num [abs_of_pos, exThreeTenths]) (by norm_num [abs_of_pos, exThreeTenths])
    (roundHalfEven_eq _ _ (by norm_num [abs_lt, FloatPrec, exThreeTenths]))]
  norm_num [exThreeTenths, FloatPrec]

/-- The difference of the two examples does not fit 100 bits: it lies half way between
two numbers of 100 bits and is rounded up, by `2 ^ (-103)`, to the even one. -/
theorem bigFloat_rnd_sub_example :
    Rounding.bigFloat.rnd (exThreeTenths - exTenth) = exThreeTenths - exTenth + 1 / 2 ^ 103 := by
  show roundToPrec FloatPrec (exThreeTenths - exTenth) = exThreeTenths - exTenth + 1 / 2 ^ 103
  rw [roundToPrec_eq FloatPrec (exThreeTenths - exTenth) (-3) 1014120480182583521197362564302
    (by norm_num [abs_of_pos, exThreeTenths, exTenth])
    (by norm_num [abs_of_pos, exThreeTenths, exTenth])
    (roundHalfEven_tie_up _ _ (by norm_num [FloatPrec, exThreeTenths, exTenth]) (by decide))]
  norm_num [exThreeTenths, exTenth, FloatPrec]

/-- One minus the rounded difference of the two examples lies half way again and is
rounded down, by `2 ^ (-101)`. -/
theorem bigFloat_rnd_one_sub_example :
    Rounding.bigFloat.rnd (1 - (exThreeTenths - exTenth + 1 / 2 ^ 103)) =
      1 - (exThreeTenths - exTenth + 1 / 2 ^ 103) - 1 / 2 ^ 101 := by
  show roundToPrec FloatPrec (1 - (exThreeTenths - exTenth + 1 / 2 ^ 103)) = _
  rw [roundToPrec_eq FloatPrec (1 - (exThreeTenths - exTenth + 1 / 2 ^ 103)) (-1)
    1014120480182583521197362564300
    (by norm_num [abs_of_pos, exThreeTenths, exTenth])
    (by norm_num [abs_of_pos, exThreeTenths, exTenth])
    (roundHalfEven_tie_down _ _ (by norm_num [FloatPrec, exThreeTenths, exTenth]) (by decide))]
  norm_num [exThreeTenths, exTenth, FloatPrec]

/-- Rounding to 100 bits keeps every natural number below `2 ^ 100`. -/
theorem bigFloat_rnd_natCast (n : Nat) (h : n < 2 ^ 100) : Rounding.bigFloat.rnd n = n := by
  show roundToPrec FloatPrec (n : ℚ) = n
  rcases Nat.eq_zero_or_pos n with rfl | hpos
  · simp [roundToPrec]
  have hn0 : n ≠ 0 := Nat.pos_iff_ne_zero.mp hpos
  have hlog : Nat.log 2 n < 100 := by
    have := Nat.pow_log_le_self 2 hn0
    by_contra hc
    push_neg at hc
    have h2 : 2 ^ 100 ≤ 2 ^ Nat.log 2 n := Nat.pow_le_pow_right (by norm_num) hc
    omega
  have habs : |(n : ℚ)| = n := abs_of_nonneg (Nat.cast_nonneg n)
  have hsplit : (2 : ℚ) ^ ((Nat.log 2 n : ℤ) - ((FloatPrec : ℤ) - 1)) =
      2 ^ (Nat.log 2 n) / 2 ^ 99 := by
    rw [zpow_sub₀ (by norm_num)]
    simp [FloatPrec]
    norm_cast
  have hk : ((n * 2 ^ (99 - Nat.log 2 n) : ℕ) : ℚ) * (2 ^ (Nat.log 2 n) / 2 ^ 99) = n := by
    have h99 : (2 : ℚ) ^ 99 = 2 ^ (99 - Nat.log 2 n) * 2 ^ (Nat.log 2 n) := by
      rw [← pow_add]
      congr 1
      omega
    rw [h99]
    push_cast
    have hp1 : (2 : ℚ) ^ (99 - Nat.log 2 n) ≠ 0 := by positivity
    have hp2 : (2 : ℚ) ^ (Nat.log 2 n) ≠ 0 := by positivity
    field_simp
    ring
  rw [roundToPrec_eq FloatPrec (n : ℚ) (Nat.log 2 n) ((n * 2 ^ (99 - Nat.log 2 n) : ℕ) : ℤ)]
  · rw [hsplit]
    exact_mod_cast hk
  · rw [habs]
    have := Nat.pow_log_le_self 2 hn0
    exact_mod_cast this
  · rw [habs]
    have := Nat.lt_pow_succ_log_self (by norm_num : 1 < 2) n
    exact_mod_cast this
  · rw [hsplit]
    have hpos2 : (0 : ℚ) < 2 ^ (Nat.log 2 n) / 2 ^ 99 := by positivity
    have : (n : ℚ) / (2 ^ (Nat.log 2 n) / 2 ^ 99) = ((n * 2 ^ (99 - Nat.log 2 n) : ℕ) : ℚ) := by
      rw [div_eq_iff (ne_of_gt hpos2)]
      exact hk.symm
    rw [this]
    apply roundHalfEven_eq
    simp

theorem debitR_balance_self (R : Rounding) (c : credit) (m : sell) (h : m.quantity = c.balance) :
    (c.debitR R m).balance = 0 := by
  simp [credit.debitR, h, R.rnd_zero]

theorem sellFuelR_append_not_eligible (R : Rounding) (fuel : Nat) (pre rs : List credit) (q : ℚ)
    (tx : Tx) (h : ∀ c ∈ pre, ¬ eligible tx.Currency tx.Timestamp c) :
    sellFuelR R fuel (pre ++ rs) q tx =
      (sellFuelR R fuel rs q tx).map (fun r => (pre ++ r.1, r.2)) := by
  induction fuel generalizing rs q with
  | zero => simp [sellFuelR]
  | succ fuel ih =>
    rw [sellFuelR, sellFuelR, findCreditIn_append_not_eligible pre rs _ _ h]
    cases hf : findCreditIn rs tx.Currency tx.Timestamp with
    | none => simp
    | some p =>
      obtain ⟨i, c⟩ := p
      simp only [Option.map_some']
      by_cases hq : q ≤ c.balance
      · simp [hq, set_append_right]
      · simp only [hq, if_false]
        rw [set_append_right, ih]

/-- The recursion of `sell` with rounded arithmetic is one pass over the pool, and fuel
greater than the number of lots is enough for it. -/
theorem sellFuelR_eq_sellWalkR (R : Rounding) (rs : List credit) (fuel : Nat) (q : ℚ) (tx : Tx)
    (h : rs.length < fuel) : sellFuelR R fuel rs q tx = some (sellWalkR R rs q tx, .ok 0) := by
  induction rs generalizing fuel q with
  | nil =>
    cases fuel with
    | zero => exact absurd h (Nat.lt_irrefl 0)
    | succ fuel => simp [sellFuelR, findCreditIn, sellWalkR]
  | cons c rest ih =>
    cases fuel with
    | zero => exact absurd h (Nat.not_lt_zero _)
    | succ fuel =>
      have hlen : rest.length < fuel := Nat.lt_of_succ_lt_succ h
      by_cases hc : eligible tx.Currency tx.Timestamp c
      · rw [sellFuelR, findCreditIn_cons_eligible _ _ _ _ hc]
        by_cases hq : q ≤ c.balance
        · simp [hq, sellWalkR, hc]
        · have hz : ∀ d ∈ [c.debitR R (sellMatchR R c.balance c tx)],
              ¬ eligible tx.Currency tx.Timestamp d := by
            intro d hd
            rw [List.mem_singleton] at hd
            subst hd
            exact not_eligible_of_balance_zero _ _ _ (debitR_balance_self R _ _ rfl)
          have hframe := sellFuelR_append_not_eligible R fuel
            [c.debitR R (sellMatchR R c.balance c tx)] rest (R.rnd (q - c.balance)) tx hz
          simp only [List.singleton_append] at hframe
          simp only [hq, if_false, List.set_cons_zero]
          rw [hframe, ih fuel (R.rnd (q - c.balance)) hlen]
          simp [sellWalkR, hc, hq]
      · have hz : ∀ d ∈ [c], ¬ eligible tx.Currency tx.Timestamp d := by
          intro d hd
          rw [List.mem_singleton] at hd
          subst hd
          exact hc
        have hframe := sellFuelR_append_not_eligible R (fuel + 1) [c] rest q tx hz
        simp only [List.singleton_append] at hframe
        rw [hframe, ih (fuel + 1) q (Nat.lt_succ_of_lt hlen)]
        simp [sellWalkR, hc]

theorem Book.sellR_eq (R : Rounding) (b : Book) (q : ℚ) (tx : Tx) :
    b.sellR R q tx = some ({ b with records := sellWalkR R b.records q tx }, .ok 0) := by
  simp [Book.sellR,
    sellFuelR_eq_sellWalkR R b.records (b.records.length + 1) q tx (Nat.lt_succ_self _)]

theorem sellFuelR_full (R : Rounding) (fuel : Nat) (rs : List credit) (q : ℚ) (tx : Tx) (i : Nat)
    (L : credit) (hfind : findCreditIn rs tx.Currency tx.Timestamp = some (i, L))
    (hq : q ≤ L.balance) :
    sellFuelR R (fuel + 1) rs q tx =
      some (rs.set i (L.debitR R (sellMatchR R q L tx)), .ok 0) := by
  rw [sellFuelR, hfind]
  simp [hq]

theorem sellFuelR_rest (R : Rounding) (fuel : Nat) (rs : List credit) (q : ℚ) (tx : Tx)
    (i : Nat) (L : credit) (hfind : findCreditIn rs tx.Currency tx.Timestamp = some (i, L))
    (hq : L.balance < q) :
    sellFuelR R (fuel + 1) rs q tx =
      sellFuelR R fuel (rs.set i (L.debitR R (sellMatchR R L.balance L tx)))
        (R.rnd (q - L.balance)) tx := by
  rw [sellFuelR, hfind]
  simp [not_le.mpr hq]

theorem sellFuelR_none (R : Rounding) (fuel : Nat) (rs : List credit) (q : ℚ) (tx : Tx)
    (hfind : findCreditIn rs tx.Currency tx.Timestamp = none) :
    sellFuelR R (fuel + 1) rs q tx = some (rs, .ok 0) := by
  rw [sellFuelR, hfind]

/-- No eligible lot: `sell` leaves the book as it is. -/
theorem Book.sellR_none (R : Rounding) (b : Book) (q : ℚ) (tx : Tx)
    (hfind : b.findCredit tx.Currency tx.Timestamp = none) :
    b.sellR R q tx = some (b, .ok 0) := by
  unfold Book.sellR
  rw [sellFuelR_none _ _ _ _ _ hfind]
  rfl

/-- The lot found covers the quantity: one debit of the lot found. -/
theorem Book.sellR_full (R : Rounding) (b : Book) (q : ℚ) (tx : Tx) (i : Nat) (L : credit)
    (hfind : b.findCredit tx.Currency tx.Timestamp = some (i, L)) (hq : q ≤ L.balance) :
    b.sellR R q tx =
      some ({ b with records := b.records.set i (L.debitR R (sellMatchR R q L tx)) }, .ok 0) := by
  unfold Book.sellR
  rw [sellFuelR_full _ _ _ _ _ _ _ hfind hq]
  rfl

/-- The lot found does not cover the quantity: it is exhausted, and the call goes on
with the rounded rest on the pool so changed. -/
theorem Book.sellR_rest (R : Rounding) (b : Book) (q : ℚ) (tx : Tx) (i : Nat) (L : credit)
    (hfind : b.findCredit tx.Currency tx.Timestamp = some (i, L)) (hq : L.balance < q) :
    b.sellR R q tx =
      Book.sellR R { b with records := b.records.set i (L.debitR R (sellMatchR R L.balance L tx)) }
        (R.rnd (q - L.balance)) tx := by
  have hwalk : sellWalkR R b.records q tx =
      sellWalkR R (b.records.set i (L.debitR R (sellMatchR R L.balance L tx)))
        (R.rnd (q - L.balance)) tx := by
    have h1 := sellFuelR_eq_sellWalkR R b.records (b.records.length + 1 + 1) q tx
      (Nat.lt_succ_of_lt (Nat.lt_succ_self _))
    rw [sellFuelR_rest R _ _ _ _ _ _ hfind hq,
      sellFuelR_eq_sellWalkR R _ _ _ _ (by simp)] at h1
    simp only [Option.some.injEq, Prod.mk.injEq, and_true] at h1
    exact h1.symm
  rw [Book.sellR_eq, Book.sellR_eq, hwalk]

theorem calcProfitR_exact (amount : ℚ) (buy sell : Tx) :
    calcProfitR Rounding.exact amount buy sell = calcProfit amount buy sell := rfl

theorem debitR_exact (c : credit) (m : sell) : c.debitR Rounding.exact m = c.debit m := rfl

theorem sellMatchR_exact (a : ℚ) (c : credit) (tx : Tx) :
    sellMatchR Rounding.exact a c tx = sellMatch a c tx := rfl

/-- Without rounding the rounded embedding of `sell` is the exact one. -/
theorem sellWalkR_exact (rs : List credit) (q : ℚ) (tx : Tx) :
    sellWalkR Rounding.exact rs q tx = sellWalk rs q tx := by
  induction rs generalizing q with
  | nil => rfl
  | cons c rest ih =>
    by_cases hc : eligible tx.Currency tx.Timestamp c
    · by_cases hq : q ≤ c.balance
      · simp [sellWalkR, sellWalk, hc, hq, debitR_exact, sellMatchR_exact]
      · simp only [sellWalkR, sellWalk, hc, hq, if_true, if_false, debitR_exact, sellMatchR_exact]
        rw [ih]
        rfl
    · simp [sellWalkR, sellWalk, hc, ih]

theorem Book.sellR_exact (b : Book) (q : ℚ) (tx : Tx) :
    b.sellR Rounding.exact q tx = b.sell q tx := by
  rw [Book.sellR_eq, Book.sell_eq, sellWalkR_exact]

/-- What one pass of `sell` does to each lot: nothing, or, for a lot that `findCredit`
accepts, one debit by a match for `tx` whose quantity is at most the balance. -/
theorem sellWalkR_eligibleStep (R : Rounding) (rs : List credit) (q : ℚ) (tx : Tx) :
    List.Forall₂ (fun c c' => c' = c ∨
        (eligible tx.Currency tx.Timestamp c ∧
          ∃ a : ℚ, a ≤ c.balance ∧ c' = c.debitR R (sellMatchR R a c tx)))
      rs (sellWalkR R rs q tx) := by
  induction rs generalizing q with
  | nil => simp [sellWalkR]
  | cons c rest ih =>
    by_cases hc : eligible tx.Currency tx.Timestamp c
    · by_cases hq : q ≤ c.balance
      · simp only [sellWalkR, hc, hq, if_true]
        exact List.Forall₂.cons (Or.inr ⟨hc, _, hq, rfl⟩)
          (List.forall₂_same.mpr (fun _ _ => Or.inl rfl))
      · simp only [sellWalkR, hc, hq, if_true, if_false]
        exact List.Forall₂.cons (Or.inr ⟨hc, _, le_refl _, rfl⟩) (ih _)
    · simp only [sellWalkR, hc, if_false]
      exact List.Forall₂.cons (Or.inl rfl) (ih _)

theorem sellWalkR_length (R : Rounding) (rs : List credit) (q : ℚ) (tx : Tx) :
    (sellWalkR R rs q tx).length = rs.length :=
  (sellWalkR_eligibleStep R rs q tx).length_eq.symm

theorem sellWalkR_unchanged (R : Rounding) (rs : List credit) (q : ℚ) (tx : Tx) (j : Nat)
    (c : credit) (hj : rs[j]? = some c)
    (hc : ¬ (c.buyTx.Currency = tx.Currency ∧ c.buyTx.Timestamp ≤ tx.Timestamp)) :
    (sellWalkR R rs q tx)[j]? = some c := by
  obtain ⟨c', hc', hstep⟩ := forall₂_getElem? (sellWalkR_eligibleStep R rs q tx) j c hj
  rcases hstep with rfl | ⟨he, _⟩
  · exact hc'
  · exact absurd ⟨he.2.1, he.2.2⟩ hc

theorem createdMatches_cons_debitR (R : Rounding) (c : credit) (m : sell)
    (rest rest' : List credit) :
    createdMatches (c :: rest) (c.debitR R m :: rest') = m :: createdMatches rest rest' := by
  simp [createdMatches, credit.debitR]

/-- FIFO in one pass of `sell`: a lot behind an eligible lot gets a match only after the
eligible lot was debited by its whole balance. -/
theorem sellWalkR_fifo (R : Rounding) (rs : List credit) (q : ℚ) (tx : Tx) (i j : Nat)
    (ci cj cj' : credit) (hij : i < j) (hi : rs[i]? = some ci) (hj : rs[j]? = some cj)
    (hei : eligible tx.Currency tx.Timestamp ci)
    (hj' : (sellWalkR R rs q tx)[j]? = some cj') (hne : cj'.sells ≠ cj.sells) :
    (sellWalkR R rs q tx)[i]? = some (ci.debitR R (sellMatchR R ci.balance ci tx)) := by
  induction rs generalizing q i j with
  | nil => simp at hi
  | cons c rest ih =>
    cases j with
    | zero => exact absurd hij (Nat.not_lt_zero i)
    | succ j =>
      simp only [List.getElem?_cons_succ] at hj
      by_cases hc : eligible tx.Currency tx.Timestamp c
      · by_cases hq : q ≤ c.balance
        · simp only [sellWalkR, hc, hq, if_true, List.getElem?_cons_succ] at hj'
          rw [hj] at hj'
          cases hj'
          exact absurd rfl hne
        · simp only [sellWalkR, hc, hq, if_true, if_false, List.getElem?_cons_succ] at hj'
          cases i with
          | zero =>
            simp only [List.getElem?_cons_zero, Option.some.injEq] at hi
            subst hi
            simp [sellWalkR, hc, hq]
          | succ i =>
            simp only [List.getElem?_cons_succ] at hi
            simp only [sellWalkR, hc, hq, if_true, if_false, List.getElem?_cons_succ]
            exact ih _ i j (Nat.lt_of_succ_lt_succ hij) hi hj hj'
      · simp only [sellWalkR, hc, if_false, List.getElem?_cons_succ] at hj'
        cases i with
        | zero =>
          simp only [List.getElem?_cons_zero, Option.some.injEq] at hi
          subst hi
          exact absurd hei hc
        | succ i =>
          simp only [List.getElem?_cons_succ] at hi
          simp only [sellWalkR, hc, if_false, List.getElem?_cons_succ]
          exact ih _ i j (Nat.lt_of_succ_lt_succ hij) hi hj hj'

/-- A lot whose list of matches changed in one pass of `sell` got exactly one match,
for `tx`. -/
theorem sellWalkR_received (R : Rounding) (rs : List credit) (q : ℚ) (tx : Tx) (j : Nat)
    (cj cj' : credit) (hj : rs[j]? = some cj) (hj' : (sellWalkR R rs q tx)[j]? = some cj')
    (hne : cj'.sells ≠ cj.sells) :
    ∃ m : sell, cj'.sells = cj.sells ++ [m] ∧ m.tx = tx ∧ m.quantity ≤ cj.balance := by
  obtain ⟨c', hc', hstep⟩ := forall₂_getElem? (sellWalkR_eligibleStep R rs q tx) j cj hj
  rw [hj'] at hc'
  cases hc'
  rcases hstep with rfl | ⟨_, a, ha, rfl⟩
  · exact absurd rfl hne
  · exact ⟨sellMatchR R a cj tx, rfl, rfl, ha⟩

theorem bigFloat_rnd_ofNat (n : Nat) [n.AtLeastTwo] (h : n < 2 ^ 100) :
    Rounding.bigFloat.rnd (OfNat.ofNat n) = OfNat.ofNat n := by
  have h1 := bigFloat_rnd_natCast n h
  simpa using h1

theorem bigFloat_rnd_one : Rounding.bigFloat.rnd 1 = 1 := by
  have h1 := bigFloat_rnd_natCast 1 (by norm_num)
  simpa using h1

/-- After the lot that `findCredit` returns has been set to a lot of balance zero,
`findCredit` returns the next eligible lot. -/
theorem findCreditIn_set_exhausted (rs : List credit) (currency : Currency) (frm : Time)
    (i1 i2 : Nat) (L1 L2 v : credit) (hfind : findCreditIn rs currency frm = some (i1, L1))
    (hv : v.balance = 0) (hi : i1 < i2) (hL2 : rs[i2]? = some L2)
    (he2 : eligible currency frm L2)
    (hbetween : ∀ (k : Nat) (d : credit), i1 < k → k < i2 → rs[k]? = some d →
      ¬ eligible currency frm d) :
    findCreditIn (rs.set i1 v) currency frm = some (i2, L2) := by
  obtain ⟨_, _, h1b⟩ := findCreditIn_some _ _ _ _ _ hfind
  have hlen : i2 < rs.length := (List.getElem?_eq_some_iff.mp hL2).1
  apply findCreditIn_eq_some_of
  · rw [List.getElem?_set_ne (Nat.ne_of_lt hi)]
    exact hL2
  · exact he2
  · intro k d hk hd
    rcases Nat.lt_trichotomy k i1 with hlt1 | heq | hgt
    · rw [List.getElem?_set_ne (Nat.ne_of_gt hlt1)] at hd
      exact h1b k d hlt1 hd
    · subst heq
      rw [List.getElem?_set_self (Nat.lt_trans hi hlen)] at hd
      cases hd
      exact not_eligible_of_balance_zero _ _ _ hv
    · rw [List.getElem?_set_ne (Nat.ne_of_lt hgt)] at hd
      exact hbetween k d hgt hk hd

/-- The lot that `findCredit` returns always gets a match: for the quantity asked for
when the lot covers it, for its whole balance otherwise. -/
theorem sellWalkR_found (R : Rounding) (rs : List credit) (q : ℚ) (tx : Tx) (k : Nat)
    (L : credit) (hfind : findCreditIn rs tx.Currency tx.Timestamp = some (k, L)) :
    (sellWalkR R rs q tx)[k]? =
      some (L.debitR R (sellMatchR R (if q ≤ L.balance then q else L.balance) L tx)) := by
  induction rs generalizing k with
  | nil => simp [findCreditIn] at hfind
  | cons c rest ih =>
    by_cases hc : eligible tx.Currency tx.Timestamp c
    · rw [findCreditIn_cons_eligible _ _ _ _ hc] at hfind
      simp only [Option.some.injEq, Prod.mk.injEq] at hfind
      obtain ⟨rfl, rfl⟩ := hfind
      by_cases hq : q ≤ c.balance
      · simp [sellWalkR, hc, hq]
      · simp [sellWalkR, hc, hq]
    · rw [findCreditIn_cons_not_eligible _ _ _ _ hc] at hfind
      cases hr : findCreditIn rest tx.Currency tx.Timestamp with
      | none => simp [hr] at hfind
      | some p =>
        rw [hr] at hfind
        simp only [Option.map_some', Option.some.injEq, Prod.mk.injEq] at hfind
        obtain ⟨rfl, rfl⟩ := hfind
        simp only [sellWalkR, hc, if_false, List.getElem?_cons_succ]
        exact ih p.1 hr

/-- A sell split over two lots: the first lot found is exhausted, the next eligible lot
covers the rounded rest. -/
theorem Book.sellR_split (R : Rounding) (b : Book) (q : ℚ) (tx : Tx) (i1 i2 : Nat)
    (L1 L2 : credit) (hfind : b.findCredit tx.Currency tx.Timestamp = some (i1, L1))
    (hlt : L1.balance < q) (hi : i1 < i2) (hL2 : b.records[i2]? = some L2)
    (he2 : eligible tx.Currency tx.Timestamp L2)
    (hbetween : ∀ (k : Nat) (d : credit), i1 < k → k < i2 → b.records[k]? = some d →
      ¬ eligible tx.Currency tx.Timestamp d)
    (hcover : R.rnd (q - L1.balance) ≤ L2.balance) :
    b.sellR R q tx = some ({ b with records := ((b.records.set i1
      (L1.debitR R (sellMatchR R L1.balance L1 tx))).set i2
      (L2.debitR R (sellMatchR R (R.rnd (q - L1.balance)) L2 tx))) }, .ok 0) := by
  have hfind2 := findCreditIn_set_exhausted b.records tx.Currency tx.Timestamp i1 i2 L1 L2
    (L1.debitR R (sellMatchR R L1.balance L1 tx)) hfind (debitR_balance_self R _ _ rfl) hi hL2
    he2 hbetween
  rw [Book.sellR_rest R b q tx i1 L1 hfind hlt]
  exact Book.sellR_full R _ _ tx i2 L2 hfind2 hcover

/-- The scenario of the specification: lots of 2 at 100 and 3 at 110, a sell of 4 at
150. No result of the run is rounded. -/
theorem exBookBought_sellR :
    exBookBought.sellR Rounding.bigFloat 4 exSell = some (exSplitDone, .ok 0) := by
  have hfind : exBookBought.findCredit exSell.Currency exSell.Timestamp = some (0, exLot1) := by
    decide
  have h42 : (4 : ℚ) - exLot1.balance = 2 := by norm_num [exLot1]
  rw [Book.sellR_split Rounding.bigFloat exBookBought 4 exSell 0 1 exLot1 exLot2 hfind
    (by norm_num [exLot1]) (by decide) rfl (by decide)
    (fun k d h1 h2 => absurd h2 (Nat.not_lt.mpr h1))
    (by rw [h42, bigFloat_rnd_ofNat 2 (by norm_num)]; norm_num [exLot2])]
  rw [h42, bigFloat_rnd_ofNat 2 (by norm_num)]
  norm_num [exSplitDone, exBookBought, exBook, exLot1, exLot2, exSell, exBuy1, exBuy2, Time.Sub,
    minDuration, maxDuration, day, credit.debitR, sellMatchR, calcProfitR, Rounding.rnd_zero,
    bigFloat_rnd_one, bigFloat_rnd_ofNat 300 (by norm_num), bigFloat_rnd_ofNat 200 (by norm_num),
    bigFloat_rnd_ofNat 220 (by norm_num), bigFloat_rnd_ofNat 100 (by norm_num),
    bigFloat_rnd_ofNat 80 (by norm_num)]

/-- C2. FIFO order. In one call `sell(q, tx)`, with `0 ≤ q`, let the lot at index `i`
precede the lot at index `j` in the pool, both with the currency of `tx`, a buy
timestamp not after the one of `tx` and a balance that is not zero. The call returns,
for every rounding of the arithmetic, and:
(1) if the list of matches of lot `j` changed, lot `j` got exactly one match, for `tx`,
and lot `i` got exactly one match of this call, for `tx` and for its whole balance, and
its balance is zero afterwards;
(2) if no lot before lot `i` is eligible, lot `i` does get a match for `tx`, for `q` or
for its whole balance;
(3) if moreover lot `i` holds less than `q` and no lot between the two is eligible, lot
`j` does get a match for `tx`: the call reaches the second lot after the first. -/
theorem fifo_order (R : Rounding) (b : Book) (q : ℚ) (tx : Tx) (i j : Nat) (ci cj : credit)
    (_hq : 0 ≤ q) (hij : i < j)
    (hi : b.records[i]? = some ci) (hj : b.records[j]? = some cj)
    (hci : ci.buyTx.Currency = tx.Currency ∧ ci.buyTx.Timestamp ≤ tx.Timestamp ∧ ci.balance ≠ 0)
    (hcj : cj.buyTx.Currency = tx.Currency ∧ cj.buyTx.Timestamp ≤ tx.Timestamp ∧ cj.balance ≠ 0) :
    ∃ r, b.sellR R q tx = some r ∧
      (∀ cj' : credit, r.1.records[j]? = some cj' → cj'.sells ≠ cj.sells →
        (∃ mj : sell, cj'.sells = cj.sells ++ [mj] ∧ mj.tx = tx) ∧
        ∃ (ci' : credit) (m : sell), r.1.records[i]? = some ci' ∧ ci'.sells = ci.sells ++ [m] ∧
          m.tx = tx ∧ m.quantity = ci.balance ∧ ci'.balance = 0) ∧
      ((∀ (k : Nat) (d : credit), k < i → b.records[k]? = some d →
          ¬ eligible tx.Currency tx.Timestamp d) →
        (∃ (ci' : credit) (m : sell), r.1.records[i]? = some ci' ∧
          ci'.sells = ci.sells ++ [m] ∧ m.tx = tx ∧
          (m.quantity = q ∨ m.quantity = ci.balance)) ∧
        (ci.balance < q →
          (∀ (k : Nat) (d : credit), i < k → k < j → b.records[k]? = some d →
            ¬ eligible tx.Currency tx.Timestamp d) →
          ∃ (cj' : credit) (mj : sell), r.1.records[j]? = some cj' ∧
            cj'.sells = cj.sells ++ [mj] ∧ mj.tx = tx ∧ cj'.sells ≠ cj.sells)) := by
  have hei : eligible tx.Currency tx.Timestamp ci := ⟨hci.2.2, hci.1, hci.2.1⟩
  have hej : eligible tx.Currency tx.Timestamp cj := ⟨hcj.2.2, hcj.1, hcj.2.1⟩
  refine ⟨_, Book.sellR_eq R b q tx, ?_, ?_⟩
  · intro cj' hj' hne
    obtain ⟨mj, h1, h2, _⟩ := sellWalkR_received R b.records q tx j cj cj' hj hj' hne
    have h := sellWalkR_fifo R b.records q tx i j ci cj cj' hij hi hj hei hj' hne
    exact ⟨⟨mj, h1, h2⟩, _, sellMatchR R ci.balance ci tx, h, rfl, rfl, rfl,
      debitR_balance_self R _ _ rfl⟩
  · intro hbefore
    have hfind : findCreditIn b.records tx.Currency tx.Timestamp = some (i, ci) :=
      findCreditIn_eq_some_of _ _ _ _ _ hi hei hbefore
    refine ⟨⟨_, _, sellWalkR_found R b.records q tx i ci hfind, rfl, rfl, ?_⟩, ?_⟩
    · by_cases hq : q ≤ ci.balance
      · left
        simp [sellMatchR, hq]
      · right
        simp [sellMatchR, hq]
    · intro hlt hbetween
      have hfind2 := findCreditIn_set_exhausted b.records tx.Currency tx.Timestamp i j ci cj
        (ci.debitR R (sellMatchR R ci.balance ci tx)) hfind (debitR_balance_self R _ _ rfl) hij
        hj hej hbetween
      have hwalk := Book.sellR_rest R b q tx i ci hfind hlt
      rw [Book.sellR_eq, Book.sellR_eq] at hwalk
      simp only [Option.some.injEq, Prod.mk.injEq, and_true] at hwalk
      have hrec : sellWalkR R b.records q tx =
          sellWalkR R (b.records.set i (ci.debitR R (sellMatchR R ci.balance ci tx)))
            (R.rnd (q - ci.balance)) tx := congrArg Book.records hwalk
      refine ⟨cj.debitR R (sellMatchR R
        (if R.rnd (q - ci.balance) ≤ cj.balance then R.rnd (q - ci.balance) else cj.balance)
        cj tx), sellMatchR R
        (if R.rnd (q - ci.balance) ≤ cj.balance then R.rnd (q - ci.balance) else cj.balance)
        cj tx, ?_, rfl, rfl, ?_⟩
      · show (sellWalkR R b.records q tx)[j]? = _
        rw [hrec]
        exact sellWalkR_found R _ _ tx j cj hfind2
      · simp [credit.debitR]

/-- C2, witness: lots of 2 and 3 units and a sell of 4 units, with the arithmetic of the
program. The second lot does get a match, and the first one got a match for its whole
balance of 2 and is exhausted. -/
theorem fifo_order_witness :
    exBookBought.sellR Rounding.bigFloat 4 exSell = some (exSplitDone, .ok 0) ∧
    ∃ cj' : credit, exSplitDone.records[1]? = some cj' ∧ cj'.sells ≠ exLot2.sells ∧
      (∃ mj : sell, cj'.sells = exLot2.sells ++ [mj] ∧ mj.tx = exSell) ∧
      ∃ (ci' : credit) (m : sell), exSplitDone.records[0]? = some ci' ∧
        ci'.sells = exLot1.sells ++ [m] ∧ m.tx = exSell ∧ m.quantity = exLot1.balance ∧
        ci'.balance = 0 := by
  obtain ⟨r, hr, h1, _⟩ := fifo_order Rounding.bigFloat exBookBought 4 exSell 0 1 exLot1 exLot2
    (by norm_num) (by decide) rfl rfl (by decide) (by decide)
  rw [exBookBought_sellR] at hr
  cases hr
  have hne : ∀ cj' : credit, exSplitDone.records[1]? = some cj' → cj'.sells ≠ exLot2.sells := by
    intro cj' h
    simp only [exSplitDone, List.getElem?_cons_succ, List.getElem?_cons_zero,
      Option.some.injEq] at h
    subst h
    simp [exLot2]
  exact ⟨exBookBought_sellR, _, rfl, hne _ rfl, h1 _ rfl (hne _ rfl)⟩

theorem Time.Sub_of_le (t u : Time) (h : u ≤ t) :
    Time.Sub t u = if t - u ≤ maxDuration then t - u else maxDuration := by
  by_cases hfit : t - u ≤ maxDuration
  · rw [if_pos hfit]
    exact Time.Sub_eq t u h hfit
  · rw [if_neg hfit]
    exact Time.Sub_sat t u h (not_le.mp hfit)

theorem exRoundBook_findCredit :
    exRoundBook.findCredit exRoundSell.Currency exRoundSell.Timestamp = some (0, exRoundLot) :=
  findCreditIn_cons_eligible _ _ _ _
    ⟨by norm_num [exRoundLot, exThreeTenths], rfl, by norm_num [exRoundLot, exRoundBuy,
      exRoundSell, day]⟩

theorem exRoundSplitBook_findCredit :
    exRoundSplitBook.findCredit exRoundSplitSell.Currency exRoundSplitSell.Timestamp =
      some (0, exTenthLot) :=
  findCreditIn_cons_eligible _ _ _ _
    ⟨by norm_num [exTenthLot, exTenth], rfl, by norm_num [exTenthLot, exTenthBuy,
      exRoundSplitSell, day]⟩

/-- The sell of 0.3 BTC against the lots of 0.1 BTC and 1 BTC, with the arithmetic of
the program: the balances afterwards and the quantities of the matches. -/
theorem exRoundSplitBook_sellR :
    (exRoundSplitBook.sellR Rounding.bigFloat exThreeTenths exRoundSplitSell).map
      (fun r => (r.1.records.map (fun c => (c.balance, c.sells.map (fun m => m.quantity))),
        r.2)) =
      some ([(0, [exTenth]),
             (1 - (exThreeTenths - exTenth) - 1 / 2 ^ 103 - 1 / 2 ^ 101,
               [exThreeTenths - exTenth + 1 / 2 ^ 103])], .ok 0) := by
  rw [Book.sellR_split Rounding.bigFloat exRoundSplitBook exThreeTenths exRoundSplitSell 0 1
    exTenthLot exUnitLot exRoundSplitBook_findCredit
    (by norm_num [exTenthLot, exTenth, exThreeTenths]) (by decide) rfl
    ⟨by norm_num [exUnitLot], rfl, by norm_num [exUnitLot, exUnitBuy, exRoundSplitSell, day]⟩
    (fun k d h1 h2 => absurd h2 (Nat.not_lt.mpr h1))
    (by
      have h : exTenthLot.balance = exTenth := rfl
      rw [h, bigFloat_rnd_sub_example]
      norm_num [exUnitLot, exTenth, exThreeTenths])]
  have h : exTenthLot.balance = exTenth := rfl
  have h1 : exUnitLot.balance = 1 := rfl
  simp only [Option.map_some', exRoundSplitBook, List.set_cons_zero, List.set_cons_succ,
    List.map_cons, List.map_nil, credit.debitR, sellMatchR, h, h1, sub_self,
    Rounding.rnd_zero, bigFloat_rnd_sub_example, bigFloat_rnd_one_sub_example, exTenthLot,
    exUnitLot, List.nil_append]
  norm_num
  ring

/-- C8, counterexample. (1) A lot of 0.3 BTC and a sell of 0.1 BTC, both numbers as the
importers read them, numbers of 100 bits: the lot covers the sell, and with the
arithmetic of the program the balance afterwards is not the balance before minus the
quantity, but `2 ^ (-103)` more.
(2) A lot bought in 1970 and a sell on 2300-01-01: the hold time of the match is
`2 ^ 63 - 1` nanoseconds, not the difference of the two timestamps. -/
theorem full_satisfaction_counterexample :
    Rounding.bigFloat.rnd (3 / 10) = exRoundLot.balance ∧
    Rounding.bigFloat.rnd (1 / 10) = exRoundSell.Quantity ∧
    Rounding.bigFloat.rnd exRoundLot.balance = exRoundLot.balance ∧
    Rounding.bigFloat.rnd exRoundSell.Quantity = exRoundSell.Quantity ∧
    exRoundBook.findCredit exRoundSell.Currency exRoundSell.Timestamp = some (0, exRoundLot) ∧
    exRoundSell.Quantity ≤ exRoundLot.balance ∧
    (exRoundBook.sellR Rounding.bigFloat exRoundSell.Quantity exRoundSell).map
        (fun r => r.1.records.map (fun c => c.balance)) =
      some [exRoundLot.balance - exRoundSell.Quantity + 1 / 2 ^ 103] ∧
    exRoundLot.balance - exRoundSell.Quantity + 1 / 2 ^ 103 ≠
      exRoundLot.balance - exRoundSell.Quantity ∧
    exOneBook.findCredit exSell2300.Currency exSell2300.Timestamp = some (0, exOneLot) ∧
    exSell2300.Quantity ≤ exOneLot.balance ∧
    (exOneBook.sellR Rounding.bigFloat exSell2300.Quantity exSell2300).map
        (fun r => r.1.records.map (fun c => c.sells.map (fun m => m.holdTime))) =
      some [[9223372036854775807]] ∧
    exSell2300.Timestamp - exOneLot.buyTx.Timestamp = 10413792000000000000 := by
  have hq : exRoundSell.Quantity ≤ exRoundLot.balance := by
    norm_num [exRoundSell, exRoundLot, exTenth, exThreeTenths]
  have hfind2 : exOneBook.findCredit exSell2300.Currency exSell2300.Timestamp =
      some (0, exOneLot) := by decide
  have hq2 : exSell2300.Quantity ≤ exOneLot.balance := by norm_num [exSell2300, exOneLot]
  refine ⟨bigFloat_rnd_threeTenths, bigFloat_rnd_tenth, bigFloat_rnd_exThreeTenths,
    bigFloat_rnd_exTenth, exRoundBook_findCredit, hq, ?_, ?_, hfind2, hq2, ?_, ?_⟩
  · rw [Book.sellR_full Rounding.bigFloat exRoundBook _ exRoundSell 0 exRoundLot
      exRoundBook_findCredit hq]
    have h : exRoundLot.balance = exThreeTenths := rfl
    have h1 : exRoundSell.Quantity = exTenth := rfl
    simp only [Option.map_some', exRoundBook, List.set_cons_zero, List.map_cons, List.map_nil,
      credit.debitR, sellMatchR, h, h1, bigFloat_rnd_sub_example]
  · norm_num
  · rw [Book.sellR_full Rounding.bigFloat exOneBook _ exSell2300 0 exOneLot hfind2 hq2]
    norm_num [exOneBook, exOneLot, credit.debitR, sellMatchR, exSell2300, exYearBuy, Time.Sub,
      minDuration, maxDuration]
  · norm_num [exSell2300, exOneLot, exYearBuy]

/-- C8, amended. Full satisfaction from one lot. When `findCredit` returns the lot `L` at
index `i` and `q ≤ L.balance`, the call `sell(q, tx)` returns a zero remainder and no
error, and the pool differs from the one before only at index `i`, where `L` has one
more match at the end of its list, with quantity `q` and `paidWithCryptocurrency =
false`. The arithmetic rounds each result: the balance is `L.balance - q` rounded, and
the profit is the rounded difference of the rounded products `q * tx.SpotPrice` and
`q * L.buyTx.SpotPrice`. The buy of `L` is not after `tx`, and the hold time is
`tx.Timestamp - L.buyTx.Timestamp` when this is at most `2 ^ 63 - 1` nanoseconds, and
`2 ^ 63 - 1` otherwise. -/
theorem full_satisfaction (R : Rounding) (b : Book) (q : ℚ) (tx : Tx) (i : Nat) (L : credit)
    (hfind : b.findCredit tx.Currency tx.Timestamp = some (i, L)) (hq : q ≤ L.balance) :
    b.sellR R q tx = some ({ b with records := (b.records.set i
        { balance := R.rnd (L.balance - q), buyTx := L.buyTx,
          sells := L.sells ++ [{ profit := R.rnd (R.rnd (q * tx.SpotPrice) -
                                   R.rnd (q * L.buyTx.SpotPrice)),
                                 quantity := q,
                                 holdTime :=
                                   if tx.Timestamp - L.buyTx.Timestamp ≤ maxDuration then
                                     tx.Timestamp - L.buyTx.Timestamp
                                   else maxDuration,
                                 tx := tx,
                                 paidWithCryptocurrency := false }] }) }, .ok 0) ∧
    b.records[i]? = some L ∧
    L.buyTx.Timestamp ≤ tx.Timestamp ∧
    (∀ r, b.sellR R q tx = some r → r.1.records.length = b.records.length ∧
      ∀ j : Nat, j ≠ i → r.1.records[j]? = b.records[j]?) := by
  obtain ⟨h1, he, _⟩ := findCreditIn_some _ _ _ _ _ hfind
  have hsell := Book.sellR_full R b q tx i L hfind hq
  refine ⟨?_, h1, he.2.2, ?_⟩
  · rw [hsell]
    simp only [credit.debitR, sellMatchR, calcProfitR, Time.Sub_of_le _ _ he.2.2]
  · intro r hr
    rw [hsell] at hr
    cases hr
    exact ⟨List.length_set _ _ _, fun j hj => List.getElem?_set_ne (Ne.symm hj)⟩

/-- C8, amended, witness: a buy of 1.0 at 100 at time T and a sell of 1.0 at 150 at
T + 400 days give, with the arithmetic of the program, one match with quantity 1.0,
profit 50 and a lot balance of 0, and the tax record has `HoldLongerThenAYear = true`. -/
theorem full_satisfaction_witness :
    exOneBook.findCredit exSell400.Currency exSell400.Timestamp = some (0, exOneLot) ∧
    exOneBook.sellR Rounding.bigFloat 1 exSell400 = some (exOneDone, .ok 0) ∧
    (exOneDone.TaxRecords insertionSortSlice).map (fun r => r.HoldLongerThenAYear) = [true] := by
  have hfind : exOneBook.findCredit exSell400.Currency exSell400.Timestamp = some (0, exOneLot) := by
    decide
  refine ⟨hfind, ?_, ?_⟩
  · rw [(full_satisfaction Rounding.bigFloat exOneBook 1 exSell400 0 exOneLot hfind
      (by norm_num [exOneLot])).1]
    norm_num [exOneDone, exOneBook, exOneLot, exSell400, exYearBuy, maxDuration, day,
      Rounding.rnd_zero, bigFloat_rnd_ofNat 150 (by norm_num),
      bigFloat_rnd_ofNat 100 (by norm_num), bigFloat_rnd_ofNat 50 (by norm_num)]
  · norm_num [Book.TaxRecords, insertionSortSlice, taxRecordsOfPool, taxRecordsOfSells,
      exOneDone, mkTaxRecord, sell.HoldTimeIsLessThenYear, TaxFreeAfter, day]

/-- C7, counterexample. Lots of 0.1 BTC and 1 BTC and a sell of 0.3 BTC, the numbers as
the importers read them, numbers of 100 bits: the first lot holds less than the sell
asks for and the second covers the rest. With the arithmetic of the program the match
against the second lot has not the quantity `q - b1` but `2 ^ (-103)` more, and the
balance of the second lot is not `b2 - (q - b1)` afterwards but
`2 ^ (-103) + 2 ^ (-101)` less. -/
theorem partial_lot_split_counterexample :
    Rounding.bigFloat.rnd (1 / 10) = exTenthLot.balance ∧
    Rounding.bigFloat.rnd (3 / 10) = exRoundSplitSell.Quantity ∧
    Rounding.bigFloat.rnd exTenthLot.balance = exTenthLot.balance ∧
    Rounding.bigFloat.rnd exRoundSplitSell.Quantity = exRoundSplitSell.Quantity ∧
    Rounding.bigFloat.rnd exUnitLot.balance = exUnitLot.balance ∧
    exRoundSplitBook.findCredit exRoundSplitSell.Currency exRoundSplitSell.Timestamp =
      some (0, exTenthLot) ∧
    0 < exTenthLot.balance ∧ exTenthLot.balance < exRoundSplitSell.Quantity ∧
    exRoundSplitBook.records[1]? = some exUnitLot ∧
    exRoundSplitSell.Quantity - exTenthLot.balance ≤ exUnitLot.balance ∧
    (exRoundSplitBook.sellR Rounding.bigFloat exRoundSplitSell.Quantity exRoundSplitSell).map
      (fun r => (r.1.records.map (fun c => (c.balance, c.sells.map (fun m => m.quantity))),
        r.2)) =
      some ([(0, [exTenthLot.balance]),
             (exUnitLot.balance - (exRoundSplitSell.Quantity - exTenthLot.balance)
                - 1 / 2 ^ 103 - 1 / 2 ^ 101,
               [exRoundSplitSell.Quantity - exTenthLot.balance + 1 / 2 ^ 103])], .ok 0) ∧
    exRoundSplitSell.Quantity - exTenthLot.balance + 1 / 2 ^ 103 ≠
      exRoundSplitSell.Quantity - exTenthLot.balance ∧
    exUnitLot.balance - (exRoundSplitSell.Quantity - exTenthLot.balance)
        - 1 / 2 ^ 103 - 1 / 2 ^ 101 ≠
      exUnitLot.balance - (exRoundSplitSell.Quantity - exTenthLot.balance) := by
  refine ⟨bigFloat_rnd_tenth, bigFloat_rnd_threeTenths, bigFloat_rnd_exTenth,
    bigFloat_rnd_exThreeTenths, bigFloat_rnd_one, exRoundSplitBook_findCredit, ?_, ?_, rfl,
    ?_, exRoundSplitBook_sellR, ?_, ?_⟩
  · norm_num [exTenthLot, exTenth]
  · norm_num [exTenthLot, exRoundSplitSell, exTenth, exThreeTenths]
  · norm_num [exTenthLot, exRoundSplitSell, exUnitLot, exTenth, exThreeTenths]
  · norm_num
  · norm_num [exTenthLot, exRoundSplitSell, exUnitLot, exTenth, exThreeTenths]

/-- C7, amended. Partial lot split. Let `findCredit` return the lot `L1` at index `i1`,
with `0 < L1.balance < q`, and let `L2` at index `i2` be the next eligible lot of the
pool: `i1 < i2`, `L2` has the currency of `tx`, a buy timestamp not after the one of `tx`
and a balance that is not zero, and no lot between the two is eligible. The rest that
the call carries to `L2` is `q - L1.balance` rounded. If `L2.balance` is at least this
rest, then `sell(q, tx)` returns a zero remainder and no error and changes the pool at
the two indices only: `L1` gets one match of quantity `L1.balance` and has balance 0,
`L2` gets one match whose quantity is the rest and has the balance `L2.balance` minus
the rest, rounded; the profit of each match is the rounded difference of the rounded
products of its quantity with `tx.SpotPrice` and with the spot price of the buy. -/
theorem partial_lot_split (R : Rounding) (b : Book) (q : ℚ) (tx : Tx) (i1 i2 : Nat)
    (L1 L2 : credit)
    (hfind : b.findCredit tx.Currency tx.Timestamp = some (i1, L1))
    (_hpos : 0 < L1.balance) (hlt : L1.balance < q)
    (hi : i1 < i2) (hL2 : b.records[i2]? = some L2)
    (he2 : L2.buyTx.Currency = tx.Currency ∧ L2.buyTx.Timestamp ≤ tx.Timestamp ∧ L2.balance ≠ 0)
    (hbetween : ∀ (k : Nat) (d : credit), i1 < k → k < i2 → b.records[k]? = some d →
      ¬ (d.buyTx.Currency = tx.Currency ∧ d.buyTx.Timestamp ≤ tx.Timestamp ∧ d.balance ≠ 0))
    (hcover : R.rnd (q - L1.balance) ≤ L2.balance) :
    b.sellR R q tx = some ({ b with records := ((b.records.set i1
        { balance := 0, buyTx := L1.buyTx,
          sells := L1.sells ++ [{ profit := R.rnd (R.rnd (L1.balance * tx.SpotPrice) -
                                    R.rnd (L1.balance * L1.buyTx.SpotPrice)),
                                  quantity := L1.balance,
                                  holdTime := Time.Sub tx.Timestamp L1.buyTx.Timestamp,
                                  tx := tx,
                                  paidWithCryptocurrency := false }] }).set i2
        { balance := R.rnd (L2.balance - R.rnd (q - L1.balance)), buyTx := L2.buyTx,
          sells := L2.sells ++ [{ profit := R.rnd (R.rnd (R.rnd (q - L1.balance) * tx.SpotPrice) -
                                    R.rnd (R.rnd (q - L1.balance) * L2.buyTx.SpotPrice)),
                                  quantity := R.rnd (q - L1.balance),
                                  holdTime := Time.Sub tx.Timestamp L2.buyTx.Timestamp,
                                  tx := tx,
                                  paidWithCryptocurrency := false }] }) }, .ok 0) := by
  rw [Book.sellR_split R b q tx i1 i2 L1 L2 hfind hlt hi hL2 ⟨he2.2.2, he2.1, he2.2.1⟩
    (fun k d h1 h2 hd hel => hbetween k d h1 h2 hd ⟨hel.2.1, hel.2.2, hel.1⟩) hcover]
  simp only [credit.debitR, sellMatchR, calcProfitR, sub_self, R.rnd_zero]

/-- C7, amended, witness: buys of 2.0 at 100 and 3.0 at 110, a sell of 4.0 at 150 gives,
with the arithmetic of the program, matches of 2.0 (profit 100) and 2.0 (profit 80) and
balances 0 and 1.0: no result of this run is rounded. -/
theorem partial_lot_split_witness :
    exBookBought.findCredit exSell.Currency exSell.Timestamp = some (0, exLot1) ∧
    exBookBought.sellR Rounding.bigFloat 4 exSell = some (exSplitDone, .ok 0) := by
  have hfind : exBookBought.findCredit exSell.Currency exSell.Timestamp = some (0, exLot1) := by
    decide
  have h42 : (4 : ℚ) - exLot1.balance = 2 := by norm_num [exLot1]
  refine ⟨hfind, ?_⟩
  rw [partial_lot_split Rounding.bigFloat exBookBought 4 exSell 0 1 exLot1 exLot2 hfind
    (by norm_num [exLot1]) (by norm_num [exLot1]) (by decide) rfl (by decide)
    (fun k d h1 h2 => absurd h2 (Nat.not_lt.mpr h1))
    (by rw [h42, bigFloat_rnd_ofNat 2 (by norm_num)]; norm_num [exLot2])]
  rw [h42, bigFloat_rnd_ofNat 2 (by norm_num)]
  norm_num [exSplitDone, exBookBought, exBook, exLot1, exLot2, exSell, exBuy1, exBuy2, Time.Sub,
    minDuration, maxDuration, day, bigFloat_rnd_one, bigFloat_rnd_ofNat 300 (by norm_num),
    bigFloat_rnd_ofNat 200 (by norm_num), bigFloat_rnd_ofNat 220 (by norm_num),
    bigFloat_rnd_ofNat 100 (by norm_num), bigFloat_rnd_ofNat 80 (by norm_num)]

/-- A rounding function that changes no number is the exact arithmetic. -/
theorem Rounding.eq_exact (R : Rounding) (h : ∀ x, R.rnd x = x) : R = Rounding.exact := by
  cases R with
  | mk rnd hz =>
    have hfun : rnd = fun x => x := funext h
    subst hfun
    rfl

theorem roundHalfEven_ne_zero (m : ℚ) (h : 1 ≤ |m|) : roundHalfEven m ≠ 0 := by
  rcases le_abs.mp h with hpos | hneg
  · have hf : 1 ≤ ⌊m⌋ := Int.le_floor.mpr (by exact_mod_cast hpos)
    unfold roundHalfEven
    split_ifs <;> omega
  · have hm : m ≤ -1 := by linarith
    have hf : ⌊m⌋ ≤ -1 := by
      have h1 : ((⌊m⌋ : ℤ) : ℚ) ≤ -1 := le_trans (Int.floor_le m) hm
      exact_mod_cast h1
    by_cases hf2 : ⌊m⌋ ≤ -2
    · unfold roundHalfEven
      split_ifs <;> omega
    · have hf1 : ⌊m⌋ = -1 := by omega
      have hge : ((⌊m⌋ : ℤ) : ℚ) ≤ m := Int.floor_le m
      rw [hf1] at hge
      have hm1 : m = -1 := le_antisymm hm (by exact_mod_cast hge)
      unfold roundHalfEven
      rw [hf1, hm1]
      norm_num

/-- Rounding to 100 bits gives zero for zero only (the exponent has no bound in this
model). -/
theorem bigFloat_rnd_eq_zero (x : ℚ) (h : Rounding.bigFloat.rnd x = 0) : x = 0 := by
  by_contra hx
  have h1 : roundToPrec FloatPrec x = 0 := h
  rw [roundToPrec, if_neg hx] at h1
  have hpow : (2 : ℚ) ^ (Int.log 2 |x| - ((FloatPrec : ℤ) - 1)) ≠ 0 := by positivity
  have hr : roundHalfEven (x / 2 ^ (Int.log 2 |x| - ((FloatPrec : ℤ) - 1))) = 0 := by
    rcases mul_eq_zero.mp h1 with h2 | h2
    · exact_mod_cast h2
    · exact absurd h2 hpow
  refine roundHalfEven_ne_zero _ ?_ hr
  have hpos : (0 : ℚ) < |x| := abs_pos.mpr hx
  have hlow : (2 : ℚ) ^ (Int.log 2 |x|) ≤ |x| := by
    have := Int.zpow_log_le_self (b := 2) (r := |x|) (by norm_num) hpos
    exact_mod_cast this
  have hposp : (0 : ℚ) < 2 ^ (Int.log 2 |x| - ((FloatPrec : ℤ) - 1)) := by positivity
  rw [abs_div, abs_of_pos hposp, le_div_iff₀ hposp, one_mul]
  refine le_trans ?_ hlow
  apply zpow_le_zpow_right₀ (by norm_num)
  simp [FloatPrec]

theorem debitR_self (R : Rounding) (L : credit) (m : sell) (h : m.quantity = L.balance) :
    L.debitR R m = { balance := 0, buyTx := L.buyTx, sells := L.sells ++ [m] } := by
  simp [credit.debitR, h, R.rnd_zero]

theorem createdMatches_set_debitR (R : Rounding) (rs : List credit) (i : Nat) (L : credit)
    (m : sell) (h : rs[i]? = some L) :
    createdMatches rs (rs.set i (L.debitR R m)) = [m] := by
  induction rs generalizing i with
  | nil => simp at h
  | cons c rest ih =>
    cases i with
    | zero =>
      simp only [List.getElem?_cons_zero, Option.some.injEq] at h
      subst h
      rw [List.set_cons_zero, createdMatches_cons_debitR, createdMatches_self]
    | succ i =>
      simp only [List.getElem?_cons_succ] at h
      rw [List.set_cons_succ, createdMatches_cons_same, ih i h]

/-- One pass of `sell` whose first eligible lot does not cover the quantity: the pass
over the pool in which that lot is exhausted, with the rounded rest. -/
theorem sellWalkR_rest (R : Rounding) (rs : List credit) (q : ℚ) (tx : Tx) (i : Nat)
    (L : credit) (hfind : findCreditIn rs tx.Currency tx.Timestamp = some (i, L))
    (hq : L.balance < q) :
    sellWalkR R rs q tx =
      sellWalkR R (rs.set i (L.debitR R (sellMatchR R L.balance L tx)))
        (R.rnd (q - L.balance)) tx := by
  have h1 := sellFuelR_eq_sellWalkR R rs (rs.length + 1 + 1) q tx
    (Nat.lt_succ_of_lt (Nat.lt_succ_self _))
  rw [sellFuelR_rest R _ _ _ _ _ _ hfind hq,
    sellFuelR_eq_sellWalkR R _ _ _ _ (by simp)] at h1
  simp only [Option.some.injEq, Prod.mk.injEq, and_true] at h1
  exact h1.symm

/-- The matches of a pass of `sell` whose first eligible lot does not cover the
quantity: the match that exhausts this lot, then the matches of the rest of the pass. -/
theorem sellWalkR_created_rest (R : Rounding) (rs : List credit) (q : ℚ) (tx : Tx) (i : Nat)
    (L : credit) (hfind : findCreditIn rs tx.Currency tx.Timestamp = some (i, L))
    (hq : L.balance < q) :
    createdMatches rs (sellWalkR R rs q tx) =
      sellMatchR R L.balance L tx ::
        createdMatches (rs.set i (L.debitR R (sellMatchR R L.balance L tx)))
          (sellWalkR R rs q tx) := by
  induction rs generalizing i with
  | nil => simp [findCreditIn] at hfind
  | cons c rest ih =>
    by_cases hc : eligible tx.Currency tx.Timestamp c
    · rw [findCreditIn_cons_eligible _ _ _ _ hc] at hfind
      simp only [Option.some.injEq, Prod.mk.injEq] at hfind
      obtain ⟨rfl, rfl⟩ := hfind
      have hq' : ¬ q ≤ c.balance := not_le.mpr hq
      simp only [sellWalkR, hc, hq', if_true, if_false, List.set_cons_zero]
      rw [createdMatches_cons_debitR, createdMatches_cons_same]
    · rw [findCreditIn_cons_not_eligible _ _ _ _ hc] at hfind
      cases hr : findCreditIn rest tx.Currency tx.Timestamp with
      | none => simp [hr] at hfind
      | some p =>
        rw [hr] at hfind
        simp only [Option.map_some', Option.some.injEq, Prod.mk.injEq] at hfind
        obtain ⟨rfl, rfl⟩ := hfind
        simp only [sellWalkR, hc, if_false, List.set_cons_succ]
        rw [createdMatches_cons_same, createdMatches_cons_same]
        exact ih p.1 hr

/-- The matches of one pass of `sell` never sum to more than the eligible balance, on a
pool without negative balances. -/
theorem sellWalkR_created_le (R : Rounding) (rs : List credit) (q : ℚ) (tx : Tx)
    (hrs : ∀ c ∈ rs, 0 ≤ c.balance) :
    qsum (createdMatches rs (sellWalkR R rs q tx)) ≤
      eligibleBalance tx.Currency tx.Timestamp rs := by
  induction rs generalizing q with
  | nil => simp [sellWalkR, createdMatches, qsum, eligibleBalance]
  | cons c rest ih =>
    have hrest : ∀ d ∈ rest, 0 ≤ d.balance := fun d hd => hrs d (List.mem_cons_of_mem _ hd)
    have hE := eligibleBalance_nonneg tx.Currency tx.Timestamp rest hrest
    by_cases hc : eligible tx.Currency tx.Timestamp c
    · rw [eligibleBalance_cons_eligible _ _ _ _ hc]
      by_cases hle : q ≤ c.balance
      · simp only [sellWalkR, hc, hle, if_true]
        rw [createdMatches_cons_debitR, createdMatches_self, qsum_cons]
        have h1 : (sellMatchR R q c tx).quantity = q := rfl
        have h2 : qsum [] = 0 := rfl
        rw [h1, h2]
        linarith
      · simp only [sellWalkR, hc, hle, if_true, if_false]
        rw [createdMatches_cons_debitR, qsum_cons]
        have h1 : (sellMatchR R c.balance c tx).quantity = c.balance := rfl
        rw [h1]
        have := ih (R.rnd (q - c.balance)) hrest
        linarith
    · rw [eligibleBalance_cons_not_eligible _ _ _ _ hc]
      simp only [sellWalkR, hc, if_false]
      rw [createdMatches_cons_same]
      exact ih q hrest

/-- When one pass of `sell` leaves no eligible lot behind, its matches sum to the
eligible balance: every eligible lot was exhausted. -/
theorem sellWalkR_created_exhausted (R : Rounding) (hR : ∀ x, R.rnd x = 0 → x = 0)
    (rs : List credit) (q : ℚ) (tx : Tx)
    (hnone : ∀ c ∈ sellWalkR R rs q tx, ¬ eligible tx.Currency tx.Timestamp c) :
    qsum (createdMatches rs (sellWalkR R rs q tx)) =
      eligibleBalance tx.Currency tx.Timestamp rs := by
  induction rs generalizing q with
  | nil => simp [sellWalkR, createdMatches, qsum, eligibleBalance]
  | cons c rest ih =>
    by_cases hc : eligible tx.Currency tx.Timestamp c
    · rw [eligibleBalance_cons_eligible _ _ _ _ hc]
      by_cases hle : q ≤ c.balance
      · simp only [sellWalkR, hc, hle, if_true] at hnone ⊢
        rw [createdMatches_cons_debitR, createdMatches_self, qsum_cons]
        have h1 : (sellMatchR R q c tx).quantity = q := rfl
        have h2 : qsum [] = 0 := rfl
        rw [h1, h2]
        have hrest : ∀ d ∈ rest, ¬ eligible tx.Currency tx.Timestamp d :=
          fun d hd => hnone d (List.mem_cons_of_mem _ hd)
        rw [eligibleBalance_of_none _ _ _ hrest]
        have hhead := hnone _ (List.mem_cons_self _ _)
        have hz : R.rnd (c.balance - q) = 0 := by
          by_contra hne
          exact hhead ⟨hne, hc.2.1, hc.2.2⟩
        have := hR _ hz
        linarith
      · simp only [sellWalkR, hc, hle, if_true, if_false] at hnone ⊢
        rw [createdMatches_cons_debitR, qsum_cons]
        have h1 : (sellMatchR R c.balance c tx).quantity = c.balance := rfl
        rw [h1, ih (R.rnd (q - c.balance)) (fun d hd => hnone d (List.mem_cons_of_mem _ hd))]
    · rw [eligibleBalance_cons_not_eligible _ _ _ _ hc]
      simp only [sellWalkR, hc, if_false] at hnone ⊢
      rw [createdMatches_cons_same]
      exact ih q (fun d hd => hnone d (List.mem_cons_of_mem _ hd))

/-- The sell of 0.3 BTC against the lots of 0.1 BTC and 1 BTC, with the arithmetic of
the program: the pool afterwards. -/
theorem exRoundSplitBook_sellR_eq :
    exRoundSplitBook.sellR Rounding.bigFloat exThreeTenths exRoundSplitSell =
      some ({ exRoundSplitBook with records :=
        [exTenthLot.debitR Rounding.bigFloat
            (sellMatchR Rounding.bigFloat exTenth exTenthLot exRoundSplitSell),
          exUnitLot.debitR Rounding.bigFloat
            (sellMatchR Rounding.bigFloat (exThreeTenths - exTenth + 1 / 2 ^ 103) exUnitLot
              exRoundSplitSell)] }, .ok 0) := by
  rw [Book.sellR_split Rounding.bigFloat exRoundSplitBook exThreeTenths exRoundSplitSell 0 1
    exTenthLot exUnitLot exRoundSplitBook_findCredit
    (by norm_num [exTenthLot, exTenth, exThreeTenths]) (by decide) rfl
    ⟨by norm_num [exUnitLot], rfl, by norm_num [exUnitLot, exUnitBuy, exRoundSplitSell, day]⟩
    (fun k d h1 h2 => absurd h2 (Nat.not_lt.mpr h1))
    (by
      have h : exTenthLot.balance = exTenth := rfl
      rw [h, bigFloat_rnd_sub_example]
      norm_num [exUnitLot, exTenth, exThreeTenths])]
  have h : exTenthLot.balance = exTenth := rfl
  rw [h, bigFloat_rnd_sub_example]
  rfl

/-- C6, counterexample. (1) Lots of 2 and 3 BTC and a sell of 10 BTC: `Calculate`
succeeds, the matches created for the sell are 2 and 3, their sum 5 is neither the
quantity asked for nor zero, although two eligible lots existed. (2) Lots of 0.1 and 1
BTC and a sell of 0.3 BTC, the numbers as the importers read them, numbers of 100 bits,
with the arithmetic of the program: the matches created are 0.1 and the rounded rest,
and their sum is the quantity asked for plus `2 ^ (-103)`, although the lots hold more
than the sell asks for. -/
theorem disposal_quantity_counterexample :
    exShortBook.Calculate = some (exShortDone, none) ∧
    createdMatches [exLot1, exLot2] exShortDone.records =
      [{ profit := 100, quantity := 2, holdTime := 400 * day, tx := exSell10,
         paidWithCryptocurrency := false },
       { profit := 120, quantity := 3, holdTime := 390 * day, tx := exSell10,
         paidWithCryptocurrency := false }] ∧
    qsum (createdMatches [exLot1, exLot2] exShortDone.records) = 5 ∧
    exSell10.Quantity = 10 ∧
    ¬ (qsum (createdMatches [exLot1, exLot2] exShortDone.records) = exSell10.Quantity ∨
       qsum (createdMatches [exLot1, exLot2] exShortDone.records) = 0) ∧
    Rounding.bigFloat.rnd (1 / 10) = exTenthLot.balance ∧
    Rounding.bigFloat.rnd (3 / 10) = exRoundSplitSell.Quantity ∧
    Rounding.bigFloat.rnd exTenthLot.balance = exTenthLot.balance ∧
    Rounding.bigFloat.rnd exRoundSplitSell.Quantity = exRoundSplitSell.Quantity ∧
    Rounding.bigFloat.rnd exUnitLot.balance = exUnitLot.balance ∧
    (exRoundSplitBook.sellR Rounding.bigFloat exRoundSplitSell.Quantity exRoundSplitSell).map
      (fun r => ((createdMatches exRoundSplitBook.records r.1.records).map
        (fun m => m.quantity), qsum (createdMatches exRoundSplitBook.records r.1.records))) =
      some ([exTenthLot.balance, exRoundSplitSell.Quantity - exTenthLot.balance + 1 / 2 ^ 103],
        exRoundSplitSell.Quantity + 1 / 2 ^ 103) ∧
    ¬ (exRoundSplitSell.Quantity + 1 / 2 ^ 103 = exRoundSplitSell.Quantity ∨
       exRoundSplitSell.Quantity + 1 / 2 ^ 103 = 0) := by
  have h5 : qsum (createdMatches [exLot1, exLot2] exShortDone.records) = 5 := by
    norm_num [createdMatches, exShortDone, exLot1, exLot2, qsum]
  refine ⟨?_, ?_, h5, rfl, ?_, bigFloat_rnd_tenth, bigFloat_rnd_threeTenths,
    bigFloat_rnd_exTenth, bigFloat_rnd_exThreeTenths, bigFloat_rnd_one, ?_, ?_⟩
  · norm_num [Book.Calculate, Book.addCredits, addCreditsLoop, sellsLoop, Book.sell,
      Book.addCredit, addCreditFuel, sellFuel, findCreditIn, exShortBook, exShortDone,
      exBuy1, exBuy2, exSell10, EUR, BTC, credit.debit, Time.After, sellMatch, day,
      calcProfit, Time.Sub, minDuration, maxDuration]
  · simp [createdMatches, exShortDone, exLot1, exLot2]
  · rw [h5]
    norm_num [exSell10]
  · have hq : exRoundSplitSell.Quantity = exThreeTenths := rfl
    have hb : exTenthLot.balance = exTenth := rfl
    rw [hq, hb, exRoundSplitBook_sellR_eq]
    have hrec : exRoundSplitBook.records = [exTenthLot, exUnitLot] := rfl
    simp only [Option.map_some', hrec]
    rw [createdMatches_cons_debitR, createdMatches_cons_debitR, createdMatches_self]
    simp only [List.map_cons, List.map_nil, qsum, sellMatchR, List.sum_cons, List.sum_nil,
      Option.some.injEq, Prod.mk.injEq, true_and]
    ring
  · norm_num [exRoundSplitSell, exThreeTenths]

/-- C6, amended. Every call `sell(q, tx)` returns a zero remainder and no error and keeps
the number of lots, for every rounding `R` of the arithmetic. For the matches it creates
over all lots:
(a) when no lot is eligible, the book is left as it is and there is no match;
(b) when the lot that `findCredit` returns holds at least `q`, there is exactly one
match, for `tx`, with quantity `q`;
(c) when that lot `L` holds less than `q`, the call is the call `sell(r, tx)` on the
pool in which `L` is exhausted, where `r` is `q - L.balance` rounded; its matches are
the match that exhausts `L`, for `tx` and with quantity `L.balance`, followed by the
matches of that call, so the sum is `L.balance` plus the sum of that call;
(d) when the call leaves no eligible lot behind, the sum is the sum of the balances of
the eligible lots (for a rounding that gives zero for zero only);
(e) when no result is rounded, the sum is `q` whenever an eligible lot exists and the
eligible balances sum to at least `q`, and in every case it is `q` or the sum of the
eligible balances. -/
theorem disposal_quantity (R : Rounding) (b : Book) (q : ℚ) (tx : Tx) :
    ∃ r, b.sellR R q tx = some r ∧ r.2 = .ok 0 ∧ r.1.records.length = b.records.length ∧
      ((∀ c ∈ b.records, ¬ eligible tx.Currency tx.Timestamp c) →
        r.1 = b ∧ createdMatches b.records r.1.records = []) ∧
      (∀ (i : Nat) (L : credit), b.findCredit tx.Currency tx.Timestamp = some (i, L) →
        q ≤ L.balance →
        ∃ m : sell, createdMatches b.records r.1.records = [m] ∧ m.tx = tx ∧ m.quantity = q ∧
          qsum (createdMatches b.records r.1.records) = q) ∧
      (∀ (i : Nat) (L : credit), b.findCredit tx.Currency tx.Timestamp = some (i, L) →
        L.balance < q →
        ∃ m : sell, m.tx = tx ∧ m.quantity = L.balance ∧
          Book.sellR R { b with records := (b.records.set i
            { balance := 0, buyTx := L.buyTx, sells := L.sells ++ [m] }) }
            (R.rnd (q - L.balance)) tx = some r ∧
          createdMatches b.records r.1.records =
            m :: createdMatches (b.records.set i
              { balance := 0, buyTx := L.buyTx, sells := L.sells ++ [m] }) r.1.records ∧
          qsum (createdMatches b.records r.1.records) =
            L.balance + qsum (createdMatches (b.records.set i
              { balance := 0, buyTx := L.buyTx, sells := L.sells ++ [m] }) r.1.records)) ∧
      ((∀ x, R.rnd x = 0 → x = 0) →
        (∀ c ∈ r.1.records, ¬ eligible tx.Currency tx.Timestamp c) →
        qsum (createdMatches b.records r.1.records) =
          eligibleBalance tx.Currency tx.Timestamp b.records) ∧
      ((∀ x, R.rnd x = x) →
        ((∃ c ∈ b.records, eligible tx.Currency tx.Timestamp c) →
          q ≤ eligibleBalance tx.Currency tx.Timestamp b.records →
          qsum (createdMatches b.records r.1.records) = q) ∧
        (qsum (createdMatches b.records r.1.records) = q ∨
          qsum (createdMatches b.records r.1.records) =
            eligibleBalance tx.Currency tx.Timestamp b.records)) := by
  refine ⟨_, Book.sellR_eq R b q tx, rfl, sellWalkR_length R b.records q tx, ?_, ?_, ?_, ?_, ?_⟩
  · intro hnone
    have hfind : b.findCredit tx.Currency tx.Timestamp = none :=
      (findCreditIn_none _ _ _).mpr hnone
    have h1 := Book.sellR_eq R b q tx
    rw [Book.sellR_none R b q tx hfind] at h1
    simp only [Option.some.injEq, Prod.mk.injEq, and_true] at h1
    have h2 : sellWalkR R b.records q tx = b.records := (congrArg Book.records h1).symm
    refine ⟨h1.symm, ?_⟩
    show createdMatches b.records (sellWalkR R b.records q tx) = []
    rw [h2, createdMatches_self]
  · intro i L hfind hq
    have h1 := Book.sellR_eq R b q tx
    rw [Book.sellR_full R b q tx i L hfind hq] at h1
    simp only [Option.some.injEq, Prod.mk.injEq, and_true] at h1
    have h2 : sellWalkR R b.records q tx =
        b.records.set i (L.debitR R (sellMatchR R q L tx)) := (congrArg Book.records h1).symm
    have h3 : createdMatches b.records (sellWalkR R b.records q tx) = [sellMatchR R q L tx] := by
      rw [h2]
      exact createdMatches_set_debitR R _ i L _ (findCreditIn_some _ _ _ _ _ hfind).1
    refine ⟨sellMatchR R q L tx, h3, rfl, rfl, ?_⟩
    show qsum (createdMatches b.records (sellWalkR R b.records q tx)) = q
    rw [h3]
    simp [qsum, sellMatchR]
  · intro i L hfind hlt
    have hL := debitR_self R L (sellMatchR R L.balance L tx) rfl
    have hcre := sellWalkR_created_rest R b.records q tx i L hfind hlt
    rw [hL] at hcre
    refine ⟨sellMatchR R L.balance L tx, rfl, rfl, ?_, hcre, ?_⟩
    · rw [← hL, ← Book.sellR_rest R b q tx i L hfind hlt]
      exact Book.sellR_eq R b q tx
    · show qsum (createdMatches b.records (sellWalkR R b.records q tx)) = _
      rw [hcre, qsum_cons]
      rfl
  · intro hR hnone
    exact sellWalkR_created_exhausted R hR b.records q tx hnone
  · intro hexact
    have hRe := Rounding.eq_exact R hexact
    subst hRe
    have hw : sellWalkR Rounding.exact b.records q tx = sellWalk b.records q tx :=
      sellWalkR_exact b.records q tx
    constructor
    · intro hex hq
      show qsum (createdMatches b.records (sellWalkR Rounding.exact b.records q tx)) = q
      rw [hw]
      rcases sellWalk_created b.records q tx with h | ⟨_, h2⟩
      · exact h
      · rcases h2 with h2 | h2
        · exact absurd hq (not_le.mpr h2)
        · obtain ⟨c, hc, he⟩ := hex
          exact absurd he (h2 c hc)
    · show qsum (createdMatches b.records (sellWalkR Rounding.exact b.records q tx)) = q ∨
        qsum (createdMatches b.records (sellWalkR Rounding.exact b.records q tx)) = _
      rw [hw]
      rcases sellWalk_created b.records q tx with h | ⟨h1, _⟩
      · exact Or.inl h
      · exact Or.inr h1

/-- C6, amended, witness. With the arithmetic of the program: (1) a lot of 1 BTC covers
a sell of 1 BTC, one match of quantity 1 is created and no eligible lot is left, so the
sum 1 is also the sum of the eligible balances; (2) lots of 2 and 3 BTC and a sell of 4
BTC: the first lot is exhausted by a match of 2, the call goes on with the rest, and the
matches sum to 4. (3) Without rounding, the same sell is matched for 4, as the lots
hold 5. -/
theorem disposal_quantity_witness :
    eligibleBalance exSell400.Currency exSell400.Timestamp exOneBook.records = 1 ∧
    (∃ r, exOneBook.sellR Rounding.bigFloat 1 exSell400 = some r ∧
      r.1.records.map (fun c => c.balance) = [0] ∧
      (∃ m : sell, createdMatches exOneBook.records r.1.records = [m] ∧ m.tx = exSell400 ∧
        m.quantity = 1) ∧
      qsum (createdMatches exOneBook.records r.1.records) =
        eligibleBalance exSell400.Currency exSell400.Timestamp exOneBook.records) ∧
    (∃ r, exBookBought.sellR Rounding.bigFloat 4 exSell = some r ∧ r.1 = exSplitDone ∧
      qsum (createdMatches exBookBought.records r.1.records) = 4 ∧
      ∃ m : sell, m.tx = exSell ∧ m.quantity = 2 ∧
        qsum (createdMatches exBookBought.records r.1.records) =
          2 + qsum (createdMatches (exBookBought.records.set 0
            { balance := 0, buyTx := exLot1.buyTx, sells := exLot1.sells ++ [m] })
            r.1.records)) ∧
    eligibleBalance exSell.Currency exSell.Timestamp exBookBought.records = 5 ∧
    (∃ r, exBookBought.sellR Rounding.exact 4 exSell = some r ∧
      qsum (createdMatches exBookBought.records r.1.records) = 4) := by
  have hfind : exOneBook.findCredit exSell400.Currency exSell400.Timestamp = some (0, exOneLot) := by
    decide
  have hfind2 : exBookBought.findCredit exSell.Currency exSell.Timestamp = some (0, exLot1) := by
    decide
  have hE : eligibleBalance exSell400.Currency exSell400.Timestamp exOneBook.records = 1 := by
    norm_num [eligibleBalance, exOneBook, exOneLot, exSell400, exYearBuy, List.filter, eligible,
      BTC, day]
  have hE2 : eligibleBalance exSell.Currency exSell.Timestamp exBookBought.records = 5 := by
    norm_num [eligibleBalance, exBookBought, exBook, exLot1, exLot2, exSell, exBuy1, exBuy2,
      List.filter, eligible, BTC, day]
  refine ⟨hE, ?_, ?_, hE2, ?_⟩
  · obtain ⟨r, h1, _, _, _, hb, _, hd, _⟩ :=
      disposal_quantity Rounding.bigFloat exOneBook 1 exSell400
    obtain ⟨m, hm1, hm2, hm3, _⟩ := hb 0 exOneLot hfind (by norm_num [exOneLot])
    have hr := h1
    rw [Book.sellR_full Rounding.bigFloat exOneBook 1 exSell400 0 exOneLot hfind
      (by norm_num [exOneLot])] at hr
    simp only [Option.some.injEq] at hr
    have hbal : r.1.records.map (fun c => c.balance) = [0] := by
      rw [← hr]
      norm_num [exOneBook, exOneLot, credit.debitR, sellMatchR, Rounding.rnd_zero]
    have hnone : ∀ c ∈ r.1.records, ¬ eligible exSell400.Currency exSell400.Timestamp c := by
      intro c hc he
      have hmem : c.balance ∈ r.1.records.map (fun c => c.balance) := List.mem_map_of_mem _ hc
      rw [hbal] at hmem
      simp only [List.mem_singleton] at hmem
      exact he.1 hmem
    exact ⟨r, h1, hbal, ⟨m, hm1, hm2, hm3⟩, hd bigFloat_rnd_eq_zero hnone⟩
  · obtain ⟨r, h1, _, _, _, _, hc, _, _⟩ :=
      disposal_quantity Rounding.bigFloat exBookBought 4 exSell
    obtain ⟨m, hm1, hm2, _, _, hsum⟩ := hc 0 exLot1 hfind2 (by norm_num [exLot1])
    have hr := h1
    rw [exBookBought_sellR] at hr
    simp only [Option.some.injEq] at hr
    have hr1 : r.1 = exSplitDone := by rw [← hr]
    have h4 : qsum (createdMatches exBookBought.records r.1.records) = 4 := by
      rw [hr1]
      norm_num [createdMatches, exSplitDone, exBookBought, exLot1, exLot2, qsum]
    have hb1 : exLot1.balance = 2 := rfl
    rw [hb1] at hm2 hsum
    exact ⟨r, h1, hr1, h4, m, hm1, hm2, hsum⟩
  · obtain ⟨r, h1, _, _, _, _, _, _, he⟩ := disposal_quantity Rounding.exact exBookBought 4 exSell
    refine ⟨r, h1, (he (fun _ => rfl)).1 ⟨exLot1, by simp [exBookBought], by decide⟩ ?_⟩
    rw [hE2]
    norm_num

/-- C21, counterexample. Lots of 0.1 and 1 BTC, a sell of 0.3 BTC, the numbers as the
importers read them, numbers of 100 bits, with the arithmetic of the program. No balance is negative, the
quantity is positive, and `min(q, E) = q`. The matches created sum to `q + 2 ^ (-103)`,
not to `q`, and the balances go down by `q + 2 ^ (-103) + 2 ^ (-101)` in total, which is
not the sum of the matches. -/
theorem matched_total_counterexample :
    Rounding.bigFloat.rnd (1 / 10) = exTenthLot.balance ∧
    Rounding.bigFloat.rnd (3 / 10) = exRoundSplitSell.Quantity ∧
    Rounding.bigFloat.rnd exTenthLot.balance = exTenthLot.balance ∧
    Rounding.bigFloat.rnd exRoundSplitSell.Quantity = exRoundSplitSell.Quantity ∧
    Rounding.bigFloat.rnd exUnitLot.balance = exUnitLot.balance ∧
    (∀ c ∈ exRoundSplitBook.records, 0 ≤ c.balance) ∧
    0 < exRoundSplitSell.Quantity ∧
    fundsFor exRoundSplitSell.Currency exRoundSplitSell.Timestamp exRoundSplitBook.records =
      exTenthLot.balance + 1 ∧
    min exRoundSplitSell.Quantity (exTenthLot.balance + 1) = exRoundSplitSell.Quantity ∧
    (exRoundSplitBook.sellR Rounding.bigFloat exRoundSplitSell.Quantity exRoundSplitSell).map
      (fun r => (qsum (createdMatches exRoundSplitBook.records r.1.records),
        totalBalance exRoundSplitBook.records - totalBalance r.1.records)) =
      some (exRoundSplitSell.Quantity + 1 / 2 ^ 103,
        exRoundSplitSell.Quantity + 1 / 2 ^ 103 + 1 / 2 ^ 101) ∧
    exRoundSplitSell.Quantity + 1 / 2 ^ 103 ≠ exRoundSplitSell.Quantity ∧
    exRoundSplitSell.Quantity + 1 / 2 ^ 103 + 1 / 2 ^ 101 ≠
      exRoundSplitSell.Quantity + 1 / 2 ^ 103 := by
  have hq : exRoundSplitSell.Quantity = exThreeTenths := rfl
  have hb : exTenthLot.balance = exTenth := rfl
  refine ⟨bigFloat_rnd_tenth, bigFloat_rnd_threeTenths, bigFloat_rnd_exTenth,
    bigFloat_rnd_exThreeTenths, bigFloat_rnd_one, ?_, ?_, ?_, ?_, ?_, ?_, ?_⟩
  · intro c hc
    simp only [exRoundSplitBook, List.mem_cons, List.mem_singleton, List.not_mem_nil,
      or_false] at hc
    rcases hc with rfl | rfl <;> norm_num [exTenthLot, exUnitLot, exTenth]
  · norm_num [exRoundSplitSell, exThreeTenths]
  · norm_num [fundsFor, exRoundSplitBook, exTenthLot, exUnitLot, exTenthBuy, exUnitBuy,
      exRoundSplitSell, List.filter, BTC, day]
  · rw [hq, hb]
    apply min_eq_left
    norm_num [exThreeTenths, exTenth]
  · rw [hq, exRoundSplitBook_sellR_eq]
    have h1 : exUnitLot.balance = 1 := rfl
    have hrec : exRoundSplitBook.records = [exTenthLot, exUnitLot] := rfl
    simp only [Option.map_some', hrec]
    rw [createdMatches_cons_debitR, createdMatches_cons_debitR, createdMatches_self]
    simp only [qsum, sellMatchR, List.map_cons, List.map_nil, List.sum_cons, List.sum_nil,
      totalBalance, credit.debitR, hb, h1, sub_self, Rounding.rnd_zero,
      bigFloat_rnd_one_sub_example, Option.some.injEq, Prod.mk.injEq]
    constructor <;> ring
  · norm_num
  · norm_num

/-- C21, amended. Matched total of an ordinary sell. On a pool whose lots all have a
balance of at least zero, a call `sell(q, tx)` with `0 ≤ q` (in particular with `0 < q`)
returns a zero remainder and no error and keeps the number of lots, for every rounding
`R` of the arithmetic. `E` is the sum of the balances before the call of the lots with
the currency of `tx` and a buy timestamp not after the one of `tx`.
(1) A lot of another currency or with a later buy timestamp is left as it is.
(2) Every other lot is left as it is or gets exactly one match, for `tx`, whose quantity
is at most the balance of the lot, and its balance afterwards is the balance before
minus that quantity, rounded.
(3) The sum of the quantities of the matches created is at most `E`.
(4) It is `min(q, E)` when no lot is eligible (then it is zero) and when the lot that
`findCredit` returns holds at least `q` (then it is `q`).
(5) When no result is rounded, it is `min(q, E)` in every case, and it is the total
decrease of the balances of the lots. -/
theorem matched_total (R : Rounding) (b : Book) (q : ℚ) (tx : Tx)
    (hbal : ∀ c ∈ b.records, 0 ≤ c.balance) (hq : 0 ≤ q) :
    ∃ r, b.sellR R q tx = some r ∧ r.2 = .ok 0 ∧
      r.1.records.length = b.records.length ∧
      (∀ (j : Nat) (c : credit), b.records[j]? = some c →
        ¬ (c.buyTx.Currency = tx.Currency ∧ c.buyTx.Timestamp ≤ tx.Timestamp) →
        r.1.records[j]? = some c) ∧
      (∀ (j : Nat) (c : credit), b.records[j]? = some c →
        ∃ c' : credit, r.1.records[j]? = some c' ∧
          (c' = c ∨ ∃ m : sell, m.tx = tx ∧ m.quantity ≤ c.balance ∧
            c'.sells = c.sells ++ [m] ∧ c'.buyTx = c.buyTx ∧
            c'.balance = R.rnd (c.balance - m.quantity))) ∧
      qsum (createdMatches b.records r.1.records) ≤
        fundsFor tx.Currency tx.Timestamp b.records ∧
      (b.findCredit tx.Currency tx.Timestamp = none →
        qsum (createdMatches b.records r.1.records) = 0 ∧
        min q (fundsFor tx.Currency tx.Timestamp b.records) = 0) ∧
      (∀ (i : Nat) (L : credit), b.findCredit tx.Currency tx.Timestamp = some (i, L) →
        q ≤ L.balance →
        qsum (createdMatches b.records r.1.records) = q ∧
        min q (fundsFor tx.Currency tx.Timestamp b.records) = q) ∧
      ((∀ x, R.rnd x = x) →
        qsum (createdMatches b.records r.1.records) =
          min q (fundsFor tx.Currency tx.Timestamp b.records) ∧
        totalBalance b.records - totalBalance r.1.records =
          qsum (createdMatches b.records r.1.records)) := by
  have hle := sellWalkR_created_le R b.records q tx hbal
  refine ⟨_, Book.sellR_eq R b q tx, rfl, sellWalkR_length R b.records q tx, ?_, ?_, ?_, ?_, ?_,
    ?_⟩
  · intro j c hj hc
    exact sellWalkR_unchanged R b.records q tx j c hj hc
  · intro j c hj
    obtain ⟨c', hc', hstep⟩ := forall₂_getElem? (sellWalkR_eligibleStep R b.records q tx) j c hj
    refine ⟨c', hc', ?_⟩
    rcases hstep with h | ⟨_, a, ha, h⟩
    · exact Or.inl h
    · right
      subst h
      exact ⟨sellMatchR R a c tx, rfl, ha, rfl, rfl, rfl⟩
  · rw [fundsFor_eq_eligibleBalance]
    exact hle
  · intro hfind
    have hnone := (findCreditIn_none _ _ _).mp hfind
    have h1 := Book.sellR_eq R b q tx
    rw [Book.sellR_none R b q tx hfind] at h1
    simp only [Option.some.injEq, Prod.mk.injEq, and_true] at h1
    have h2 : sellWalkR R b.records q tx = b.records := (congrArg Book.records h1).symm
    constructor
    · show qsum (createdMatches b.records (sellWalkR R b.records q tx)) = 0
      rw [h2, createdMatches_self]
      rfl
    · rw [fundsFor_eq_eligibleBalance, eligibleBalance_of_none _ _ _ hnone]
      exact min_eq_right hq
  · intro i L hfind hcov
    have h1 := Book.sellR_eq R b q tx
    rw [Book.sellR_full R b q tx i L hfind hcov] at h1
    simp only [Option.some.injEq, Prod.mk.injEq, and_true] at h1
    have h2 : sellWalkR R b.records q tx =
        b.records.set i (L.debitR R (sellMatchR R q L tx)) := (congrArg Book.records h1).symm
    have h3 : qsum (createdMatches b.records (sellWalkR R b.records q tx)) = q := by
      rw [h2, createdMatches_set_debitR R _ i L _ (findCreditIn_some _ _ _ _ _ hfind).1]
      simp [qsum, sellMatchR]
    refine ⟨h3, ?_⟩
    apply min_eq_left
    rw [fundsFor_eq_eligibleBalance]
    exact h3 ▸ hle
  · intro hexact
    have hRe := Rounding.eq_exact R hexact
    subst hRe
    have hw : sellWalkR Rounding.exact b.records q tx = sellWalk b.records q tx :=
      sellWalkR_exact b.records q tx
    constructor
    · show qsum (createdMatches b.records (sellWalkR Rounding.exact b.records q tx)) = _
      rw [hw, fundsFor_eq_eligibleBalance]
      exact sellWalk_created_min b.records q tx hbal hq
    · show totalBalance b.records - totalBalance (sellWalkR Rounding.exact b.records q tx) =
        qsum (createdMatches b.records (sellWalkR Rounding.exact b.records q tx))
      rw [hw]
      exact totalBalance_of_lotStep (sellWalk_lotStep b.records q tx)

/-- C21, amended, witness. Lots of 2 and 3 BTC, so `E = 5`. With the arithmetic of the
program a sell of 1 BTC is matched for `min(1, 5) = 1` against the first lot, and the
matches never sum to more than 5. Without rounding a sell of 10 BTC is matched for
`min(10, 5) = 5`, and the balances go down by 5 in total. -/
theorem matched_total_witness :
    fundsFor exSell.Currency exSell.Timestamp exBookBought.records = 5 ∧
    (∃ r, exBookBought.sellR Rounding.bigFloat 1 exSell = some r ∧ r.2 = .ok 0 ∧
      qsum (createdMatches exBookBought.records r.1.records) = 1 ∧
      min (1 : ℚ) (fundsFor exSell.Currency exSell.Timestamp exBookBought.records) = 1 ∧
      qsum (createdMatches exBookBought.records r.1.records) ≤ 5) ∧
    (∃ r, exBookBought.sellR Rounding.exact 10 exSell = some r ∧ r.2 = .ok 0 ∧
      qsum (createdMatches exBookBought.records r.1.records) = 5 ∧
      totalBalance exBookBought.records - totalBalance r.1.records = 5) := by
  have hE : fundsFor exSell.Currency exSell.Timestamp exBookBought.records = 5 := by
    norm_num [fundsFor, exBookBought, exBook, exLot1, exLot2, exSell, exBuy1, exBuy2,
      List.filter, BTC, day]
  have hfind : exBookBought.findCredit exSell.Currency exSell.Timestamp = some (0, exLot1) := by
    decide
  have hbal : ∀ c ∈ exBookBought.records, 0 ≤ c.balance := by
    intro c hc
    simp only [exBookBought, List.mem_cons, List.mem_singleton, List.not_mem_nil,
      or_false] at hc
    rcases hc with rfl | rfl <;> norm_num [exLot1, exLot2]
  refine ⟨hE, ?_, ?_⟩
  · obtain ⟨r, h1, h2, _, _, _, h5, _, h7, _⟩ := matched_total Rounding.bigFloat exBookBought 1
      exSell hbal (by norm_num)
    obtain ⟨h8, h9⟩ := h7 0 exLot1 hfind (by norm_num [exLot1])
    rw [hE] at h5
    exact ⟨r, h1, h2, h8, h9, h5⟩
  · obtain ⟨r, h1, h2, _, _, _, _, _, _, h8⟩ := matched_total Rounding.exact exBookBought 10
      exSell hbal (by norm_num)
    obtain ⟨h9, h10⟩ := h8 (fun _ => rfl)
    rw [hE] at h9
    have h11 : qsum (createdMatches exBookBought.records r.1.records) = 5 := by
      rw [h9]
      norm_num
    exact ⟨r, h1, h2, h11, by rw [h10, h11]⟩

end Cryptotax
